import Mathlib

/-! # daw_json_link: serializer primitives, JSON path navigation and the linking class

A shallow embedding of

* `include/daw/json/impl/daw_json_to_string.h` (integer, string and date emission, class
  members and arrays),
* `include/daw/json/impl/daw_json_parse_name.h` (member names, JSON paths, `find_range`),
  and
* `include/daw_json_link.h` (the linking class: `from_json_string`, `to_json_string`).

Conventions of the embedding:

* a byte (`char`) is a natural number below 256; an output iterator is the list of
  bytes written so far, and `*it++ = c` appends `c` to it;
* `daw_json_error` / a failed `daw_json_assert` is `Except.error` carrying the message;
  an operation the C++ abstract machine leaves undefined (a store outside an array)
  is `Except.error` as well, with a message naming the violated bound;
* machine integers are `Int` / `Nat`, truncating division and remainder are
  `Int.tdiv` / `Int.tmod`, casts to a narrower unsigned type are `% 2 ^ w`.
-/

deriving instance DecidableEq for Except

namespace daw.json

/-! ## Integer emission -/

/-- The value of `std::numeric_limits<T>::digits10` for an integer type with
`numeric_limits<T>::digits = digits` (value bits, sign excluded):
`digits * 643 / 2136`, i.e. `⌊digits · log₁₀ 2⌋`. -/
def digits10 (digits : Nat) : Nat := digits * 643 / 2136

/-- The loop `do { *ptr++ = '0' + static_cast<char>( v % 10 ); v /= 10; } while( v > 0 );`
writing into what is left of `char buff[digits10]`: `room` is the number of elements
between `ptr` and the end of `buff`, `buff` the characters stored so far. -/
def write_digits : Nat → Int → List Nat → Except String (List Nat)
  | 0, _, _ => .error "store past the end of buff"
  | room + 1, v, buff =>
    let buff := buff ++ [(48 + v.tmod 10).toNat]
    let v := v.tdiv 10
    if v > 0 then write_digits room v buff else .ok buff

/-- The tail `--ptr; *it++ = *ptr; while( ptr != buff ) { --ptr; *it++ = *ptr; }`:
the stored characters are copied to the output from the last one down to `buff[0]`. -/
def copy_reversed (it : List Nat) (buff : List Nat) : List Nat := it ++ buff.reverse

/-- The integral branch of `to_string( ParseTag<JsonParseTypes::Signed>, it, value )`
for an `under_type` with `numeric_limits<under_type>::digits = digits`. -/
def to_string_Signed (digits : Nat) (it : List Nat) (value : Int) :
    Except String (List Nat) :=
  if value < 0 then
    let it := it ++ [45]
    match digits10 digits with
    | 0 => .error "store past the end of buff"
    | room + 1 =>
      let buff := [(48 - value.tmod 10).toNat]
      let v := value.tdiv (-10)
      if v = 0 then .ok (it ++ buff.take 1)
      else (write_digits room v buff).map (copy_reversed it)
  else
    (write_digits (digits10 digits) value []).map (copy_reversed it)

/-- The integral branch of `to_string( ParseTag<JsonParseTypes::Unsigned>, it, value )`
for an `under_type` with `numeric_limits<under_type>::digits = digits`. -/
def to_string_Unsigned (digits : Nat) (it : List Nat) (value : Int) :
    Except String (List Nat) :=
  if value < 0 then .error "Negative numbers are not supported for unsigned types"
  else (write_digits (digits10 digits) value []).map (copy_reversed it)

/-- The canonical base-10 text of a natural number: its decimal digits, most
significant first, no leading zero, `0` for zero. -/
def canonical_nat (n : Nat) : List Nat :=
  if n = 0 then [48] else ((Nat.digits 10 n).map (48 + ·)).reverse

/-- The canonical base-10 text of an integer: `-` and the digits of `|v|` for a
negative `v`, the digits of `v` otherwise. -/
def canonical_int (v : Int) : List Nat :=
  if v < 0 then 45 :: canonical_nat v.natAbs else canonical_nat v.natAbs

/-! ## Date emission -/

/-- Modelled from the spec: the civil time record `ymdhms` of `daw_iso8601_utils.h`,
which is not among the sources: `{year:i32, month:u8, day:u8, hour:u8, minute:u8,
second:u8, millisecond:u16}`. -/
structure ymdhms where
  year : Int
  month : Nat
  day : Nat
  hour : Nat
  minute : Nat
  second : Nat
  millisecond : Nat
  deriving DecidableEq, Repr

/-- The body of `to_string( ParseTag<JsonParseTypes::Date>, it, value )`.  The conversion
`time_point_to_civil` (declared in `daw_iso8601_utils.h`) is a parameter; an empty
optional is the case `is_null( value )`. -/
def to_string_Date {τ : Type} (time_point_to_civil : τ → ymdhms) (it : List Nat)
    (value : Option τ) : Except String (List Nat) :=
  match value with
  | none => .ok (it ++ [110, 117, 108, 108])
  | some tp => do
    let it := it ++ [34]
    let civil := time_point_to_civil tp
    let it ← to_string_Signed 31 it civil.year
    let it := it ++ [45]
    let it := if civil.month < 10 then it ++ [48] else it
    let it ← to_string_Unsigned 8 it civil.month
    let it := it ++ [45]
    let it := if civil.day < 10 then it ++ [48] else it
    let it ← to_string_Unsigned 8 it civil.day
    let it := it ++ [84]
    let it := if civil.hour < 10 then it ++ [48] else it
    let it ← to_string_Unsigned 8 it civil.hour
    let it := it ++ [58]
    let it := if civil.minute < 10 then it ++ [48] else it
    let it ← to_string_Unsigned 8 it civil.minute
    let it := it ++ [58]
    let it := if civil.second < 10 then it ++ [48] else it
    let it ← to_string_Unsigned 8 it civil.second
    let it ← (if civil.millisecond > 0 then
        to_string_Unsigned 16 (it ++ [46]) civil.millisecond
      else .ok it)
    let it := it ++ [90]
    .ok (it ++ [34])

/-- Two zero-padded decimal digits of `n`. -/
def two_digits (n : Nat) : List Nat := [48 + n / 10 % 10, 48 + n % 10]

/-- Three zero-padded decimal digits of `n`. -/
def three_digits (n : Nat) : List Nat := [48 + n / 100 % 10, 48 + n / 10 % 10, 48 + n % 10]

/-- Four zero-padded decimal digits of `n`. -/
def four_digits (n : Nat) : List Nat :=
  [48 + n / 1000 % 10, 48 + n / 100 % 10, 48 + n / 10 % 10, 48 + n % 10]

/-! ## String emission -/

/-- The string policy `EightBitModes` carried by a member description. -/
inductive EightBitModes where
  | DisallowHigh
  | AllowFull
  deriving DecidableEq, Repr

/-- `to_nibble_char( c )`: the upper-case hexadecimal digit of a nibble. -/
def to_nibble_char (c : Nat) : Except String Nat :=
  if c < 16 then
    if c < 10 then .ok ((c + 48) % 256) else .ok (((c - 10) + 65) % 256)
  else .error "Unexpected hex nibble"

/-- `output_hex( c, it )` for a `std::uint16_t c`: backslash, `u` and four nibbles. -/
def output_hex (c : Nat) (it : List Nat) : Except String (List Nat) := do
  let n0 ← to_nibble_char ((c >>> 12) &&& 0xF)
  let n1 ← to_nibble_char ((c >>> 8) &&& 0xF)
  let n2 ← to_nibble_char ((c >>> 4) &&& 0xF)
  let n3 ← to_nibble_char (c &&& 0xF)
  .ok (it ++ [92, 117, n0, n1, n2, n3])

/-- `utf32_to_utf8( cp, it )`; every stored value passes through `static_cast<char>`. -/
def utf32_to_utf8 (cp : Nat) (it : List Nat) : Except String (List Nat) :=
  if cp ≤ 0x7F then .ok (it ++ [cp % 256])
  else if cp ≤ 0x7FF then
    .ok (it ++ [((cp >>> 6) ||| 0xC0) % 256, ((cp &&& 0x3F) ||| 0x80) % 256])
  else if cp ≤ 0xFFFF then
    .ok (it ++ [((cp >>> 12) ||| 0xE0) % 256, (((cp >>> 6) &&& 0x3F) ||| 0x80) % 256,
      ((cp &&& 0x3F) ||| 0x80) % 256])
  else if cp ≤ 0x10FFFF then
    .ok (it ++ [((cp >>> 18) ||| 0xF0) % 256, (((cp >>> 12) &&& 0x3F) ||| 0x80) % 256,
      (((cp >>> 6) &&& 0x3F) ||| 0x80) % 256, ((cp &&& 0x3F) ||| 0x80) % 256])
  else .error "Invalid code point"

/-- The function `utf8::internal::sequence_length` of utfcpp (a library outside the
repository): the length announced by a lead byte, `0` when it announces none. -/
def sequence_length (lead_byte : Nat) : Nat :=
  let lead := lead_byte &&& 0xFF
  if lead < 0x80 then 1
  else if lead >>> 5 = 0x6 then 2
  else if lead >>> 4 = 0xE then 3
  else if lead >>> 3 = 0x1E then 4
  else 0

/-- One `*first++` on a `utf8::unchecked::iterator` (utfcpp): the code point read by
`utf8::unchecked::next` and the bytes left after advancing by `sequence_length`.
Continuation bytes are not validated.  `none` stands for the steps the library leaves
undefined: a lead byte without a sequence length (the iterator does not advance) and a
sequence cut off by the end of the container (the iterator steps over `last`). -/
def utf8_next : List Nat → Option (Nat × List Nat)
  | [] => none
  | b0 :: rest =>
    let cp := b0 &&& 0xFF
    match sequence_length b0, rest with
    | 1, rest => some (cp, rest)
    | 2, b1 :: rest => some (((cp <<< 6) &&& 0x7FF) + (b1 &&& 0x3F), rest)
    | 3, b1 :: b2 :: rest =>
      some (((cp <<< 12) &&& 0xFFFF) + (((b1 &&& 0xFF) <<< 6) &&& 0xFFF) + (b2 &&& 0x3F), rest)
    | 4, b1 :: b2 :: b3 :: rest =>
      some (((cp <<< 18) &&& 0x1FFFFF) + (((b1 &&& 0xFF) <<< 12) &&& 0x3FFFF)
        + (((b2 &&& 0xFF) <<< 6) &&& 0xFFF) + (b3 &&& 0x3F), rest)
    | _, _ => none

/-- The code points read while `first != last`, at most `steps` of them; bytes left
over after `steps` reads count as a walk that did not reach `last`. -/
def utf8_walk : Nat → List Nat → Option (List Nat)
  | _, [] => some []
  | 0, _ :: _ => none
  | steps + 1, b0 :: rest =>
    match utf8_next (b0 :: rest) with
    | some (cp, rest) => (utf8_walk steps rest).map (cp :: ·)
    | none => none

/-- The sequence of code points a `utf8::unchecked::iterator` yields between
`std::begin( container )` and `std::end( container )`.  Every step consumes at least one
byte, so `container.length` steps reach `last` (`utf8_walk_steps`). -/
def utf8_code_points (container : List Nat) : Option (List Nat) :=
  utf8_walk container.length container

/-- The body of the loop of `copy_to_iterator<true, EightBitMode>`: the `switch( cp )`
applied to one decoded code point. -/
def escape_code_point (EightBitMode : EightBitModes) (cp : Nat) (it : List Nat) :
    Except String (List Nat) :=
  if cp = 34 then .ok (it ++ [92, 34])
  else if cp = 92 then .ok (it ++ [92, 92])
  else if cp = 47 then .ok (it ++ [92, 47])
  else if cp = 8 then .ok (it ++ [92, 98])
  else if cp = 12 then .ok (it ++ [92, 102])
  else if cp = 10 then .ok (it ++ [92, 110])
  else if cp = 13 then .ok (it ++ [92, 114])
  else if cp = 9 then .ok (it ++ [92, 116])
  else
    match EightBitMode with
    | .DisallowHigh =>
      if cp < 0x20 then output_hex (cp % 65536) it
      else if cp ≥ 0x7F ∧ cp ≤ 0xFFFF then output_hex (cp % 65536) it
      else if cp > 0xFFFF then do
        let it ← output_hex ((0xD7C0 + (cp >>> 10)) % 65536) it
        output_hex ((0xDC00 + (cp &&& 0x3FF)) % 65536) it
      else utf32_to_utf8 cp it
    | .AllowFull => utf32_to_utf8 cp it

/-- The loop `while( first != last ) { auto const cp = *first++; switch( cp ) ... }`
over the decoded code points. -/
def escape_code_points (EightBitMode : EightBitModes) :
    List Nat → List Nat → Except String (List Nat)
  | [], it => .ok it
  | cp :: cps, it => do
    let it ← escape_code_point EightBitMode cp it
    escape_code_points EightBitMode cps it

/-- The loop `for( auto c : container )` of `copy_to_iterator<false, EightBitMode>`. -/
def copy_raw (EightBitMode : EightBitModes) : List Nat → List Nat → Except String (List Nat)
  | [], it => .ok it
  | c :: cs, it =>
    if EightBitMode = .DisallowHigh ∧ ¬ (c % 256 ≥ 0x20 ∧ c % 256 ≤ 0x7F) then
      .error "string support limited to 0x20 < chr <= 0x7F when DisallowHighEightBit is true"
    else copy_raw EightBitMode cs (it ++ [c])

/-- The container overload `copy_to_iterator<do_escape, EightBitMode>( container, it )`. -/
def copy_to_iterator (do_escape : Bool) (EightBitMode : EightBitModes)
    (container : List Nat) (it : List Nat) : Except String (List Nat) :=
  if do_escape then
    match utf8_code_points container with
    | some cps => escape_code_points EightBitMode cps it
    | none => .error "utf8::unchecked::iterator walked outside the container"
  else copy_raw EightBitMode container it

/-- The serializer `to_string( ParseTag<JsonParseTypes::StringEscaped>, it, value )`. -/
def to_string_StringEscaped (eight_bit_mode : EightBitModes) (it : List Nat)
    (value : List Nat) : Except String (List Nat) := do
  let it := it ++ [34]
  let it ← copy_to_iterator true eight_bit_mode value it
  .ok (it ++ [34])

/-- Unicode scalar values: the code points up to U+10FFFF without the surrogates. -/
def is_scalar_value (c : Nat) : Bool := c < 0xD800 ∨ (0xE000 ≤ c ∧ c ≤ 0x10FFFF)

/-- The UTF-8 encoding form of a code point (Unicode Standard, table 3-6), written
arithmetically. -/
def utf8_encoding (c : Nat) : List Nat :=
  if c < 0x80 then [c]
  else if c < 0x800 then [0xC0 + c / 64, 0x80 + c % 64]
  else if c < 0x10000 then [0xE0 + c / 4096, 0x80 + c / 64 % 64, 0x80 + c % 64]
  else [0xF0 + c / 262144, 0x80 + c / 4096 % 64, 0x80 + c / 64 % 64, 0x80 + c % 64]

/-- The UTF-8 text of a sequence of code points. -/
def utf8_text : List Nat → List Nat
  | [] => []
  | c :: cs => utf8_encoding c ++ utf8_text cs

/-- Valid UTF-8: the byte string is the UTF-8 text of a sequence of scalar values. -/
def valid_utf8 (s : List Nat) : Prop :=
  ∃ cs : List Nat, (∀ c ∈ cs, is_scalar_value c = true) ∧ s = utf8_text cs

/-- The upper-case hexadecimal digit character of `n % 16`. -/
def hex_upper (n : Nat) : Nat := if n % 16 < 10 then 48 + n % 16 else 55 + n % 16

/-- The six bytes of the JSON escape `\uXXXX` of a 16-bit value, upper-case digits. -/
def u_escape (c : Nat) : List Nat :=
  [92, 117, hex_upper (c / 4096), hex_upper (c / 256), hex_upper (c / 16), hex_upper c]

/-- The eight characters the serializer escapes with a two-byte backslash sequence. -/
def is_short_escaped (cp : Nat) : Bool :=
  cp = 34 ∨ cp = 92 ∨ cp = 47 ∨ cp = 8 ∨ cp = 12 ∨ cp = 10 ∨ cp = 13 ∨ cp = 9

/-- The second byte of the two-byte escape of a short-escaped character: the character
itself for the double quote, the backslash and the slash, and the letters `b`, `f`, `n`,
`r`, `t` for backspace, form feed, newline, carriage return and tab. -/
def short_escape_letter (cp : Nat) : Nat :=
  if cp = 8 then 98 else if cp = 12 then 102 else if cp = 10 then 110
  else if cp = 13 then 114 else if cp = 9 then 116 else cp

/-- The function `utf32_to_utf8` applied to the code points of a list in turn. -/
def encode_code_points : List Nat → List Nat → Except String (List Nat)
  | [], it => .ok it
  | cp :: cps, it => do
    let it ← utf32_to_utf8 cp it
    encode_code_points cps it

/-! ## Parse policy / Range -/

/-- Modelled from the spec: the Range of the parse policy (section 4.1;
`daw_json_parse_policy.h` is not among the sources).  `bytes` are the bytes between
`begin` and `end`, `checked` is the trust mode; the whitespace policy is standard JSON
whitespace and the comment policy is none. -/
structure Range where
  checked : Bool
  bytes : List Nat
  deriving DecidableEq, Repr

/-- Modelled from the spec: `daw_json_assert_weak` (`daw_json_assert.h` is not among the
sources): a checked policy raises the reason when the condition fails, an unchecked
policy elides the check. -/
def daw_json_assert_weak (checked : Bool) (cond : Bool) (reason : String) :
    Except String Unit :=
  if checked && !cond then .error reason else .ok ()

/-- Modelled from the spec: `empty()`. -/
def Range.empty (rng : Range) : Bool := rng.bytes.isEmpty

/-- Modelled from the spec: `has_more()`. -/
def Range.has_more (rng : Range) : Bool := !rng.bytes.isEmpty

/-- Modelled from the spec: `front()`, the current byte; there is none to read when the
range is exhausted ("Unexpected end of stream"). -/
def Range.front (rng : Range) : Except String Nat :=
  match rng.bytes with
  | b :: _ => .ok b
  | [] => .error "Unexpected end of stream"

/-- Modelled from the spec: `front( c )`, the current byte equals `c`. -/
def Range.front_is (rng : Range) (c : Nat) : Bool :=
  match rng.bytes with
  | b :: _ => b == c
  | [] => false

/-- Modelled from the spec: `remove_prefix( n )`, advance by `n` bytes; the range must
hold that many. -/
def remove_prefix (n : Nat) (rng : Range) : Except String Range :=
  if n ≤ rng.bytes.length then .ok { rng with bytes := rng.bytes.drop n }
  else .error "Unexpected end of stream"

/-- JSON whitespace: ASCII 0x20, 0x09, 0x0A, 0x0D. -/
def is_json_space (b : Nat) : Bool := b = 0x20 ∨ b = 0x09 ∨ b = 0x0A ∨ b = 0x0D

/-- Modelled from the spec: `is_space()`, the current byte is JSON whitespace. -/
def Range.is_space (rng : Range) : Bool :=
  match rng.bytes with
  | b :: _ => is_json_space b
  | [] => false

/-- The loop `while( rng.is_space( ) ) { rng.remove_prefix( ); }` on the bytes of a
range. -/
def skip_spaces : List Nat → List Nat
  | [] => []
  | b :: rest => if is_json_space b then skip_spaces rest else b :: rest

/-- Modelled from the spec: `trim_left_checked()`, skip whitespace (no comment syntax
under the comment policy none). -/
def Range.trim_left_checked (rng : Range) : Range := { rng with bytes := skip_spaces rng.bytes }

/-- Modelled from the spec: `trim_left_unchecked()`, skip whitespace. -/
def Range.trim_left_unchecked (rng : Range) : Range :=
  { rng with bytes := skip_spaces rng.bytes }

/-- Modelled from the spec: `clean_tail()`, after a value skip whitespace and at most one
`,` (and the whitespace behind it). -/
def Range.clean_tail (rng : Range) : Range :=
  let rng := rng.trim_left_checked
  match rng.bytes with
  | 44 :: rest => { rng with bytes := skip_spaces rest }
  | _ => rng

/-! ## Skip-Value -/

/-- Modelled from the spec: the string scan of Skip-Value, behind the opening quote: scan
to the unescaped `"`; a backslash escapes the byte after it.  Returns the bytes behind
the closing quote. -/
def skip_string_body : Bool → List Nat → Except String (List Nat)
  | _, [] => .error "Unexpected end of stream"
  | true, _ :: rest => skip_string_body false rest
  | false, b :: rest =>
    if b = 92 then skip_string_body true rest
    else if b = 34 then .ok rest
    else skip_string_body false rest

/-- Modelled from the spec: the object / array scan of Skip-Value, behind the opener:
the depth goes up on the matching opener, down on the matching closer, nested strings
and their escapes are respected, and the scan stops when the depth returns to zero.
`depth` is the number of closers still owed minus one. -/
def skip_bracketed (opener closer : Nat) :
    (depth : Nat) → (in_string escaped : Bool) → List Nat → Except String (List Nat)
  | _, _, _, [] => .error "Unexpected end of stream"
  | depth, true, true, _ :: rest => skip_bracketed opener closer depth true false rest
  | depth, true, false, b :: rest =>
    if b = 92 then skip_bracketed opener closer depth true true rest
    else if b = 34 then skip_bracketed opener closer depth false false rest
    else skip_bracketed opener closer depth true false rest
  | depth, false, _, b :: rest =>
    if b = 34 then skip_bracketed opener closer depth true false rest
    else if b = opener then skip_bracketed opener closer (depth + 1) false false rest
    else if b = closer then
      match depth with
      | 0 => .ok rest
      | d + 1 => skip_bracketed opener closer d false false rest
    else skip_bracketed opener closer depth false false rest

/-- The bytes a number is scanned over: `[0-9eE+.\-]`. -/
def is_number_byte (b : Nat) : Bool :=
  (48 ≤ b ∧ b ≤ 57) ∨ b = 101 ∨ b = 69 ∨ b = 43 ∨ b = 46 ∨ b = 45

/-- Modelled from the spec: the number scan of Skip-Value. -/
def skip_number : List Nat → List Nat
  | [] => []
  | b :: rest => if is_number_byte b then skip_number rest else b :: rest

/-- Modelled from the spec: Skip-Value (section 4.2; `daw_json_skip.h` is not among the
sources).  With the cursor on the first byte of a value, advance past exactly that value
and return the skipped bytes and the range behind them.  The leading byte selects the
scan; any other leading byte is rejected. -/
def skip_value (rng : Range) : Except String (List Nat × Range) :=
  let finish (rest : List Nat) : List Nat × Range :=
    (rng.bytes.take (rng.bytes.length - rest.length), { rng with bytes := rest })
  match rng.bytes with
  | [] => .error "Unexpected end of stream"
  | b :: rest =>
    if b = 34 then (skip_string_body false rest).map finish
    else if b = 123 then (skip_bracketed 123 125 0 false false rest).map finish
    else if b = 91 then (skip_bracketed 91 93 0 false false rest).map finish
    else if b = 116 ∨ b = 110 then ( remove_prefix 4 rng).map (fun r => finish r.bytes)
    else if b = 102 then ( remove_prefix 5 rng).map (fun r => finish r.bytes)
    else if (48 ≤ b ∧ b ≤ 57) ∨ b = 45 then .ok (finish (skip_number rest))
    else .error "Unexpected value start"

/-! ## Member names and JSON paths -/

/-- The function `name::name_parser::trim_end_of_name`. -/
def trim_end_of_name (rng : Range) : Except String Range := do
  let rng : Range := { rng with bytes := skip_spaces rng.bytes }
  if rng.checked then
    let c ← rng.front
    daw_json_assert_weak rng.checked (c == 58) "Expected a ':'"
  let rng ← remove_prefix 1 rng
  .ok { rng with bytes := skip_spaces rng.bytes }

/-- The scan of `name::name_parser::parse_nq`: advance to the first `"` that is not
skipped; on a backslash `remove_prefix( 2 )` skips it and the byte behind it without
looking at that byte (`skip` is set for that byte).  Returns the bytes passed over and
the bytes from the closing quote on. -/
def parse_nq_scan : Bool → List Nat → Except String (List Nat × List Nat)
  | _, [] => .error "Unexpected end of stream"
  | true, b :: rest => (parse_nq_scan false rest).map (fun r => (b :: r.1, r.2))
  | false, b :: rest =>
    if b = 34 then .ok ([], b :: rest)
    else (parse_nq_scan (b = 92) rest).map (fun r => (b :: r.1, r.2))

/-- The function `name::name_parser::parse_nq`: the name and the range behind the name,
the colon and the whitespace around it. -/
def parse_nq (rng : Range) : Except String (List Nat × Range) := do
  let (result, rest) ← parse_nq_scan false rng.bytes
  let rng : Range := { rng with bytes := rest }
  let c ← rng.front
  daw_json_assert_weak rng.checked (c == 34) "Expected a '\"' at the end of string"
  let rng ← remove_prefix 1 rng
  let rng ← trim_end_of_name rng
  .ok (result, rng)

/-- The function `parse_name`. -/
def parse_name (rng : Range) : Except String (List Nat × Range) := do
  daw_json_assert_weak rng.checked (rng.front_is 34) "Expected name to start with a quote"
  let rng ← remove_prefix 1 rng
  parse_nq rng

/-- The result of `pop_json_path`: the segment, the delimiter that ended it (`0` when
none did) and the path left behind. -/
structure pop_json_path_result where
  current : List Nat
  found_char : Nat
  path : List Nat
  deriving DecidableEq, Repr

/-- The call `path.pop_front( pred )` of `pop_json_path` with its stateful predicate
(`daw::string_view::pop_front` is part of a library outside the repository): the bytes
before the first byte the predicate accepts, that byte, and the bytes behind it; the
whole path and no delimiter when the predicate accepts none. -/
def pop_front_path : Bool → List Nat → pop_json_path_result
  | _, [] => ⟨[], 0, []⟩
  | true, c :: rest =>
    let r := pop_front_path false rest
    { r with current := c :: r.current }
  | false, c :: rest =>
    if c = 92 then
      let r := pop_front_path true rest
      { r with current := c :: r.current }
    else if c = 46 ∨ c = 91 ∨ c = 93 then ⟨[], c, rest⟩
    else
      let r := pop_front_path false rest
      { r with current := c :: r.current }

/-- The function `pop_json_path`. -/
def pop_json_path (path : List Nat) : pop_json_path_result :=
  match path with
  | [] => ⟨[], 0, []⟩
  | c :: rest => if c = 46 then pop_front_path false rest else pop_front_path false (c :: rest)

/-- The loop of `json_path_compare`. -/
def json_path_compare_loop : List Nat → List Nat → Bool
  | json_path_item, [] => json_path_item.length == 0
  | [], _ :: _ => false
  | i :: json_path_item, m :: member_name =>
    if i ≠ m then false
    else
      let json_path_item :=
        match json_path_item with
        | 92 :: tail => tail
        | other => other
      json_path_compare_loop json_path_item member_name

/-- The function `json_path_compare`. -/
def json_path_compare (json_path_item member_name : List Nat) : Bool :=
  match json_path_item with
  | 92 :: tail => json_path_compare_loop tail member_name
  | other => json_path_compare_loop other member_name

/-- The call `daw::parser::parse_unsigned_int<std::size_t>` (a library outside the
repository) on a path segment: the value of its leading decimal digits, in 64 bits. -/
def parse_unsigned_int (current : List Nat) : Nat :=
  ((current.takeWhile (fun c => 48 ≤ c ∧ c ≤ 57)).foldl (fun r c => r * 10 + (c - 48)) 0)
    % 2 ^ 64

/-- The array-index loop `while( idx > 0 )` of `find_range2`: the range as the loop
leaves it, with `false` for `return false` and `true` when the loop runs to its end. -/
def find_range2_index : Nat → Range → Except String (Bool × Range)
  | 0, rng => .ok (true, rng)
  | idx + 1, rng => do
    let (_, rng) ← skip_value rng
    let rng := rng.trim_left_checked
    if idx > 0 ∧ ¬ rng.front_is 44 then .ok (false, rng)
    else find_range2_index idx rng.clean_tail

/-- The member loop `while( not json_path_compare( pop_result.current, name ) )` of
`find_range2`: the range as the loop leaves it, with `false` for `return false` and
`true` when the name compares equal.  Every round consumes input, so the number of rounds
is bounded by the bytes left. -/
def find_range2_member (current : List Nat) :
    Nat → List Nat → Range → Except String (Bool × Range)
  | 0, _, _ => .error "Unexpected end of stream"
  | rounds + 1, name, rng =>
    if json_path_compare current name then .ok (true, rng)
    else do
      let (_, rng) ← skip_value rng
      let rng := rng.clean_tail
      if rng.empty then .ok (false, rng)
      else
        let c ← rng.front
        if c ≠ 34 then .ok (false, rng)
        else
          let (name, rng) ← parse_name rng
          find_range2_member current rounds name rng

/-- The segment loop of `find_range2`, at most `pops` calls of `pop_json_path`: the flag
returned and the range as the call leaves it.  Running out of `pops` before the empty
segment is met is reported as an error of its own. -/
def find_range2_loop : Nat → Range → List Nat → Except String (Bool × Range)
  | 0, _, _ => .error "segment loop: path not exhausted"
  | pops + 1, rng, path =>
    let pop_result := pop_json_path path
    if pop_result.current.isEmpty then .ok (true, rng)
    else if pop_result.found_char = 93 then do
      daw_json_assert_weak rng.checked (rng.front_is 91) "Invalid Path Entry"
      let rng ← remove_prefix 1 rng
      let rng := rng.trim_left_unchecked
      let idx := parse_unsigned_int pop_result.current
      let (more, rng) ← find_range2_index idx rng
      if more then find_range2_loop pops rng pop_result.path else .ok (false, rng)
    else do
      daw_json_assert_weak rng.checked (rng.front_is 123) "Invalid Path Entry"
      let rng ← remove_prefix 1 rng
      let rng := rng.trim_left_unchecked
      let (name, rng) ← parse_name rng
      let (more, rng) ← find_range2_member pop_result.current (rng.bytes.length + 1) name rng
      if more then find_range2_loop pops rng pop_result.path else .ok (false, rng)

/-- The function `find_range2`.  Every pop with a non-empty segment shortens the path, so
`path.length + 1` pops reach the empty segment. -/
def find_range2 (rng : Range) (path : List Nat) : Except String (Bool × Range) :=
  find_range2_loop (path.length + 1) rng path

/-- The function `find_range` for a parse policy with trust mode `checked`. -/
def find_range (checked : Bool) (str : List Nat) (start_path : List Nat) :
    Except String (Bool × Range) :=
  let rng : Range := { checked := checked, bytes := str }
  let rng := rng.trim_left_checked
  if rng.has_more ∧ ¬ start_path.isEmpty then do
    let (found, rng) ← find_range2 rng start_path
    if ¬ found then .ok (false, rng) else .ok (true, rng)
  else .ok (true, rng)

/-! ## Path and name syntax used to state the properties -/

/-- The path delimiters `.`, `[` and `]`. -/
def is_path_delimiter (c : Nat) : Bool := c = 46 ∨ c = 91 ∨ c = 93

/-- A path with one leading `.` removed if present. -/
def drop_leading_dot : List Nat → List Nat
  | [] => []
  | c :: rest => if c = 46 then rest else c :: rest

/-- Position `i` of `q` holds an unescaped delimiter: reading `q` from the left, a
backslash that is not itself escaped escapes the byte behind it, and an escaped byte is
never a delimiter.  `escaped` tells whether the first byte of `q` is escaped. -/
def unescaped_delimiter_at : Bool → List Nat → Nat → Bool
  | _, [], _ => false
  | true, _ :: _, 0 => false
  | false, c :: _, 0 => is_path_delimiter c
  | true, _ :: rest, i + 1 => unescaped_delimiter_at false rest i
  | false, c :: rest, i + 1 => unescaped_delimiter_at (c = 92) rest i

/-- Reading a segment from the left, drop each escaping backslash and keep the byte
behind it literally.  `escaped` tells whether the first byte is escaped. -/
def unescape : Bool → List Nat → List Nat
  | _, [] => []
  | true, c :: rest => c :: unescape false rest
  | false, c :: rest => if c = 92 then unescape true rest else c :: unescape false rest

/-- A member name written for a path: a backslash is inserted before every `.`, `[`, `]`
and backslash. -/
def escape_name : List Nat → List Nat
  | [] => []
  | c :: rest =>
    if is_path_delimiter c ∨ c = 92 then 92 :: c :: escape_name rest
    else c :: escape_name rest

/-- Path segments joined with `.`. -/
def join_path : List (List Nat) → List Nat
  | [] => []
  | [seg] => seg
  | seg :: more :: segs => seg ++ 46 :: join_path (more :: segs)

/-- The segments repeated calls of `pop_json_path` yield up to the first empty segment,
as the segment loop of `find_range2` sees them; `none` when `pops` calls do not reach an
empty segment. -/
def pop_segments : Nat → List Nat → Option (List (List Nat))
  | 0, _ => none
  | pops + 1, path =>
    let pop_result := pop_json_path path
    if pop_result.current.isEmpty then some []
    else (pop_segments pops pop_result.path).map (pop_result.current :: ·)

/-- The body of a quoted name: bytes other than the double quote and the backslash,
interleaved with two-byte backslash escapes.  `escaped` tells whether the first byte is
the second byte of an escape. -/
def name_body : Bool → List Nat → Bool
  | escaped, [] => !escaped
  | true, _ :: rest => name_body false rest
  | false, c :: rest => if c = 34 then false else name_body (c = 92) rest

/-- Every byte of the list is JSON whitespace. -/
def all_spaces (ws : List Nat) : Bool := ws.all is_json_space

/-! ## Well-formed JSON text and the value a path identifies -/

mutual
/-- JSON text as a tree that records every byte: a string (the bytes between its
quotes), a number, a literal, an array or an object, with the whitespace between the
tokens. -/
inductive JsonValue where
  | str (body : List Nat)
  | num (text : List Nat)
  | lit (text : List Nat)
  | arr_empty (w : List Nat)
  | arr (elems : JsonElements)
  | obj_empty (w : List Nat)
  | obj (members : JsonMembers)
/-- The elements of a non-empty array: whitespace, value, whitespace, separated by
commas. -/
inductive JsonElements where
  | last (w1 : List Nat) (v : JsonValue) (w2 : List Nat)
  | cons (w1 : List Nat) (v : JsonValue) (w2 : List Nat) (rest : JsonElements)
/-- The members of a non-empty object: whitespace, quoted name, whitespace, colon,
whitespace, value, whitespace, separated by commas. -/
inductive JsonMembers where
  | last (w1 name w2 w3 : List Nat) (v : JsonValue) (w4 : List Nat)
  | cons (w1 name w2 w3 : List Nat) (v : JsonValue) (w4 : List Nat) (rest : JsonMembers)
end

mutual
/-- The bytes of a JSON value. -/
def JsonValue.render : JsonValue → List Nat
  | .str body => 34 :: (body ++ [34])
  | .num text => text
  | .lit text => text
  | .arr_empty w => 91 :: (w ++ [93])
  | .arr elems => 91 :: (elems.render ++ [93])
  | .obj_empty w => 123 :: (w ++ [125])
  | .obj members => 123 :: (members.render ++ [125])
/-- The bytes of the elements of an array, between the brackets. -/
def JsonElements.render : JsonElements → List Nat
  | .last w1 v w2 => w1 ++ (v.render ++ w2)
  | .cons w1 v w2 rest => w1 ++ (v.render ++ (w2 ++ 44 :: rest.render))
/-- The bytes of the members of an object, between the braces. -/
def JsonMembers.render : JsonMembers → List Nat
  | .last w1 name w2 w3 v w4 =>
    w1 ++ 34 :: (name ++ 34 :: (w2 ++ 58 :: (w3 ++ (v.render ++ w4))))
  | .cons w1 name w2 w3 v w4 rest =>
    w1 ++ 34 :: (name ++ 34 :: (w2 ++ 58 :: (w3 ++ (v.render ++ (w4 ++ 44 :: rest.render)))))
end

/-- The text of a number as Skip-Value needs it: a digit or `-`, then bytes of
`[0-9eE+.\-]` (every RFC 8259 number has this form). -/
def number_text : List Nat → Bool
  | [] => false
  | b :: rest => ((48 ≤ b ∧ b ≤ 57) ∨ b = 45) && rest.all is_number_byte

/-- The text of one of the literals `true`, `false`, `null`. -/
def literal_text (text : List Nat) : Bool :=
  text = [116, 114, 117, 101] ∨ text = [102, 97, 108, 115, 101] ∨ text = [110, 117, 108, 108]

mutual
/-- Well-formed JSON: strings are closed by the first unescaped quote, numbers and
literals have their text, and only whitespace stands between the tokens. -/
def JsonValue.well_formed : JsonValue → Bool
  | .str body => name_body false body
  | .num text => number_text text
  | .lit text => literal_text text
  | .arr_empty w => all_spaces w
  | .arr elems => elems.well_formed
  | .obj_empty w => all_spaces w
  | .obj members => members.well_formed
/-- Well-formed elements of an array. -/
def JsonElements.well_formed : JsonElements → Bool
  | .last w1 v w2 => all_spaces w1 && v.well_formed && all_spaces w2
  | .cons w1 v w2 rest => all_spaces w1 && v.well_formed && all_spaces w2 && rest.well_formed
/-- Well-formed members of an object. -/
def JsonMembers.well_formed : JsonMembers → Bool
  | .last w1 name w2 w3 v w4 =>
    all_spaces w1 && name_body false name && all_spaces w2 && all_spaces w3
      && v.well_formed && all_spaces w4
  | .cons w1 name w2 w3 v w4 rest =>
    all_spaces w1 && name_body false name && all_spaces w2 && all_spaces w3
      && v.well_formed && all_spaces w4 && rest.well_formed
end

/-- The element of index `i`. -/
def JsonElements.get : JsonElements → Nat → Option JsonValue
  | .last _ v _, 0 => some v
  | .last _ _ _, _ + 1 => none
  | .cons _ v _ _, 0 => some v
  | .cons _ _ _ rest, i + 1 => rest.get i

/-- The value of the first member whose name is the unescaped path segment. -/
def JsonMembers.find (segment : List Nat) : JsonMembers → Option JsonValue
  | .last _ name _ _ v _ => if unescape false segment = name then some v else none
  | .cons _ name _ _ v _ rest =>
    if unescape false segment = name then some v else rest.find segment

/-- A path segment: a non-empty run of bytes in which every `.`, `[` and `]` is escaped by
a backslash and no backslash is left without the byte it escapes.  `escaped` tells
whether the first byte is escaped. -/
def path_segment : Bool → List Nat → Bool
  | escaped, [] => !escaped
  | true, _ :: rest => path_segment false rest
  | false, c :: rest =>
    if c = 92 then path_segment true rest
    else if is_path_delimiter c then false
    else path_segment false rest

/-- One part of a path: a member-name segment, optionally followed by one bracketed
index. -/
structure PathPart where
  segment : List Nat
  index : Option Nat
  deriving DecidableEq, Repr

/-- The text of a path part: the segment, then `[`, the decimal index and `]` if there
is an index. -/
def PathPart.text (p : PathPart) : List Nat :=
  match p.index with
  | none => p.segment
  | some i => p.segment ++ 91 :: (canonical_nat i ++ [93])

/-- A path part the navigator can read: a non-empty valid segment and an index that fits
`std::size_t`. -/
def PathPart.valid (p : PathPart) : Bool :=
  !p.segment.isEmpty && path_segment false p.segment &&
    (match p.index with
     | none => true
     | some i => decide (i < 2 ^ 64))

/-- The text of a path: its parts joined with `.`. -/
def path_text (parts : List PathPart) : List Nat := join_path (parts.map PathPart.text)

/-- The value one path part identifies in a value: the named member of an object and,
with an index, the element of that index in the array the member holds. -/
def resolve_part (v : JsonValue) (p : PathPart) : Option JsonValue :=
  match v with
  | .obj members =>
    match members.find p.segment, p.index with
    | some v', none => some v'
    | some (.arr elems), some i => elems.get i
    | _, _ => none
  | _ => none

/-- The value a path identifies in a document. -/
def resolve : JsonValue → List PathPart → Option JsonValue
  | v, [] => some v
  | v, p :: parts =>
    match resolve_part v p with
    | some v' => resolve v' parts
    | none => none

/-- What may follow a value in well-formed JSON text: the end of the text, or a byte that
does not continue a number. -/
def follows_value (tail : List Nat) : Bool :=
  match tail with
  | [] => true
  | b :: _ => !is_number_byte b

/-- The bytes of the elements of an array from the first value on (without the leading
whitespace). -/
def JsonElements.trimmed : JsonElements → List Nat
  | .last _ v w2 => v.render ++ w2
  | .cons _ v w2 rest => v.render ++ (w2 ++ 44 :: rest.render)

/-- The name of the first member. -/
def JsonMembers.first_name : JsonMembers → List Nat
  | .last _ name _ _ _ _ => name
  | .cons _ name _ _ _ _ _ => name

/-- The bytes of the members of an object from the value of the first member on. -/
def JsonMembers.after_colon : JsonMembers → List Nat
  | .last _ _ _ _ v w4 => v.render ++ w4
  | .cons _ _ _ _ v w4 rest => v.render ++ (w4 ++ 44 :: rest.render)

/-- The number of members. -/
def JsonMembers.count : JsonMembers → Nat
  | .last _ _ _ _ _ _ => 1
  | .cons _ _ _ _ _ _ rest => rest.count + 1

/-- The number of segments `pop_json_path` reads from the text of a path: one for each
name and one for each index. -/
def pops_needed : List PathPart → Nat
  | [] => 0
  | p :: parts => (if p.index.isSome then 2 else 1) + pops_needed parts

/-! ## Class members and arrays: `to_json_str`, `tags_to_json_str`, `to_string` for Array -/

/-- What a copy of an output iterator does to the iterator it was copied from: an insert
iterator (`std::back_insert_iterator`) appends to the container that all its copies share,
an iterator that is a position (`char *`) leaves the original where it was. -/
inductive OutputIteratorKind where
  | inserter
  | position
  deriving DecidableEq, Repr

/-- The arguments `to_json_str` and `tags_to_json_str` take by reference: `is_first`, the
output iterator `it` (the bytes written so far) and `visited_members`. -/
structure MemberState where
  is_first : Bool
  it : List Nat
  visited_members : List (List Nat)

/-- One described member together with its element `std::get<pos>( tp )` of the tuple of
values: `name` is `JsonMember::name`, `is_json_nullable` is `is_json_nullable_v<JsonMember>`,
`has_value` is the element converted to `bool` (read for nullable members only) and
`member_to_string it` is `member_to_string<JsonMember>( it, std::get<pos>( tp ) )`. -/
structure MemberValue where
  name : List Nat
  is_json_nullable : Bool
  has_value : Bool
  member_to_string : List Nat → Except String (List Nat)

/-- The tag member of a tagged variant together with the value of the switcher:
`name` is `tag_member::name` and `member_to_string it` is
`member_to_string<tag_member>( it, typename JsonMember::switcher{}( v ) )`. -/
structure TagValue where
  name : List Nat
  member_to_string : List Nat → Except String (List Nat)

/-- The function `to_json_str<pos, JsonMember>( is_first, it, tp, v, visited_members )`. -/
def to_json_str (m : MemberValue) (st : MemberState) : Except String MemberState :=
  if st.visited_members.contains m.name then .ok st
  else
    let visited_members := st.visited_members ++ [m.name]
    if m.is_json_nullable ∧ ¬ m.has_value then
      .ok ⟨st.is_first, st.it, visited_members⟩
    else do
      let it := if ¬ st.is_first then st.it ++ [44] else st.it
      let it := it ++ [34]
      let it ← copy_to_iterator false .AllowFull m.name it
      let it ← copy_to_iterator false .AllowFull [34, 58] it
      let it ← m.member_to_string it
      .ok ⟨false, it, visited_members⟩

/-- The function `tags_to_json_str<pos, JsonMember>( is_first, it, v, visited_members )`;
`tag` is `none` for a member without a `tag_member` (the overload with the empty body).
The other overload takes `OutputIterator it` by value and returns nothing: what it writes
reaches the output of the caller when the iterator is an inserter, and the iterator of the
caller stays where it was when the iterator is a position. -/
def tags_to_json_str (kind : OutputIteratorKind) (tag : Option TagValue) (st : MemberState) :
    Except String MemberState :=
  match tag with
  | none => .ok st
  | some t =>
    if st.visited_members.contains t.name then .ok st
    else do
      let visited_members := st.visited_members ++ [t.name]
      let it := if ¬ st.is_first then st.it ++ [44] else st.it
      let it := it ++ [34]
      let it ← copy_to_iterator false .AllowFull t.name it
      let it ← copy_to_iterator false .AllowFull [34, 58] it
      let it ← t.member_to_string it
      .ok ⟨false, if kind = .inserter then it else st.it, visited_members⟩

/-- One call made for a member of a class: `tags_to_json_str` or `to_json_str`. -/
inductive MemberCall where
  | tags (tag : Option TagValue)
  | member (m : MemberValue)

/-- The call on the shared state. -/
def MemberCall.run (kind : OutputIteratorKind) (c : MemberCall) (st : MemberState) :
    Except String MemberState :=
  match c with
  | .tags tag => tags_to_json_str kind tag st
  | .member m => to_json_str m st

/-- A sequence of calls made one after the other on the shared state. -/
def run_calls (kind : OutputIteratorKind) :
    List MemberCall → MemberState → Except String MemberState
  | [], st => .ok st
  | c :: cs, st => do
    let st ← c.run kind st
    run_calls kind cs st

/-- The calls `to_json_str` for the members of a list, in order. -/
def to_json_str_all : List MemberValue → MemberState → Except String MemberState
  | [], st => .ok st
  | m :: ms, st => do
    let st ← to_json_str m st
    to_json_str_all ms st

/-- The loop `for( auto const &v : container )` of the Array serializer; `count` is the
`std::size_t` counter, whose decrement wraps. -/
def to_string_Array_loop {α : Type} (to_string : List Nat → α → Except String (List Nat)) :
    List α → Nat → List Nat → Except String (List Nat)
  | [], _, it => .ok it
  | v :: rest, count, it => do
    let it ← to_string it v
    let it := if count > 0 then it ++ [44] else it
    to_string_Array_loop to_string rest ((count + 2 ^ 64 - 1) % 2 ^ 64) it

/-- The serializer `to_string( ParseTag<JsonParseTypes::Array>, it, container )`; `to_string`
is the serializer of `json_element_t`. -/
def to_string_Array {α : Type} (to_string : List Nat → α → Except String (List Nat))
    (it : List Nat) (container : List α) : Except String (List Nat) := do
  let it := it ++ [91]
  let it ←
    if ¬ container.isEmpty then
      to_string_Array_loop to_string container
        ((container.length % 2 ^ 64 + 2 ^ 64 - 1) % 2 ^ 64) it
    else .ok it
  .ok (it ++ [93])

/-- The entry of a member in the text of an object: the name in quotes, a colon, the value. -/
def member_entry (name value : List Nat) : List Nat := [34] ++ name ++ [34, 58] ++ value

/-- The texts of a list, with one comma between two neighbours. -/
def comma_separated : List (List Nat) → List Nat
  | [] => []
  | [x] => x
  | x :: y :: rest => x ++ [44] ++ comma_separated (y :: rest)

/-- A nullable member whose value is empty. -/
def MemberValue.is_empty_nullable (m : MemberValue) : Bool :=
  m.is_json_nullable && !m.has_value

/-- The member name a call names, if any. -/
def MemberCall.name : MemberCall → Option (List Nat)
  | .tags none => none
  | .tags (some t) => some t.name
  | .member m => some m.name

/-- The serializer of the value a call would write. -/
def MemberCall.member_to_string : MemberCall → List Nat → Except String (List Nat)
  | .tags none => fun it => .ok it
  | .tags (some t) => t.member_to_string
  | .member m => m.member_to_string

/-- Whether a call has an entry to write when its member was not visited before: not so
for a member without a tag member and for a nullable member whose value is empty. -/
def MemberCall.has_entry : MemberCall → Bool
  | .tags none => false
  | .tags (some _) => true
  | .member m => !m.is_empty_nullable

/-- An entry written by a call: whether a comma goes before it, the name, the value. -/
structure WrittenKey where
  comma : Bool
  name : List Nat
  value : List Nat

/-- The bytes of a written entry. -/
def WrittenKey.bytes (k : WrittenKey) : List Nat :=
  (if k.comma then [44] else []) ++ member_entry k.name k.value

/-! ## Nullable members: `parse_value` for the Null kind -/

/-- Modelled from the spec: the `Signed` kind of the dispatcher (section 4.4;
`daw_json_parse_value.h` is not among the sources).  The input form is `-?[0-9]+` and the
result is the signed integer of the target width `bits`; a text without a digit is
rejected, and so is a value outside the target type (`NumericOverflow`; what an unchecked
policy does then is left open by the spec). -/
def parse_value_Signed (bits : Nat) (rng : Range) : Except String (Int × Range) :=
  let negative := rng.front_is 45
  let body := if negative then rng.bytes.drop 1 else rng.bytes
  let digits := body.takeWhile (fun c => 48 ≤ c ∧ c ≤ 57)
  if digits.isEmpty then .error "InvalidNumber"
  else
    let magnitude : Int := ((digits.foldl (fun r c => r * 10 + (c - 48)) 0 : Nat) : Int)
    let value := if negative then -magnitude else magnitude
    if -(2 : Int) ^ (bits - 1) ≤ value ∧ value < (2 : Int) ^ (bits - 1) then
      .ok (value, { rng with bytes := body.drop digits.length })
    else .error "NumericOverflow"

/-- Modelled from the spec: the `Null` kind of the dispatcher (section 4.4;
`daw_json_parse_value.h` is not among the sources), `parse_value<JsonMember, KnownBounds>(
ParseTag<JsonParseTypes::Null>, rng )`.  The input is the literal `null` or the form of the
one kind that Null wraps (`inner`); an absent value (an empty range whose bounds are known)
and `null` give the empty optional. -/
def parse_value_Null {α : Type} (inner : Range → Except String (α × Range))
    (known_bounds : Bool) (rng : Range) : Except String (Option α × Range) :=
  if known_bounds ∧ rng.empty then .ok (none, rng)
  else if rng.bytes.take 4 = [110, 117, 108, 108] then
    .ok (none, { rng with bytes := rng.bytes.drop 4 })
  else (inner rng).map (fun r => (some r.1, r.2))

/-! ## The linking class `daw_json_link<Derived>` -/

/-- A `std::string` made of the given bytes, for the text of an error. -/
def to_std_string (bytes : List Nat) : String := String.mk (bytes.map Char.ofNat)

/-- Modelled from the spec: `parser::impl::skip_ws` (`daw_json_parsers.h` is not among the
sources): the view behind the leading JSON whitespace. -/
def skip_ws (view : List Nat) : List Nat := skip_spaces view

/-- Modelled from the spec: `parser::parse_json_string` (`daw_json_parsers.h` is not among
the sources): with the view on a `"`, scan to the unescaped `"` that closes the string,
respecting backslash escapes; the result is the bytes between the two quotes and the view
behind the closing quote. -/
def parse_json_string (view : List Nat) : Except String (List Nat × List Nat) :=
  match view with
  | 34 :: rest => (parse_nq_scan false rest).map (fun r => (r.1, r.2.drop 1))
  | _ => .error "Invalid json string.  Expected a string"

/-- Modelled from the spec: `parser::skip_json_value` (`daw_json_parsers.h` is not among the
sources): Skip-Value on a view, giving the view behind the value. -/
def skip_json_value (view : List Nat) : Except String (List Nat) :=
  (skip_value ⟨true, view⟩).map (fun r => r.2.bytes)

/-- Modelled from the spec: `parser::parse_json_integer` (`daw_json_parsers.h` is not among
the sources): the input form `-?[0-9]+` read as an `int64_t`, and the view behind it. -/
def parse_json_integer (view : List Nat) : Except String (Int × List Nat) :=
  (parse_value_Signed 64 ⟨true, view⟩).map (fun r => (r.1, r.2.bytes))

/-- Modelled from the spec: `parser::parse_json_boolean` (`daw_json_parsers.h` is not among
the sources): the input form `true` or `false`, and the view behind it. -/
def parse_json_boolean (view : List Nat) : Except String (Bool × List Nat) :=
  if view.take 4 = [116, 114, 117, 101] then .ok (true, view.drop 4)
  else if view.take 5 = [102, 97, 108, 115, 101] then .ok (false, view.drop 5)
  else .error "Invalid json string.  Expected a boolean"

/-- The call `view.front( )`; a `daw::string_view` has no front when it is empty. -/
def view_front (view : List Nat) : Except String Nat :=
  match view with
  | c :: _ => .ok c
  | [] => .error "front of an empty view"

/-- The call `daw::exception::daw_throw_on_true( cond, reason )`. -/
def daw_throw_on_true (cond : Bool) (reason : String) : Except String Unit :=
  if cond then .error reason else .ok ()

/-- The call `daw::exception::daw_throw_on_false( cond, reason )`. -/
def daw_throw_on_false (cond : Bool) (reason : String) : Except String Unit :=
  if cond then .ok () else .error reason

/-- The struct `json_link_functions_info`: the setter takes the object and the view on the
value and returns the view behind the value with the object it has set; the getter returns
the text of the value. -/
structure json_link_functions_info (Derived : Type) where
  hash : Nat
  name : List Nat
  setter : Derived → List Nat → Except String (List Nat × Derived)
  getter : Derived → List Nat
  is_optional : Bool

/-- The function `add_json_link_function`: the constructor of `json_link_functions_info`
computes the hash of the name with `std::hash<daw::string_view>`, here `std_hash`. -/
def add_json_link_function {Derived : Type} (std_hash : List Nat → Nat)
    (link_data : List (json_link_functions_info Derived)) (name : List Nat)
    (setter : Derived → List Nat → Except String (List Nat × Derived))
    (getter : Derived → List Nat) (is_optional : Bool) :
    List (json_link_functions_info Derived) :=
  link_data ++ [⟨std_hash name, name, setter, getter, is_optional⟩]

/-- The function `find_link_func_member`: the first entry with that hash. -/
def find_link_func_member {Derived : Type} (link_data : List (json_link_functions_info Derived))
    (hash : Nat) : Option (json_link_functions_info Derived) :=
  link_data.find? (fun v => hash == v.hash)

/-- One round of the loop `while( !view.empty( ) )` of `from_json_string`, behind the test
for `}`: the name, the colon, the value, the separator.  Returns the view, the object and
the hashes of the members found. -/
def from_json_string_member {Derived : Type} (std_hash : List Nat → Nat)
    (ignore_missing : Bool) (member_map : List (json_link_functions_info Derived))
    (view : List Nat) (result : Derived) (found_members : List Nat) :
    Except String (List Nat × Derived × List Nat) := do
  let member_name ← parse_json_string view
  let member_name_hash := std_hash member_name.1
  let view := skip_ws member_name.2
  let c ← view_front view
  daw_throw_on_false (c == 58) "Expected name/value separator character ':', but not found"
  let view := skip_ws (view.drop 1)
  let (view, result, found_members) ←
    match find_link_func_member member_map member_name_hash with
    | some json_link_function =>
      (json_link_function.setter result view).map
        (fun r => (r.1, r.2, found_members ++ [member_name_hash]))
    | none =>
      if !ignore_missing then
        .error ("Json string contains a member name '" ++ to_std_string member_name.1
          ++ "' that isn't linked")
      else (skip_json_value view).map (fun v => (v, result, found_members))
  let view := skip_ws view
  let c ← view_front view
  let view ←
    if c = 44 then .ok (view.drop 1)
    else if c ≠ 125 then
      .error "Invalid Json object.  No ',' character separating members"
    else .ok view
  .ok (skip_ws view, result, found_members)

/-- The loop `while( !view.empty( ) )` of `from_json_string`; every round shortens the
view, so a fuel above its length is never used up. -/
def from_json_string_loop {Derived : Type} (std_hash : List Nat → Nat)
    (ignore_missing : Bool) (member_map : List (json_link_functions_info Derived)) :
    Nat → List Nat → Derived → List Nat → Except String (List Nat × Derived × List Nat)
  | 0, _, _, _ => .error "member loop: view not exhausted"
  | _ + 1, [], result, found_members => .ok ([], result, found_members)
  | fuel + 1, c :: rest, result, found_members =>
    if c = 125 then .ok (c :: rest, result, found_members)
    else
      (from_json_string_member std_hash ignore_missing member_map (c :: rest) result
        found_members).bind
        (fun r => from_json_string_loop std_hash ignore_missing member_map fuel r.1 r.2.1 r.2.2)

/-- The loop `for( auto const &member : member_map )` of `from_json_string` that looks for
a member that is not optional and was not found. -/
def check_members_found {Derived : Type} (found_members : List Nat) :
    List (json_link_functions_info Derived) → Except String Unit
  | [] => .ok ()
  | member :: rest =>
    if !member.is_optional && !found_members.contains member.hash then
      .error ("Missing non-optional member '" ++ to_std_string member.name ++ "'")
    else check_members_found found_members rest

/-- The function `daw_json_link<Derived>::from_json_string`.  `std_hash` is
`std::hash<daw::string_view>`, `ignore_missing` the value of the static flag
`ignore_missing( )` (initially `false`), `member_map` the registry `check_map( )` returns
and `init` the default-constructed `Derived result`.  Returns the view behind the object
and the object. -/
def from_json_string {Derived : Type} (std_hash : List Nat → Nat) (ignore_missing : Bool)
    (member_map : List (json_link_functions_info Derived)) (init : Derived)
    (view : List Nat) : Except String (List Nat × Derived) := do
  let view := skip_ws view
  daw_throw_on_true view.isEmpty "Invalid json string.  String was empty"
  let c ← view_front view
  daw_throw_on_false (c == 123) "Invalid json string.  Could not find start of object"
  let view := skip_ws (view.drop 1)
  let (view, result, found_members) ←
    from_json_string_loop std_hash ignore_missing member_map (view.length + 1) view init []
  check_members_found found_members member_map
  let view := skip_ws view
  .ok (view.drop 1, result)

/-- The loop of `to_json_string( obj )` over the registry. -/
def to_json_string_loop {Derived : Type} (obj : Derived) :
    List (json_link_functions_info Derived) → Bool → List Nat → List Nat
  | [], _, result => result
  | member_func :: rest, is_first, result =>
    let result := if !is_first then result ++ [44] else result
    to_json_string_loop obj rest false
      (result ++ ([34] ++ member_func.name ++ [34, 58] ++ member_func.getter obj))

/-- The function `daw_json_link<Derived>::to_json_string( obj )`. -/
def to_json_string {Derived : Type} (member_map : List (json_link_functions_info Derived))
    (obj : Derived) : List Nat :=
  to_json_string_loop obj member_map true [123] ++ [125]

/-- The entry `link_json_integer_fn( member_name, setter, getter )` adds, for a member of
type `int64_t`; `std::to_string` gives the canonical decimal text. -/
def link_json_integer_fn {Derived : Type} (std_hash : List Nat → Nat) (member_name : List Nat)
    (setter : Derived → Int → Derived) (getter : Derived → Int) :
    json_link_functions_info Derived :=
  ⟨std_hash member_name, member_name,
    fun obj view => (parse_json_integer view).map (fun r => (r.2, setter obj r.1)),
    fun obj => canonical_int (getter obj), false⟩

/-- The entry `link_json_boolean_fn( member_name, setter, getter )` adds. -/
def link_json_boolean_fn {Derived : Type} (std_hash : List Nat → Nat) (member_name : List Nat)
    (setter : Derived → Bool → Derived) (getter : Derived → Bool) :
    json_link_functions_info Derived :=
  ⟨std_hash member_name, member_name,
    fun obj view => (parse_json_boolean view).map (fun r => (r.2, setter obj r.1)),
    fun obj => if getter obj then [116, 114, 117, 101] else [102, 97, 108, 115, 101], false⟩

/-- The entry `link_json_string_fn( member_name, setter, getter )` adds. -/
def link_json_string_fn {Derived : Type} (std_hash : List Nat → Nat) (member_name : List Nat)
    (setter : Derived → List Nat → Derived) (getter : Derived → List Nat) :
    json_link_functions_info Derived :=
  ⟨std_hash member_name, member_name,
    fun obj view => (parse_json_string view).map (fun r => (r.2, setter obj r.1)),
    fun obj => [34] ++ getter obj ++ [34], false⟩

/-- A string hash for the examples: it tells the names used there apart. -/
def example_hash (name : List Nat) : Nat :=
  name.foldl (fun h c => (h * 31 + c) % 2 ^ 64) 7

/-- A class for the examples, with an integer member `a`, a boolean member `b` and a
string member `s`. -/
structure LinkedExample where
  a : Int
  b : Bool
  s : List Nat
  deriving DecidableEq, Repr

/-- The registry of `LinkedExample` when `a` and `b` are linked. -/
def LinkedExample.link_map_ab : List (json_link_functions_info LinkedExample) :=
  [link_json_integer_fn example_hash [97] (fun obj v => { obj with a := v }) (fun obj => obj.a),
   link_json_boolean_fn example_hash [98] (fun obj v => { obj with b := v }) (fun obj => obj.b)]

/-- The registry of `LinkedExample` when `a`, `b` and `s` are linked. -/
def LinkedExample.link_map_abs : List (json_link_functions_info LinkedExample) :=
  LinkedExample.link_map_ab ++
    [link_json_string_fn example_hash [115] (fun obj v => { obj with s := v })
      (fun obj => obj.s)]

/-- One member of an object as it stands in the text: whitespace, the quoted name,
whitespace, the colon, whitespace, the value, whitespace. -/
structure ObjectMember where
  w1 : List Nat
  name : List Nat
  w2 : List Nat
  w3 : List Nat
  v : JsonValue
  w4 : List Nat

/-- A well-formed member: a name closed by the first unescaped quote, a well-formed value
and only whitespace between the tokens. -/
def ObjectMember.well_formed (m : ObjectMember) : Bool :=
  all_spaces m.w1 && name_body false m.name && all_spaces m.w2 && all_spaces m.w3
    && m.v.well_formed && all_spaces m.w4

/-- The bytes of a member from the quote that opens its name on. -/
def ObjectMember.text_from_name (m : ObjectMember) : List Nat :=
  34 :: (m.name ++ 34 :: (m.w2 ++ 58 :: (m.w3 ++ (m.v.render ++ m.w4))))

/-- The bytes of a member. -/
def ObjectMember.text (m : ObjectMember) : List Nat := m.w1 ++ m.text_from_name

/-- The bytes of the members of an object, with a comma between two neighbours. -/
def members_text : List ObjectMember → List Nat
  | [] => []
  | [m] => m.text
  | m :: m2 :: rest => m.text ++ 44 :: members_text (m2 :: rest)

/-- The text of an object with the given members; `w` is the whitespace between the braces
of an object without members. -/
def object_text (w : List Nat) (members : List ObjectMember) : List Nat :=
  123 :: ((if members.isEmpty then w else members_text members) ++ [125])

/-- The members of a non-empty object as a tree. -/
def JsonMembers.of_list : ObjectMember → List ObjectMember → JsonMembers
  | m, [] => .last m.w1 m.name m.w2 m.w3 m.v m.w4
  | m, m2 :: rest => .cons m.w1 m.name m.w2 m.w3 m.v m.w4 (JsonMembers.of_list m2 rest)

/-- The object with the given members as a tree. -/
def JsonValue.of_members (w : List Nat) : List ObjectMember → JsonValue
  | [] => .obj_empty w
  | m :: rest => .obj (JsonMembers.of_list m rest)

/-- The text of the error for a member name that is not linked. -/
def not_linked_message (name : List Nat) : String :=
  "Json string contains a member name '" ++ to_std_string name ++ "' that isn't linked"

/-- The text of the error for a member that is not optional and was not found. -/
def missing_message (name : List Nat) : String :=
  "Missing non-optional member '" ++ to_std_string name ++ "'"

/-- The members of an object taken one after the other, as the member loop takes them when
every linked setter reads the value it is given: a linked member sets the object
(`sem name v obj` is the object after the setter of `name` has read `v`) and its hash is
recorded, a member that is not linked is an error unless `ignore_missing` is set, and is
passed over if it is. -/
def link_members {Derived : Type} (std_hash : List Nat → Nat) (ignore_missing : Bool)
    (member_map : List (json_link_functions_info Derived))
    (sem : List Nat → JsonValue → Derived → Derived) :
    List ObjectMember → Derived → List Nat → Except String (Derived × List Nat)
  | [], result, found_members => .ok (result, found_members)
  | m :: rest, result, found_members =>
    match find_link_func_member member_map (std_hash m.name) with
    | some _ =>
      link_members std_hash ignore_missing member_map sem rest (sem m.name m.v result)
        (found_members ++ [std_hash m.name])
    | none =>
      if !ignore_missing then .error (not_linked_message m.name)
      else link_members std_hash ignore_missing member_map sem rest result found_members

/-- A member name is linked: the registry has an entry of that name. -/
def is_linked {Derived : Type} (member_map : List (json_link_functions_info Derived))
    (name : List Nat) : Bool :=
  member_map.any (fun f => f.name == name)

/-- The registry of `LinkedExample` when only `b` is linked. -/
def LinkedExample.link_map_b : List (json_link_functions_info LinkedExample) :=
  [link_json_boolean_fn example_hash [98] (fun obj v => { obj with b := v }) (fun obj => obj.b)]

/-- The members `"x":1` and `"b":true` of an example text. -/
def LinkedExample.members_xb : List ObjectMember :=
  [⟨[], [120], [], [], .num [49], []⟩, ⟨[32], [98], [], [], .lit [116, 114, 117, 101], []⟩]

/-- The registry of `LinkedExample` when `b` and `s` are linked. -/
def LinkedExample.link_map_bs : List (json_link_functions_info LinkedExample) :=
  [link_json_boolean_fn example_hash [98] (fun obj v => { obj with b := v }) (fun obj => obj.b),
   link_json_string_fn example_hash [115] (fun obj v => { obj with s := v }) (fun obj => obj.s)]

/-- The members `"b":true` and `"s":"hi"` of an example text. -/
def LinkedExample.members_bs : List ObjectMember :=
  [⟨[], [98], [], [], .lit [116, 114, 117, 101], []⟩,
   ⟨[32], [115], [], [32], .str [104, 105], []⟩]

/-- The members `"s":"hi"` and `"b":true` of an example text. -/
def LinkedExample.members_sb : List ObjectMember :=
  [⟨[], [115], [32], [], .str [104, 105], [10]⟩,
   ⟨[], [98], [], [], .lit [116, 114, 117, 101], []⟩]

/-! ## The linking class: containers and arrays -/

/-- The function `to_json_string( Container const & )`; every element is written by its
member function `to_json_string( )`, here `to_json_string member_map`.  The `for` loop
starts from the iterator `it` that still stands on the first element. -/
def to_json_string_Container {Derived : Type}
    (member_map : List (json_link_functions_info Derived)) (container : List Derived) :
    List Nat :=
  let result := [91]
  let result :=
    match container with
    | [] => result
    | first :: _ =>
      container.foldl (fun r x => r ++ (44 :: to_json_string member_map x))
        (result ++ to_json_string member_map first)
  result ++ [93]

/-- The function `impl::container_to_string`; `to_string` is the `to_string` found for the
element type.  `*it` is read before anything is known about the container: on an empty
container this reads through the end iterator. -/
def container_to_string {α : Type} (to_string : α → List Nat) (c : List α) :
    Except String (List Nat) :=
  let result := [91]
  match c with
  | [] => .error "dereference of the end iterator of an empty container"
  | first :: rest =>
    let result := result ++ to_string first
    let result := rest.foldl (fun r x => r ++ ([44] ++ to_string x)) result
    .ok (result ++ [93])

/-- One round of the loop `while( ']' != view.front( ) )` of `from_json_array_string`,
behind the test for `]`: the object, then the separator if there is one. -/
def from_json_array_string_item {Derived : Type} (std_hash : List Nat → Nat)
    (ignore_missing : Bool) (member_map : List (json_link_functions_info Derived))
    (init : Derived) (view : List Nat) (result : List Derived) :
    Except String (List Nat × List Derived) := do
  let c ← view_front view
  daw_throw_on_false (c == 123) "Expected start of json object"
  let item ← from_json_string std_hash ignore_missing member_map init view
  let result := result ++ [item.2]
  let view := skip_ws item.1
  let c ← view_front view
  let view := if c = 44 then skip_ws (view.drop 1) else view
  .ok (view, result)

/-- The loop `while( ']' != view.front( ) )` of `from_json_array_string`; every round
shortens the view, so a fuel above its length is never used up. -/
def from_json_array_string_loop {Derived : Type} (std_hash : List Nat → Nat)
    (ignore_missing : Bool) (member_map : List (json_link_functions_info Derived))
    (init : Derived) : Nat → List Nat → List Derived → Except String (List Derived)
  | 0, _, _ => .error "element loop: view not exhausted"
  | _ + 1, [], _ => .error "front of an empty view"
  | fuel + 1, c :: rest, result =>
    if c = 93 then .ok result
    else
      (from_json_array_string_item std_hash ignore_missing member_map init (c :: rest)
        result).bind
        (fun r => from_json_array_string_loop std_hash ignore_missing member_map init fuel
          r.1 r.2)

/-- The function `daw_json_link<Derived>::from_json_array_string`. -/
def from_json_array_string {Derived : Type} (std_hash : List Nat → Nat)
    (ignore_missing : Bool) (member_map : List (json_link_functions_info Derived))
    (init : Derived) (view : List Nat) : Except String (List Derived) := do
  let view := skip_ws view
  let c ← view_front view
  daw_throw_on_false (c == 91) "Expected json array but none found"
  let view := skip_ws (view.drop 1)
  from_json_array_string_loop std_hash ignore_missing member_map init (view.length + 1)
    view []

/-- One object of an array text with what stands behind it: the text of the object, the
object it parses to, whitespace, and a comma with whitespace behind it if `comma` is
set. -/
structure ArrayItem (Derived : Type) where
  text : List Nat
  value : Derived
  w1 : List Nat
  comma : Bool
  w2 : List Nat

/-- The bytes of an item. -/
def ArrayItem.bytes {Derived : Type} (i : ArrayItem Derived) : List Nat :=
  i.text ++ (i.w1 ++ (if i.comma then 44 :: i.w2 else []))

/-- The bytes of the items of an array text, one after the other. -/
def items_text {Derived : Type} : List (ArrayItem Derived) → List Nat
  | [] => []
  | i :: rest => i.bytes ++ items_text rest

/-! ## Raw strings and the `char const *` overload -/

/-- The serializer `to_string( ParseTag<JsonParseTypes::StringRaw>, it, value )`. -/
def to_string_StringRaw (eight_bit_mode : EightBitModes) (it : List Nat)
    (value : List Nat) : Except String (List Nat) := do
  let it := it ++ [34]
  let it ← if value.length > 0 then copy_to_iterator false eight_bit_mode value it else .ok it
  .ok (it ++ [34])

/-- The conversion `static_cast<unsigned>( *ptr )` of a `char` that holds the byte `b`:
a `char` that is signed and holds a byte from 0x80 on is negative and wraps around. -/
def char_to_unsigned (char_is_signed : Bool) (b : Nat) : Nat :=
  if char_is_signed ∧ b % 256 ≥ 128 then b % 256 + (2 ^ 32 - 256) else b % 256

/-- The loop `while( *ptr != '\0' )` of the `char const *` overload of `copy_to_iterator`
without escaping, on the bytes from `ptr` up to and including the terminator; a read
behind the terminator is outside the string. -/
def copy_raw_ptr (char_is_signed : Bool) (EightBitMode : EightBitModes) :
    List Nat → List Nat → Except String (List Nat)
  | [], _ => .error "read behind the terminator of the string"
  | c :: rest, it =>
    if c % 256 = 0 then .ok it
    else if EightBitMode = .DisallowHigh ∧
        ¬ (char_to_unsigned char_is_signed c ≥ 0x20 ∧ char_to_unsigned char_is_signed c ≤ 0x7F)
    then
      .error "string support limited to 0x20 < chr <= 0x7F when DisallowHighEightBit is true"
    else copy_raw_ptr char_is_signed EightBitMode rest (it ++ [c])

/-- The code points `*chr_it++` yields while `*chr_it.base( ) != '\0'`, on the bytes from
`ptr` up to and including the terminator, at most `steps` of them; `none` when the
iterator steps behind the terminator. -/
def utf8_walk_ptr : Nat → List Nat → Option (List Nat)
  | _, [] => none
  | 0, _ :: _ => none
  | steps + 1, b0 :: rest =>
    if b0 % 256 = 0 then some []
    else
      match utf8_next (b0 :: rest) with
      | some (cp, rest) => (utf8_walk_ptr steps rest).map (cp :: ·)
      | none => none

/-- The `char const *` overload `copy_to_iterator<do_escape, EightBitMode>( ptr, it )`.
`ptr` is `none` for `nullptr`, otherwise the bytes of the string before its terminator. -/
def copy_to_iterator_ptr (char_is_signed : Bool) (do_escape : Bool)
    (EightBitMode : EightBitModes) (ptr : Option (List Nat)) (it : List Nat) :
    Except String (List Nat) :=
  match ptr with
  | none => .ok it
  | some str =>
    let memory := str ++ [0]
    if do_escape then
      match utf8_walk_ptr memory.length memory with
      | some cps => escape_code_points EightBitMode cps it
      | none => .error "utf8::unchecked::iterator walked behind the terminator"
    else copy_raw_ptr char_is_signed EightBitMode memory it

/-! ## Reference notions: a standard UTF-8 decoder, the segment loop with a fallback -/

/-- A continuation byte `10xxxxxx`. -/
def is_continuation_byte (b : Nat) : Bool := 0x80 ≤ b ∧ b ≤ 0xBF

/-- A standard UTF-8 decoder for the bytes of one code point (Unicode Standard, 3.9,
table 3-7; RFC 3629): the lead byte gives the length, the other bytes are continuation
bytes, and a sequence that is longer than needed, encodes a surrogate or exceeds U+10FFFF
is ill-formed. -/
def standard_utf8_decode (bytes : List Nat) : Option Nat :=
  match bytes with
  | [b0] => if b0 ≤ 0x7F then some b0 else none
  | [b0, b1] =>
    let cp := (b0 - 0xC0) * 64 + (b1 - 0x80)
    if 0xC0 ≤ b0 ∧ b0 ≤ 0xDF ∧ is_continuation_byte b1 ∧ 0x80 ≤ cp then some cp else none
  | [b0, b1, b2] =>
    let cp := (b0 - 0xE0) * 4096 + (b1 - 0x80) * 64 + (b2 - 0x80)
    if 0xE0 ≤ b0 ∧ b0 ≤ 0xEF ∧ is_continuation_byte b1 ∧ is_continuation_byte b2 ∧
        0x800 ≤ cp ∧ ¬ (0xD800 ≤ cp ∧ cp ≤ 0xDFFF) then some cp
    else none
  | [b0, b1, b2, b3] =>
    let cp := (b0 - 0xF0) * 262144 + (b1 - 0x80) * 4096 + (b2 - 0x80) * 64 + (b3 - 0x80)
    if 0xF0 ≤ b0 ∧ b0 ≤ 0xF7 ∧ is_continuation_byte b1 ∧ is_continuation_byte b2 ∧
        is_continuation_byte b3 ∧ 0x10000 ≤ cp ∧ cp ≤ 0x10FFFF then some cp
    else none
  | _ => none

/-- The segment loop of `find_range2` as `find_range2_loop` runs it, with `fallback` for
the result when `pops` calls of `pop_json_path` have not met the empty segment: a run whose
result does not depend on `fallback` has ended by itself. -/
def find_range2_loop_or (fallback : Except String (Bool × Range)) :
    Nat → Range → List Nat → Except String (Bool × Range)
  | 0, _, _ => fallback
  | pops + 1, rng, path =>
    let pop_result := pop_json_path path
    if pop_result.current.isEmpty then .ok (true, rng)
    else if pop_result.found_char = 93 then do
      daw_json_assert_weak rng.checked (rng.front_is 91) "Invalid Path Entry"
      let rng ← remove_prefix 1 rng
      let rng := rng.trim_left_unchecked
      let idx := parse_unsigned_int pop_result.current
      let (more, rng) ← find_range2_index idx rng
      if more then find_range2_loop_or fallback pops rng pop_result.path else .ok (false, rng)
    else do
      daw_json_assert_weak rng.checked (rng.front_is 123) "Invalid Path Entry"
      let rng ← remove_prefix 1 rng
      let rng := rng.trim_left_unchecked
      let (name, rng) ← parse_name rng
      let (more, rng) ← find_range2_member pop_result.current (rng.bytes.length + 1) name rng
      if more then find_range2_loop_or fallback pops rng pop_result.path else .ok (false, rng)

/-- The member `"b":true` or `"b":false` of an example text. -/
def LinkedExample.member_b (b : Bool) : ObjectMember :=
  ⟨[], [98], [], [], .lit (if b then [116, 114, 117, 101] else [102, 97, 108, 115, 101]), []⟩

/-- The items of an example array text: `{"b":true}` with a blank and no comma behind it,
then `{"b":false}` with a comma and a blank behind it. -/
def LinkedExample.items_b : List (ArrayItem LinkedExample) :=
  [⟨object_text [] [LinkedExample.member_b true], ⟨0, true, []⟩, [32], false, []⟩,
   ⟨object_text [] [LinkedExample.member_b false], ⟨0, false, []⟩, [], true, [32]⟩]

/-! # Theorems -/

/-! ## Integer emission: the digit loop -/

theorem canonical_nat_reverse_step (n : Nat) (h : 0 < n / 10) :
    (canonical_nat n).reverse = (48 + n % 10) :: (canonical_nat (n / 10)).reverse := by
  have hn : 0 < n := by omega
  have h1 : n ≠ 0 := by omega
  have h2 : n / 10 ≠ 0 := by omega
  simp only [canonical_nat, h1, h2, if_false, List.reverse_reverse]
  rw [Nat.digits_def' (by norm_num) hn]
  simp

theorem canonical_nat_small (n : Nat) (h : n / 10 = 0) : canonical_nat n = [48 + n] := by
  have hn : n < 10 := by omega
  unfold canonical_nat
  split
  · subst_vars; rfl
  · rename_i h0
    rw [Nat.digits_def' (by norm_num) (by omega)]
    simp [h, Nat.mod_eq_of_lt hn]

/-- While the digits of `n` fit into the room left in `buff`, the digit loop stores
exactly the canonical digits of `n`, least significant first. -/
theorem write_digits_nat (room : Nat) : ∀ (n : Nat) (buff : List Nat), n < 10 ^ room → 0 < room →
    write_digits room (n : Int) buff = .ok (buff ++ (canonical_nat n).reverse) := by
  induction room with
  | zero => intro n buff _ h; omega
  | succ room ih =>
    intro n buff hn _
    have e1 : (48 + (n : Int).tmod 10).toNat = 48 + n % 10 := by
      rw [Int.tmod_eq_emod (by omega) (by omega)]; omega
    have e2 : (n : Int).tdiv 10 = ((n / 10 : Nat) : Int) := by
      rw [Int.tdiv_eq_ediv (by omega) (by omega)]; omega
    simp only [write_digits, e1, e2]
    by_cases h : 0 < n / 10
    · have hr : 0 < room := by
        rcases Nat.eq_zero_or_pos room with h0 | h0
        · subst h0; simp at hn; omega
        · exact h0
      have hlt : n / 10 < 10 ^ room := by
        rw [pow_succ] at hn; omega
      have hc : ((n / 10 : Nat) : Int) > 0 := by omega
      rw [if_pos hc, ih (n / 10) _ hlt hr, canonical_nat_reverse_step n h]
      simp
    · have h0 : n / 10 = 0 := by omega
      have hc : ¬ ((n / 10 : Nat) : Int) > 0 := by omega
      rw [if_neg hc, canonical_nat_small n h0]
      have : n % 10 = n := by omega
      simp [this]

/-- The Unsigned serializer emits the canonical digits of every non-negative value
whose digits fit into `buff`, i.e. every value below `10 ^ digits10`. -/
theorem to_string_Unsigned_fits (digits : Nat) (it : List Nat) (v : Int)
    (h0 : 0 ≤ v) (hv : v < 10 ^ digits10 digits) (hd : 0 < digits10 digits) :
    to_string_Unsigned digits it v = .ok (it ++ canonical_int v) := by
  obtain ⟨n, rfl⟩ := Int.eq_ofNat_of_zero_le h0
  have hn : n < 10 ^ digits10 digits := by exact_mod_cast hv
  have hneg : ¬ ((n : Int) < 0) := by omega
  simp [to_string_Unsigned, hneg, write_digits_nat _ n [] hn hd, Except.map, copy_reversed,
    canonical_int]

/-- The Signed serializer emits the canonical text of every value whose digits fit into
`buff`, i.e. every value strictly between `-10 ^ digits10` and `10 ^ digits10`. -/
theorem to_string_Signed_fits (digits : Nat) (it : List Nat) (v : Int)
    (hlo : -(10 ^ digits10 digits) < v) (hv : v < 10 ^ digits10 digits)
    (hd : 0 < digits10 digits) :
    to_string_Signed digits it v = .ok (it ++ canonical_int v) := by
  by_cases hneg : v < 0
  · obtain ⟨n, hn⟩ : ∃ n : Nat, v = -(n : Int) := ⟨v.natAbs, by omega⟩
    subst hn
    have hnlt : n < 10 ^ digits10 digits := by
      have : (n : Int) < 10 ^ digits10 digits := by omega
      exact_mod_cast this
    obtain ⟨room, hroom⟩ : ∃ room, digits10 digits = room + 1 := ⟨digits10 digits - 1, by omega⟩
    have e1 : (48 - (-(n : Int)).tmod 10).toNat = 48 + n % 10 := by
      have hq : (-(n : Int)).tdiv 10 = -((n / 10 : Nat) : Int) := by
        rw [Int.neg_tdiv, Int.tdiv_eq_ediv (by omega) (by omega)]; omega
      rw [Int.tmod_def, hq]; omega
    have e2 : (-(n : Int)).tdiv (-10) = ((n / 10 : Nat) : Int) := by
      rw [Int.neg_tdiv, Int.tdiv_neg, neg_neg, Int.tdiv_eq_ediv (by omega) (by omega)]; omega
    have hnat : (-(n : Int)).natAbs = n := by omega
    simp only [to_string_Signed, if_pos hneg, hroom, e1, e2, canonical_int, hnat]
    by_cases h : n / 10 = 0
    · have : n % 10 = n := by omega
      simp [h, canonical_nat_small n h, this]
    · have hc : ¬ ((n / 10 : Nat) : Int) = 0 := by omega
      have hr : 0 < room := by
        rcases Nat.eq_zero_or_pos room with h0 | h0
        · subst h0; rw [hroom] at hnlt; simp at hnlt; omega
        · exact h0
      have hlt : n / 10 < 10 ^ room := by
        rw [hroom, pow_succ] at hnlt; omega
      rw [if_neg hc, write_digits_nat room (n / 10) _ hlt hr]
      have := canonical_nat_reverse_step n (by omega)
      simp only [Except.map, copy_reversed, List.singleton_append, ← this, List.reverse_reverse]
      simp
  · obtain ⟨n, rfl⟩ := Int.eq_ofNat_of_zero_le (by omega : 0 ≤ v)
    have hn : n < 10 ^ digits10 digits := by exact_mod_cast hv
    simp [to_string_Signed, hneg, write_digits_nat _ n [] hn hd, Except.map, copy_reversed,
      canonical_int]

/-- C1 (evaluation at the failing input): for `int32_t` (`digits = 31`, so `buff` has
`digits10 = 9` elements) the most negative value has ten digits; the tenth store of the
Signed serializer falls outside `buff`, and no text is produced.  The same happens to the
Unsigned serializer at the largest `uint32_t`. -/
theorem to_string_Signed_int32_min_overruns_buff :
    digits10 31 = 9 ∧
    to_string_Signed 31 [] (-2147483648) = .error "store past the end of buff" ∧
    to_string_Signed 31 [] (-999999999) = .ok [45, 57, 57, 57, 57, 57, 57, 57, 57, 57] ∧
    to_string_Unsigned 32 [] 4294967295 = .error "store past the end of buff" := by
  refine ⟨by decide, by rfl, by rfl, by rfl⟩


/-! ## Date emission -/

theorem canonical_nat_two (n : Nat) (h : 10 ≤ n) (h2 : n < 100) :
    canonical_nat n = [48 + n / 10, 48 + n % 10] := by
  have h1 := canonical_nat_reverse_step n (by omega)
  rw [canonical_nat_small (n / 10) (by omega)] at h1
  have := congrArg List.reverse h1
  simpa using this

theorem canonical_nat_three (n : Nat) (h : 100 ≤ n) (h2 : n < 1000) :
    canonical_nat n = [48 + n / 100, 48 + n / 10 % 10, 48 + n % 10] := by
  have h1 := canonical_nat_reverse_step n (by omega)
  rw [canonical_nat_two (n / 10) (by omega) (by omega)] at h1
  have := congrArg List.reverse h1
  have e : n / 10 / 10 = n / 100 := by omega
  simpa [e] using this

theorem canonical_nat_four (n : Nat) (h : 1000 ≤ n) (h2 : n < 10000) :
    canonical_nat n = [48 + n / 1000, 48 + n / 100 % 10, 48 + n / 10 % 10, 48 + n % 10] := by
  have h1 := canonical_nat_reverse_step n (by omega)
  rw [canonical_nat_three (n / 10) (by omega) (by omega)] at h1
  have := congrArg List.reverse h1
  have e : n / 10 / 100 = n / 1000 := by omega
  have e2 : n / 10 / 10 = n / 100 := by omega
  simpa [e, e2] using this

/-- A field below 100, preceded by the `0` the Date serializer inserts below 10, is
emitted as two zero-padded digits. -/
theorem to_string_Unsigned_padded (it : List Nat) (n : Nat) (h : n < 100) :
    to_string_Unsigned 8 (if n < 10 then it ++ [48] else it) (n : Int)
      = .ok (it ++ two_digits n) := by
  have hd : digits10 8 = 2 := by decide
  rw [to_string_Unsigned_fits 8 _ (n : Int) (by omega) (by rw [hd]; norm_cast) (by omega)]
  have hc : canonical_int (n : Int) = canonical_nat n := by
    simp [canonical_int]
  rw [hc]
  by_cases h10 : n < 10
  · have e1 : n / 10 % 10 = 0 := by omega
    have e2 : n % 10 = n := by omega
    simp [h10, canonical_nat_small n (by omega), two_digits, e1, e2]
  · have e1 : n / 10 % 10 = n / 10 := by omega
    simp [h10, canonical_nat_two n (by omega) h, two_digits, e1]

/-- A year in 1000..9999 is emitted as its four digits. -/
theorem to_string_Signed_year (it : List Nat) (y : Int) (h : 1000 ≤ y) (h2 : y ≤ 9999) :
    to_string_Signed 31 it y = .ok (it ++ four_digits y.toNat) := by
  have hd : digits10 31 = 9 := by decide
  rw [to_string_Signed_fits 31 _ y (by rw [hd]; omega) (by rw [hd]; omega) (by omega)]
  obtain ⟨n, rfl⟩ := Int.eq_ofNat_of_zero_le (by omega : 0 ≤ y)
  have hc : canonical_int (n : Int) = canonical_nat n := by
    simp [canonical_int]
  have e1 : n / 1000 % 10 = n / 1000 := by omega
  rw [hc, canonical_nat_four n (by omega) (by omega)]
  simp [four_digits, e1]

/-- C8: for a civil time with year in 1000..9999, month in 1..12, day in 1..31, hour in
0..23, minute in 0..59, second in 0..60 and millisecond 0, the Date serializer emits
exactly 22 bytes: a double quote, `YYYY-MM-DDTHH:MM:SS` with two zero-padded digits for
month, day, hour, minute and second, `Z`, and a double quote; no fractional part. -/
theorem to_string_Date_whole_seconds {τ : Type} (time_point_to_civil : τ → ymdhms)
    (it : List Nat) (tp : τ)
    (hyear : 1000 ≤ (time_point_to_civil tp).year ∧ (time_point_to_civil tp).year ≤ 9999)
    (hmonth : 1 ≤ (time_point_to_civil tp).month ∧ (time_point_to_civil tp).month ≤ 12)
    (hday : 1 ≤ (time_point_to_civil tp).day ∧ (time_point_to_civil tp).day ≤ 31)
    (hhour : (time_point_to_civil tp).hour ≤ 23)
    (hminute : (time_point_to_civil tp).minute ≤ 59)
    (hsecond : (time_point_to_civil tp).second ≤ 60)
    (hms : (time_point_to_civil tp).millisecond = 0) :
    ∃ out : List Nat,
      to_string_Date time_point_to_civil it (some tp) = .ok (it ++ out) ∧
      out.length = 22 ∧
      out = [34] ++ four_digits (time_point_to_civil tp).year.toNat ++ [45]
        ++ two_digits (time_point_to_civil tp).month ++ [45]
        ++ two_digits (time_point_to_civil tp).day ++ [84]
        ++ two_digits (time_point_to_civil tp).hour ++ [58]
        ++ two_digits (time_point_to_civil tp).minute ++ [58]
        ++ two_digits (time_point_to_civil tp).second ++ [90, 34] := by
  refine ⟨_, ?_, ?_, rfl⟩
  · simp only [to_string_Date, bind, Except.bind, hms]
    rw [to_string_Signed_year _ _ hyear.1 hyear.2]
    simp only []
    rw [to_string_Unsigned_padded _ _ (by omega)]
    simp only []
    rw [to_string_Unsigned_padded _ _ (by omega)]
    simp only []
    rw [to_string_Unsigned_padded _ _ (by omega)]
    simp only []
    rw [to_string_Unsigned_padded _ _ (by omega)]
    simp only []
    rw [to_string_Unsigned_padded _ _ (by omega)]
    simp
  · simp [four_digits, two_digits]

theorem to_string_Date_whole_seconds_witness :
    ∃ out : List Nat,
      to_string_Date id [] (some (ymdhms.mk 1970 1 2 3 4 5 0)) = .ok ([] ++ out) ∧
      out.length = 22 ∧
      out = [34] ++ four_digits 1970 ++ [45] ++ two_digits 1 ++ [45] ++ two_digits 2 ++ [84]
        ++ two_digits 3 ++ [58] ++ two_digits 4 ++ [58] ++ two_digits 5 ++ [90, 34] :=
  to_string_Date_whole_seconds id [] (ymdhms.mk 1970 1 2 3 4 5 0)
    (by decide) (by decide) (by decide) (by decide) (by decide) (by decide) rfl

/-- C7 (evaluation at the failing input): 1970-01-02T03:04:05 with 6 milliseconds is
emitted with the fraction `.6`, the unpadded decimal text of the millisecond field, not
`.006`. -/
theorem to_string_Date_six_milliseconds :
    to_string_Date id [] (some (ymdhms.mk 1970 1 2 3 4 5 6))
      = .ok [34, 49, 57, 55, 48, 45, 48, 49, 45, 48, 50, 84, 48, 51, 58, 48, 52, 58, 48, 53,
          46, 54, 90, 34] := by
  rfl

/-- C9 (evaluation at the failing input): the year 999 is emitted as the three bytes
`999`, the year 0 as the single byte `0`: the year is not padded to four digits. -/
theorem to_string_Date_year_999 :
    to_string_Date id [] (some (ymdhms.mk 999 1 2 3 4 5 0))
      = .ok [34, 57, 57, 57, 45, 48, 49, 45, 48, 50, 84, 48, 51, 58, 48, 52, 58, 48, 53,
          90, 34] ∧
    to_string_Date id [] (some (ymdhms.mk 0 1 2 3 4 5 0))
      = .ok [34, 48, 45, 48, 49, 45, 48, 50, 84, 48, 51, 58, 48, 52, 58, 48, 53, 90, 34] := by
  exact ⟨rfl, rfl⟩


/-! ## String emission: bit arithmetic -/

theorem and_0xFF (x : Nat) : x &&& 0xFF = x % 256 := Nat.and_pow_two_sub_one_eq_mod x 8
theorem and_0x3F (x : Nat) : x &&& 0x3F = x % 64 := Nat.and_pow_two_sub_one_eq_mod x 6
theorem and_0xF (x : Nat) : x &&& 0xF = x % 16 := Nat.and_pow_two_sub_one_eq_mod x 4
theorem and_0x3FF (x : Nat) : x &&& 0x3FF = x % 1024 := Nat.and_pow_two_sub_one_eq_mod x 10
theorem and_0x7FF (x : Nat) : x &&& 0x7FF = x % 2048 := Nat.and_pow_two_sub_one_eq_mod x 11
theorem and_0xFFF (x : Nat) : x &&& 0xFFF = x % 4096 := Nat.and_pow_two_sub_one_eq_mod x 12
theorem and_0xFFFF (x : Nat) : x &&& 0xFFFF = x % 65536 := Nat.and_pow_two_sub_one_eq_mod x 16
theorem and_0x3FFFF (x : Nat) : x &&& 0x3FFFF = x % 262144 :=
  Nat.and_pow_two_sub_one_eq_mod x 18
theorem and_0x1FFFFF (x : Nat) : x &&& 0x1FFFFF = x % 2097152 :=
  Nat.and_pow_two_sub_one_eq_mod x 21

theorem or_0x80 : ∀ x, x < 64 → x ||| 0x80 = x + 0x80 := by decide
theorem or_0xC0 : ∀ x, x < 32 → x ||| 0xC0 = x + 0xC0 := by decide
theorem or_0xE0 : ∀ x, x < 16 → x ||| 0xE0 = x + 0xE0 := by decide
theorem or_0xF0 : ∀ x, x < 8 → x ||| 0xF0 = x + 0xF0 := by decide

/-! ## String emission: hexadecimal escapes -/

theorem to_nibble_char_and (x : Nat) : to_nibble_char (x &&& 0xF) = .ok (hex_upper x) := by
  have hlt : x % 16 < 16 := Nat.mod_lt _ (by decide)
  rw [and_0xF]
  unfold to_nibble_char hex_upper
  rw [if_pos hlt]
  by_cases h : x % 16 < 10
  · rw [if_pos h, if_pos h]
    congr 1; omega
  · rw [if_neg h, if_neg h]
    congr 1; omega

/-- The function `output_hex` appends the escape `\uXXXX` of its argument and never fails. -/
theorem output_hex_eq (c : Nat) (it : List Nat) : output_hex c it = .ok (it ++ u_escape c) := by
  unfold output_hex
  rw [to_nibble_char_and, to_nibble_char_and, to_nibble_char_and, to_nibble_char_and]
  simp [bind, Except.bind, u_escape, Nat.shiftRight_eq_div_pow]

theorem hex_upper_printable (x : Nat) : 0x20 ≤ hex_upper x ∧ hex_upper x ≤ 0x7E := by
  unfold hex_upper
  split <;> omega

theorem u_escape_printable (c : Nat) : ∀ b ∈ u_escape c, 0x20 ≤ b ∧ b ≤ 0x7E := by
  intro b hb
  simp only [u_escape, List.mem_cons, List.mem_singleton, List.not_mem_nil, or_false] at hb
  rcases hb with h | h | h | h | h | h
  · subst h; decide
  · subst h; decide
  all_goals subst h; exact hex_upper_printable _

theorem u_escape_mod (c : Nat) : u_escape (c % 65536) = u_escape c := by
  have h1 : hex_upper (c % 65536 / 4096) = hex_upper (c / 4096) := by
    unfold hex_upper
    have : c % 65536 / 4096 % 16 = c / 4096 % 16 := by omega
    rw [this]
  have h2 : hex_upper (c % 65536 / 256) = hex_upper (c / 256) := by
    unfold hex_upper
    have : c % 65536 / 256 % 16 = c / 256 % 16 := by omega
    rw [this]
  have h3 : hex_upper (c % 65536 / 16) = hex_upper (c / 16) := by
    unfold hex_upper
    have : c % 65536 / 16 % 16 = c / 16 % 16 := by omega
    rw [this]
  have h4 : hex_upper (c % 65536) = hex_upper c := by
    unfold hex_upper
    have : c % 65536 % 16 = c % 16 := by omega
    rw [this]
  simp only [u_escape, h1, h2, h3, h4]


/-! ## String emission: one code point -/

theorem is_short_escaped_false {cp : Nat} (h : is_short_escaped cp = false) :
    cp ≠ 34 ∧ cp ≠ 92 ∧ cp ≠ 47 ∧ cp ≠ 8 ∧ cp ≠ 12 ∧ cp ≠ 10 ∧ cp ≠ 13 ∧ cp ≠ 9 := by
  simpa [is_short_escaped, not_or] using h

theorem is_short_escaped_true {cp : Nat} (h : is_short_escaped cp = true) :
    cp = 34 ∨ cp = 92 ∨ cp = 47 ∨ cp = 8 ∨ cp = 12 ∨ cp = 10 ∨ cp = 13 ∨ cp = 9 := by
  simpa [is_short_escaped] using h

theorem escape_code_point_short (mode : EightBitModes) (cp : Nat) (it : List Nat)
    (h : is_short_escaped cp = true) :
    escape_code_point mode cp it = .ok (it ++ [92, short_escape_letter cp]) := by
  rcases is_short_escaped_true h with h | h | h | h | h | h | h | h <;> subst h <;> rfl

theorem escape_code_point_default (mode : EightBitModes) (cp : Nat) (it : List Nat)
    (h : is_short_escaped cp = false) :
    escape_code_point mode cp it =
      match mode with
      | .DisallowHigh =>
        if cp < 0x20 then output_hex (cp % 65536) it
        else if cp ≥ 0x7F ∧ cp ≤ 0xFFFF then output_hex (cp % 65536) it
        else if cp > 0xFFFF then do
          let it ← output_hex ((0xD7C0 + (cp >>> 10)) % 65536) it
          output_hex ((0xDC00 + (cp &&& 0x3FF)) % 65536) it
        else utf32_to_utf8 cp it
      | .AllowFull => utf32_to_utf8 cp it := by
  obtain ⟨h1, h2, h3, h4, h5, h6, h7, h8⟩ := is_short_escaped_false h
  unfold escape_code_point
  rw [if_neg h1, if_neg h2, if_neg h3, if_neg h4, if_neg h5, if_neg h6, if_neg h7, if_neg h8]

theorem escape_code_point_DisallowHigh_hex (cp : Nat) (it : List Nat)
    (h : is_short_escaped cp = false) (hr : cp < 0x20 ∨ (0x7F ≤ cp ∧ cp ≤ 0xFFFF)) :
    escape_code_point .DisallowHigh cp it = .ok (it ++ u_escape cp) := by
  rw [escape_code_point_default _ _ _ h]
  simp only [output_hex_eq, u_escape_mod]
  rcases hr with hr | hr
  · rw [if_pos hr]
  · have : ¬ cp < 0x20 := by omega
    rw [if_neg this, if_pos ⟨hr.1, hr.2⟩]

theorem escape_code_point_DisallowHigh_ascii (cp : Nat) (it : List Nat)
    (h : is_short_escaped cp = false) (hr : 0x20 ≤ cp ∧ cp ≤ 0x7E) :
    escape_code_point .DisallowHigh cp it = .ok (it ++ [cp]) := by
  rw [escape_code_point_default _ _ _ h]
  have h1 : ¬ cp < 0x20 := by omega
  have h2 : ¬ (cp ≥ 0x7F ∧ cp ≤ 0xFFFF) := by omega
  have h3 : ¬ cp > 0xFFFF := by omega
  have h4 : cp ≤ 0x7F := by omega
  have h5 : cp % 256 = cp := by omega
  simp only [if_neg h1, if_neg h2, if_neg h3, utf32_to_utf8, if_pos h4, h5]

theorem escape_code_point_DisallowHigh_pair (cp : Nat) (it : List Nat) (hr : 0xFFFF < cp) :
    escape_code_point .DisallowHigh cp it
      = .ok (it ++ u_escape (0xD7C0 + cp / 1024) ++ u_escape (0xDC00 + cp % 1024)) := by
  have h : is_short_escaped cp = false := by
    simp [is_short_escaped]; omega
  rw [escape_code_point_default _ _ _ h]
  have h1 : ¬ cp < 0x20 := by omega
  have h2 : ¬ (cp ≥ 0x7F ∧ cp ≤ 0xFFFF) := by omega
  simp only [if_neg h1, if_neg h2, if_pos hr, output_hex_eq, u_escape_mod, bind, Except.bind,
    Nat.shiftRight_eq_div_pow, and_0x3FF]

theorem escape_code_point_AllowFull (cp : Nat) (it : List Nat)
    (h : is_short_escaped cp = false) :
    escape_code_point .AllowFull cp it = utf32_to_utf8 cp it := by
  rw [escape_code_point_default _ _ _ h]


/-- Under DisallowHigh every code point is emitted, as printable ASCII bytes only. -/
theorem escape_code_point_DisallowHigh_total (cp : Nat) :
    ∃ e : List Nat, (∀ it, escape_code_point .DisallowHigh cp it = .ok (it ++ e)) ∧
      ∀ b ∈ e, 0x20 ≤ b ∧ b ≤ 0x7E := by
  by_cases hs : is_short_escaped cp = true
  · refine ⟨[92, short_escape_letter cp], fun it => escape_code_point_short _ _ _ hs, ?_⟩
    intro b hb
    simp only [List.mem_cons, List.mem_singleton, List.not_mem_nil, or_false] at hb
    rcases hb with hb | hb
    · subst hb; decide
    · subst hb
      rcases is_short_escaped_true hs with h | h | h | h | h | h | h | h <;> subst h <;> decide
  · have hs : is_short_escaped cp = false := by simpa using hs
    by_cases h1 : cp < 0x20 ∨ (0x7F ≤ cp ∧ cp ≤ 0xFFFF)
    · exact ⟨u_escape cp, fun it => escape_code_point_DisallowHigh_hex _ _ hs h1,
        u_escape_printable cp⟩
    · by_cases h2 : 0xFFFF < cp
      · refine ⟨u_escape (0xD7C0 + cp / 1024) ++ u_escape (0xDC00 + cp % 1024), fun it => ?_, ?_⟩
        · rw [escape_code_point_DisallowHigh_pair _ _ h2, List.append_assoc]
        · intro b hb
          rcases List.mem_append.1 hb with hb | hb
          · exact u_escape_printable _ b hb
          · exact u_escape_printable _ b hb
      · have h3 : 0x20 ≤ cp ∧ cp ≤ 0x7E := by omega
        refine ⟨[cp], fun it => escape_code_point_DisallowHigh_ascii _ _ hs h3, ?_⟩
        intro b hb
        simp only [List.mem_singleton] at hb
        subst hb; exact h3

/-- The bytes `utf32_to_utf8` emits do not depend on what was written before. -/
theorem utf32_to_utf8_appends (cp : Nat) (it : List Nat) :
    utf32_to_utf8 cp it = (utf32_to_utf8 cp []).map (it ++ ·) := by
  unfold utf32_to_utf8
  split
  · rfl
  · split
    · rfl
    · split
      · rfl
      · split <;> rfl

/-- The bytes emitted for one code point do not depend on what was written before. -/
theorem escape_code_point_appends (mode : EightBitModes) (cp : Nat) (it : List Nat) :
    escape_code_point mode cp it = (escape_code_point mode cp []).map (it ++ ·) := by
  cases mode with
  | DisallowHigh =>
    obtain ⟨e, he, _⟩ := escape_code_point_DisallowHigh_total cp
    rw [he it, he []]; rfl
  | AllowFull =>
    by_cases hs : is_short_escaped cp = true
    · rw [escape_code_point_short _ _ _ hs, escape_code_point_short _ _ _ hs]; rfl
    · have hs : is_short_escaped cp = false := by simpa using hs
      rw [escape_code_point_AllowFull _ _ hs, escape_code_point_AllowFull _ _ hs]
      exact utf32_to_utf8_appends cp it

/-! ## String emission: the loop over the code points -/

theorem escape_code_points_cons_ok (mode : EightBitModes) (cp : Nat) (cps it e o : List Nat)
    (h1 : escape_code_point mode cp [] = .ok e)
    (h : ∀ it', escape_code_points mode cps it' = .ok (it' ++ o)) :
    escape_code_points mode (cp :: cps) it = .ok (it ++ (e ++ o)) := by
  have : escape_code_point mode cp it = .ok (it ++ e) := by
    rw [escape_code_point_appends, h1]; rfl
  simp only [escape_code_points, this, bind, Except.bind, h, List.append_assoc]

/-- The bytes emitted for a list of code points do not depend on what was written
before. -/
theorem escape_code_points_appends (mode : EightBitModes) (cps : List Nat) :
    ∀ it, escape_code_points mode cps it = (escape_code_points mode cps []).map (it ++ ·) := by
  induction cps with
  | nil => intro it; simp [escape_code_points, Except.map]
  | cons cp cps ih =>
    intro it
    simp only [escape_code_points, bind, Except.bind]
    rw [escape_code_point_appends mode cp it]
    cases h1 : escape_code_point mode cp [] with
    | error e => rfl
    | ok e =>
      simp only [Except.map, List.nil_append]
      rw [ih (it ++ e), ih e]
      cases h2 : escape_code_points mode cps [] with
      | error e2 => rfl
      | ok o => simp [Except.map]

theorem escape_code_points_ok (mode : EightBitModes) (cps it o : List Nat)
    (h : escape_code_points mode cps [] = .ok o) :
    escape_code_points mode cps it = .ok (it ++ o) := by
  rw [escape_code_points_appends, h]; rfl

/-- The output for a list of code points around one code point is the output for what
precedes it, the bytes of that code point, and the output for what follows. -/
theorem escape_code_points_middle (mode : EightBitModes) (pre post : List Nat) (cp : Nat)
    (it o1 e o2 : List Nat)
    (h1 : escape_code_points mode pre [] = .ok o1)
    (he : ∀ it', escape_code_point mode cp it' = .ok (it' ++ e))
    (h2 : escape_code_points mode post [] = .ok o2) :
    escape_code_points mode (pre ++ cp :: post) it = .ok (it ++ o1 ++ e ++ o2) := by
  induction pre generalizing it o1 with
  | nil =>
    simp only [escape_code_points] at h1
    cases h1
    simp only [List.nil_append, escape_code_points, he, bind, Except.bind,
      escape_code_points_ok _ _ _ _ h2, List.append_nil]
  | cons c pre ih =>
    simp only [escape_code_points, bind, Except.bind] at h1
    cases hc : escape_code_point mode c [] with
    | error err => rw [hc] at h1; cases h1
    | ok ec =>
      rw [hc] at h1
      simp only at h1
      rw [escape_code_points_appends] at h1
      cases hp : escape_code_points mode pre [] with
      | error err => rw [hp] at h1; cases h1
      | ok op =>
        rw [hp] at h1
        simp only [Except.map, Except.ok.injEq] at h1
        subst h1
        have hc' : escape_code_point mode c it = .ok (it ++ ec) := by
          rw [escape_code_point_appends, hc]; rfl
        have e1 : escape_code_points mode (c :: pre ++ cp :: post) it
            = escape_code_points mode (pre ++ cp :: post) (it ++ ec) := by
          simp only [List.cons_append, escape_code_points, hc', bind, Except.bind]
          rfl
        rw [e1, ih (it ++ ec) op hp]
        simp [List.append_assoc]

/-- Under DisallowHigh the loop over the code points never fails and emits printable
ASCII bytes only. -/
theorem escape_code_points_DisallowHigh_total (cps : List Nat) :
    ∃ o : List Nat, escape_code_points .DisallowHigh cps [] = .ok o ∧
      ∀ b ∈ o, 0x20 ≤ b ∧ b ≤ 0x7E := by
  induction cps with
  | nil => exact ⟨[], rfl, by simp⟩
  | cons cp cps ih =>
    obtain ⟨o, ho, hp⟩ := ih
    obtain ⟨e, he, hpe⟩ := escape_code_point_DisallowHigh_total cp
    refine ⟨e ++ o, ?_, ?_⟩
    · have := escape_code_points_cons_ok .DisallowHigh cp cps [] e o (by simpa using he [])
        (fun it' => escape_code_points_ok _ _ _ _ ho)
      simpa using this
    · intro b hb
      rcases List.mem_append.1 hb with hb | hb
      · exact hpe b hb
      · exact hp b hb


/-! ## String emission: decoding and re-encoding UTF-8 -/

theorem sequence_length_eq (b0 : Nat) (h : b0 < 256) :
    sequence_length b0 =
      if b0 < 0x80 then 1 else if b0 / 32 = 6 then 2 else if b0 / 16 = 14 then 3
      else if b0 / 8 = 30 then 4 else 0 := by
  have e : b0 % 256 = b0 := by omega
  simp only [sequence_length, and_0xFF, e, Nat.shiftRight_eq_div_pow]

/-- Reading one code point from its UTF-8 encoding returns the code point and leaves
exactly the bytes behind the encoding. -/
theorem utf8_next_encoding (c : Nat) (rest : List Nat) (hc : c ≤ 0x10FFFF) :
    utf8_next (utf8_encoding c ++ rest) = some (c, rest) := by
  unfold utf8_encoding
  by_cases h1 : c < 0x80
  · have e : c % 256 = c := by omega
    have hs : sequence_length c = 1 := by
      rw [sequence_length_eq c (by omega), if_pos h1]
    simp only [if_pos h1, List.singleton_append, utf8_next, hs, and_0xFF, e]
  · by_cases h2 : c < 0x800
    · have hs : sequence_length (0xC0 + c / 64) = 2 := by
        rw [sequence_length_eq _ (by omega), if_neg (by omega), if_pos (by omega)]
      have e : ((0xC0 + c / 64) % 256 * 64) % 2048 + (0x80 + c % 64) % 64 = c := by omega
      simp only [if_neg h1, if_pos h2, List.cons_append, List.nil_append, utf8_next, hs,
        and_0xFF, and_0x7FF, and_0x3F, Nat.shiftLeft_eq]
      simp only [Nat.reducePow, e]
    · by_cases h3 : c < 0x10000
      · have hs : sequence_length (0xE0 + c / 4096) = 3 := by
          rw [sequence_length_eq _ (by omega), if_neg (by omega), if_neg (by omega),
            if_pos (by omega)]
        have e : ((0xE0 + c / 4096) % 256 * 4096) % 65536
            + ((0x80 + c / 64 % 64) % 256 * 64) % 4096 + (0x80 + c % 64) % 64 = c := by omega
        simp only [if_neg h1, if_neg h2, if_pos h3, List.cons_append, List.nil_append,
          utf8_next, hs, and_0xFF, and_0xFFFF, and_0xFFF, and_0x3F, Nat.shiftLeft_eq]
        simp only [Nat.reducePow, e]
      · have hs : sequence_length (0xF0 + c / 262144) = 4 := by
          rw [sequence_length_eq _ (by omega), if_neg (by omega), if_neg (by omega),
            if_neg (by omega), if_pos (by omega)]
        have e : ((0xF0 + c / 262144) % 256 * 262144) % 2097152
            + ((0x80 + c / 4096 % 64) % 256 * 4096) % 262144
            + ((0x80 + c / 64 % 64) % 256 * 64) % 4096 + (0x80 + c % 64) % 64 = c := by omega
        simp only [if_neg h1, if_neg h2, if_neg h3, List.cons_append, List.nil_append,
          utf8_next, hs, and_0xFF, and_0x1FFFFF, and_0x3FFFF, and_0xFFF, and_0x3F,
          Nat.shiftLeft_eq]
        simp only [Nat.reducePow, e]

/-- The function `utf32_to_utf8` emits the UTF-8 encoding of every code point up to
U+10FFFF. -/
theorem utf32_to_utf8_encoding (c : Nat) (it : List Nat) (hc : c ≤ 0x10FFFF) :
    utf32_to_utf8 c it = .ok (it ++ utf8_encoding c) := by
  unfold utf32_to_utf8 utf8_encoding
  by_cases h1 : c < 0x80
  · have e : c % 256 = c := by omega
    rw [if_pos (by omega : c ≤ 0x7F), if_pos h1, e]
  · by_cases h2 : c < 0x800
    · rw [if_neg (by omega : ¬ c ≤ 0x7F), if_pos (by omega : c ≤ 0x7FF), if_neg h1, if_pos h2]
      simp only [Nat.shiftRight_eq_div_pow, and_0x3F, Nat.reducePow]
      rw [or_0xC0 _ (by omega), or_0x80 _ (by omega)]
      have e1 : (c / 64 + 0xC0) % 256 = 0xC0 + c / 64 := by omega
      have e2 : (c % 64 + 0x80) % 256 = 0x80 + c % 64 := by omega
      rw [e1, e2]
    · by_cases h3 : c < 0x10000
      · rw [if_neg (by omega : ¬ c ≤ 0x7F), if_neg (by omega : ¬ c ≤ 0x7FF),
          if_pos (by omega : c ≤ 0xFFFF), if_neg h1, if_neg h2, if_pos h3]
        simp only [Nat.shiftRight_eq_div_pow, and_0x3F, Nat.reducePow]
        rw [or_0xE0 _ (by omega), or_0x80 _ (by omega), or_0x80 _ (by omega)]
        have e1 : (c / 4096 + 0xE0) % 256 = 0xE0 + c / 4096 := by omega
        have e2 : (c / 64 % 64 + 0x80) % 256 = 0x80 + c / 64 % 64 := by omega
        have e3 : (c % 64 + 0x80) % 256 = 0x80 + c % 64 := by omega
        rw [e1, e2, e3]
      · rw [if_neg (by omega : ¬ c ≤ 0x7F), if_neg (by omega : ¬ c ≤ 0x7FF),
          if_neg (by omega : ¬ c ≤ 0xFFFF), if_pos hc, if_neg h1, if_neg h2, if_neg h3]
        simp only [Nat.shiftRight_eq_div_pow, and_0x3F, Nat.reducePow]
        rw [or_0xF0 _ (by omega), or_0x80 _ (by omega), or_0x80 _ (by omega),
          or_0x80 _ (by omega)]
        have e1 : (c / 262144 + 0xF0) % 256 = 0xF0 + c / 262144 := by omega
        have e2 : (c / 4096 % 64 + 0x80) % 256 = 0x80 + c / 4096 % 64 := by omega
        have e3 : (c / 64 % 64 + 0x80) % 256 = 0x80 + c / 64 % 64 := by omega
        have e4 : (c % 64 + 0x80) % 256 = 0x80 + c % 64 := by omega
        rw [e1, e2, e3, e4]


theorem utf8_encoding_ne_nil (c : Nat) : ∃ b0 tail, utf8_encoding c = b0 :: tail := by
  unfold utf8_encoding
  split
  · exact ⟨_, _, rfl⟩
  · split
    · exact ⟨_, _, rfl⟩
    · split <;> exact ⟨_, _, rfl⟩

/-- Walking over the UTF-8 text of code points up to U+10FFFF yields these code points. -/
theorem utf8_walk_text (cs : List Nat) (hcs : ∀ c ∈ cs, c ≤ 0x10FFFF) :
    ∀ steps, (utf8_text cs).length ≤ steps → utf8_walk steps (utf8_text cs) = some cs := by
  induction cs with
  | nil => intro steps _; cases steps <;> rfl
  | cons c cs ih =>
    intro steps hlen
    have hc : c ≤ 0x10FFFF := hcs c (List.mem_cons_self _ _)
    have hnext := utf8_next_encoding c (utf8_text cs) hc
    obtain ⟨b0, tail, hb⟩ := utf8_encoding_ne_nil c
    simp only [utf8_text, hb, List.cons_append, List.length_cons] at hlen hnext ⊢
    cases steps with
    | zero => omega
    | succ steps =>
      have hl : (utf8_text cs).length ≤ steps := by
        simp only [List.length_append] at hlen; omega
      simp only [utf8_walk, hnext, ih (fun c hc => hcs c (List.mem_cons_of_mem _ hc)) steps hl,
        Option.map_some']

/-- The iterator walk over valid UTF-8 reaches the end of the container and yields the
code points of the text. -/
theorem utf8_code_points_text (cs : List Nat) (hcs : ∀ c ∈ cs, c ≤ 0x10FFFF) :
    utf8_code_points (utf8_text cs) = some cs :=
  utf8_walk_text cs hcs _ (Nat.le_refl _)

theorem is_scalar_value_le {c : Nat} (h : is_scalar_value c = true) : c ≤ 0x10FFFF := by
  simp only [is_scalar_value, decide_eq_true_eq] at h
  omega

/-- Re-encoding the code points of a text with `utf32_to_utf8` reproduces the text. -/
theorem encode_code_points_text (cs : List Nat) (hcs : ∀ c ∈ cs, c ≤ 0x10FFFF) :
    ∀ it, encode_code_points cs it = .ok (it ++ utf8_text cs) := by
  induction cs with
  | nil => intro it; simp [encode_code_points, utf8_text]
  | cons c cs ih =>
    intro it
    simp only [encode_code_points, utf8_text, bind, Except.bind,
      utf32_to_utf8_encoding c it (hcs c (List.mem_cons_self _ _)),
      ih (fun c hc => hcs c (List.mem_cons_of_mem _ hc)), List.append_assoc]

theorem mem_utf8_text_of_ascii (cs : List Nat) (c : Nat) (hc : c ∈ cs) (h : c < 0x80) :
    c ∈ utf8_text cs := by
  induction cs with
  | nil => cases hc
  | cons d cs ih =>
    simp only [utf8_text, List.mem_append]
    rcases List.mem_cons.1 hc with hd | hd
    · subst hd
      left
      simp [utf8_encoding, h]
    · right; exact ih hd

/-- Under AllowFull the loop over code points that need no short escape is the plain
re-encoding loop. -/
theorem escape_code_points_AllowFull_plain (cs : List Nat)
    (hcs : ∀ c ∈ cs, is_short_escaped c = false) :
    ∀ it, escape_code_points .AllowFull cs it = encode_code_points cs it := by
  induction cs with
  | nil => intro it; rfl
  | cons c cs ih =>
    intro it
    simp only [escape_code_points, encode_code_points,
      escape_code_point_AllowFull c _ (hcs c (List.mem_cons_self _ _))]
    cases utf32_to_utf8 c it with
    | error e => rfl
    | ok o => exact ih (fun c hc => hcs c (List.mem_cons_of_mem _ hc)) o

/-- Under AllowFull the loop over code points up to U+10FFFF never fails. -/
theorem escape_code_points_AllowFull_total (cs : List Nat) (hcs : ∀ c ∈ cs, c ≤ 0x10FFFF) :
    ∃ o : List Nat, escape_code_points .AllowFull cs [] = .ok o := by
  induction cs with
  | nil => exact ⟨[], rfl⟩
  | cons c cs ih =>
    obtain ⟨o, ho⟩ := ih (fun c hc => hcs c (List.mem_cons_of_mem _ hc))
    have hc := hcs c (List.mem_cons_self _ _)
    have : ∃ e, escape_code_point .AllowFull c [] = .ok e := by
      by_cases hs : is_short_escaped c = true
      · exact ⟨_, escape_code_point_short _ _ _ hs⟩
      · have hs : is_short_escaped c = false := by simpa using hs
        rw [escape_code_point_AllowFull _ _ hs, utf32_to_utf8_encoding c [] hc]
        exact ⟨_, rfl⟩
    obtain ⟨e, he⟩ := this
    exact ⟨_, escape_code_points_cons_ok .AllowFull c cs [] e o he
      (fun it' => escape_code_points_ok _ _ _ _ ho)⟩

/-- On a valid UTF-8 string the escaping loop never fails, in either mode. -/
theorem escape_code_points_total (mode : EightBitModes) (cs : List Nat)
    (hcs : ∀ c ∈ cs, c ≤ 0x10FFFF) :
    ∃ o : List Nat, escape_code_points mode cs [] = .ok o := by
  cases mode with
  | DisallowHigh =>
    obtain ⟨o, ho, _⟩ := escape_code_points_DisallowHigh_total cs
    exact ⟨o, ho⟩
  | AllowFull => exact escape_code_points_AllowFull_total cs hcs


/-! ## String emission: the escaped-string serializer -/

theorem copy_to_iterator_escape (mode : EightBitModes) (s cps it : List Nat)
    (h : utf8_code_points s = some cps) :
    copy_to_iterator true mode s it = escape_code_points mode cps it := by
  simp only [copy_to_iterator, h, if_true]

theorem valid_utf8_code_points {s : List Nat} (hs : valid_utf8 s) :
    ∃ cs, utf8_code_points s = some cs ∧ s = utf8_text cs ∧ ∀ c ∈ cs, c ≤ 0x10FFFF := by
  obtain ⟨cs, hcs, rfl⟩ := hs
  have hle : ∀ c ∈ cs, c ≤ 0x10FFFF := fun c hc => is_scalar_value_le (hcs c hc)
  exact ⟨cs, utf8_code_points_text cs hle, rfl, hle⟩

/-- C2: for every valid UTF-8 string the escaped-string serializer under DisallowHigh
returns, and every byte it emits is in the printable ASCII range 0x20..0x7E. -/
theorem copy_to_iterator_DisallowHigh_printable (s it : List Nat) (hs : valid_utf8 s) :
    ∃ out : List Nat, copy_to_iterator true .DisallowHigh s it = .ok (it ++ out) ∧
      ∀ b ∈ out, 0x20 ≤ b ∧ b ≤ 0x7E := by
  obtain ⟨cs, hcs, _, _⟩ := valid_utf8_code_points hs
  obtain ⟨o, ho, hp⟩ := escape_code_points_DisallowHigh_total cs
  exact ⟨o, by rw [copy_to_iterator_escape _ _ _ _ hcs, escape_code_points_ok _ _ _ _ ho], hp⟩

theorem copy_to_iterator_DisallowHigh_printable_witness :
    valid_utf8 [97, 34, 98, 10, 195, 191] ∧
    ∃ out : List Nat,
      copy_to_iterator true .DisallowHigh [97, 34, 98, 10, 195, 191] [] = .ok ([] ++ out) ∧
      ∀ b ∈ out, 0x20 ≤ b ∧ b ≤ 0x7E :=
  have hv : valid_utf8 [97, 34, 98, 10, 195, 191] := ⟨[97, 34, 98, 10, 255], by decide, by rfl⟩
  ⟨hv, copy_to_iterator_DisallowHigh_printable [97, 34, 98, 10, 195, 191] [] hv⟩

/-- C3: under DisallowHigh, a code point `cp` that is not one of the eight short-escaped
characters is emitted, wherever it occurs in the string, as the six bytes backslash, `u`
and the four upper-case hexadecimal digits of `cp` when `cp < 0x20` or
`0x7F ≤ cp ≤ 0xFFFF`, and as the single byte `cp` when `0x20 ≤ cp ≤ 0x7E`: the output is
the output for the code points before it, these bytes, and the output for the code
points after it. -/
theorem copy_to_iterator_DisallowHigh_code_point (s pre post : List Nat) (cp : Nat)
    (it : List Nat) (hs : utf8_code_points s = some (pre ++ cp :: post))
    (hcp : is_short_escaped cp = false) :
    ∃ o1 o2 : List Nat,
      escape_code_points .DisallowHigh pre [] = .ok o1 ∧
      escape_code_points .DisallowHigh post [] = .ok o2 ∧
      ((cp < 0x20 ∨ (0x7F ≤ cp ∧ cp ≤ 0xFFFF)) →
        copy_to_iterator true .DisallowHigh s it
          = .ok (it ++ o1 ++ [92, 117, hex_upper (cp / 4096), hex_upper (cp / 256),
              hex_upper (cp / 16), hex_upper cp] ++ o2)) ∧
      ((0x20 ≤ cp ∧ cp ≤ 0x7E) →
        copy_to_iterator true .DisallowHigh s it = .ok (it ++ o1 ++ [cp] ++ o2)) := by
  obtain ⟨o1, h1, _⟩ := escape_code_points_DisallowHigh_total pre
  obtain ⟨o2, h2, _⟩ := escape_code_points_DisallowHigh_total post
  refine ⟨o1, o2, h1, h2, ?_, ?_⟩
  · intro hr
    rw [copy_to_iterator_escape _ _ _ _ hs]
    exact escape_code_points_middle _ _ _ _ _ _ _ _ h1
      (fun it' => escape_code_point_DisallowHigh_hex cp it' hcp hr) h2
  · intro hr
    rw [copy_to_iterator_escape _ _ _ _ hs]
    exact escape_code_points_middle _ _ _ _ _ _ _ _ h1
      (fun it' => escape_code_point_DisallowHigh_ascii cp it' hcp hr) h2

theorem copy_to_iterator_DisallowHigh_code_point_witness :
    utf8_code_points [0x7E, 0x7F, 0xEF, 0xBF, 0xBF] = some ([0x7E] ++ 0x7F :: [0xFFFF]) ∧
    is_short_escaped 0x7F = false ∧
    ∃ o1 o2 : List Nat,
      escape_code_points .DisallowHigh [0x7E] [] = .ok o1 ∧
      escape_code_points .DisallowHigh [0xFFFF] [] = .ok o2 ∧
      ((0x7F < 0x20 ∨ (0x7F ≤ 0x7F ∧ 0x7F ≤ 0xFFFF)) →
        copy_to_iterator true .DisallowHigh [0x7E, 0x7F, 0xEF, 0xBF, 0xBF] []
          = .ok ([] ++ o1 ++ [92, 117, hex_upper (0x7F / 4096), hex_upper (0x7F / 256),
              hex_upper (0x7F / 16), hex_upper 0x7F] ++ o2)) ∧
      ((0x20 ≤ 0x7F ∧ 0x7F ≤ 0x7E) →
        copy_to_iterator true .DisallowHigh [0x7E, 0x7F, 0xEF, 0xBF, 0xBF] []
          = .ok ([] ++ o1 ++ [0x7F] ++ o2)) :=
  ⟨by rfl, by decide,
    copy_to_iterator_DisallowHigh_code_point [0x7E, 0x7F, 0xEF, 0xBF, 0xBF] [0x7E] [0xFFFF]
      0x7F [] (by rfl) (by decide)⟩

/-- C4: under DisallowHigh, a code point `cp` with `0x10000 ≤ cp ≤ 0x10FFFF` is
emitted, wherever it occurs, as two `\uXXXX` escapes with 16-bit values `H` then `L`,
where `0xD800 ≤ H ≤ 0xDBFF`, `0xDC00 ≤ L ≤ 0xDFFF` and
`0x10000 + (H - 0xD800) * 0x400 + (L - 0xDC00) = cp` (the RFC 2781 surrogate pair);
U+10000 gives the values D800, DC00 and U+10FFFF gives DBFF, DFFF. -/
theorem copy_to_iterator_DisallowHigh_surrogate_pair (s pre post : List Nat) (cp : Nat)
    (it : List Nat) (hs : utf8_code_points s = some (pre ++ cp :: post))
    (hcp : 0x10000 ≤ cp ∧ cp ≤ 0x10FFFF) :
    (∃ H L : Nat, ∃ o1 o2 : List Nat,
      (0xD800 ≤ H ∧ H ≤ 0xDBFF) ∧ (0xDC00 ≤ L ∧ L ≤ 0xDFFF) ∧
      0x10000 + (H - 0xD800) * 0x400 + (L - 0xDC00) = cp ∧
      escape_code_points .DisallowHigh pre [] = .ok o1 ∧
      escape_code_points .DisallowHigh post [] = .ok o2 ∧
      copy_to_iterator true .DisallowHigh s it
        = .ok (it ++ o1 ++ (u_escape H ++ u_escape L) ++ o2)) ∧
    copy_to_iterator true .DisallowHigh [0xF0, 0x90, 0x80, 0x80] []
      = .ok [92, 117, 68, 56, 48, 48, 92, 117, 68, 67, 48, 48] ∧
    copy_to_iterator true .DisallowHigh [0xF4, 0x8F, 0xBF, 0xBF] []
      = .ok [92, 117, 68, 66, 70, 70, 92, 117, 68, 70, 70, 70] := by
  refine ⟨?_, by rfl, by rfl⟩
  obtain ⟨o1, h1, _⟩ := escape_code_points_DisallowHigh_total pre
  obtain ⟨o2, h2, _⟩ := escape_code_points_DisallowHigh_total post
  refine ⟨0xD7C0 + cp / 1024, 0xDC00 + cp % 1024, o1, o2, by omega, by omega, by omega,
    h1, h2, ?_⟩
  rw [copy_to_iterator_escape _ _ _ _ hs]
  exact escape_code_points_middle _ _ _ _ _ _ _ _ h1
    (fun it' => by
      rw [escape_code_point_DisallowHigh_pair cp it' (by omega), List.append_assoc]) h2

theorem copy_to_iterator_DisallowHigh_surrogate_pair_witness :
    utf8_code_points [97, 0xF0, 0x9F, 0x98, 0x80] = some ([97] ++ 0x1F600 :: []) ∧
    (∃ H L : Nat, ∃ o1 o2 : List Nat,
      (0xD800 ≤ H ∧ H ≤ 0xDBFF) ∧ (0xDC00 ≤ L ∧ L ≤ 0xDFFF) ∧
      0x10000 + (H - 0xD800) * 0x400 + (L - 0xDC00) = 0x1F600 ∧
      escape_code_points .DisallowHigh [97] [] = .ok o1 ∧
      escape_code_points .DisallowHigh [] [] = .ok o2 ∧
      copy_to_iterator true .DisallowHigh [97, 0xF0, 0x9F, 0x98, 0x80] []
        = .ok ([] ++ o1 ++ (u_escape H ++ u_escape L) ++ o2)) :=
  ⟨by rfl,
    (copy_to_iterator_DisallowHigh_surrogate_pair [97, 0xF0, 0x9F, 0x98, 0x80] [97] []
      0x1F600 [] (by rfl) (by decide)).1⟩


/-- C5: under AllowFull, for every valid UTF-8 string that contains none of the eight
short-escaped characters, the output of the escaped-string serializer is byte for byte
the input: decoding each code point and re-encoding it with `utf32_to_utf8` is the
identity. -/
theorem copy_to_iterator_AllowFull_verbatim (s it : List Nat) (hs : valid_utf8 s)
    (hplain : ∀ b ∈ s, is_short_escaped b = false) :
    copy_to_iterator true .AllowFull s it = .ok (it ++ s) := by
  obtain ⟨cs, hcs, htext, hle⟩ := valid_utf8_code_points hs
  have hne : ∀ c ∈ cs, is_short_escaped c = false := by
    intro c hc
    by_cases h : c < 0x80
    · exact hplain c (by rw [htext]; exact mem_utf8_text_of_ascii cs c hc h)
    · simp [is_short_escaped]; omega
  rw [copy_to_iterator_escape _ _ _ _ hcs, escape_code_points_AllowFull_plain cs hne,
    encode_code_points_text cs hle, ← htext]

theorem copy_to_iterator_AllowFull_verbatim_witness :
    valid_utf8 [97, 0xC3, 0xBF, 0xE2, 0x82, 0xAC, 0xF0, 0x9F, 0x98, 0x80] ∧
    (∀ b ∈ [97, 0xC3, 0xBF, 0xE2, 0x82, 0xAC, 0xF0, 0x9F, 0x98, 0x80],
      is_short_escaped b = false) ∧
    copy_to_iterator true .AllowFull [97, 0xC3, 0xBF, 0xE2, 0x82, 0xAC, 0xF0, 0x9F, 0x98, 0x80]
      [34] = .ok ([34] ++ [97, 0xC3, 0xBF, 0xE2, 0x82, 0xAC, 0xF0, 0x9F, 0x98, 0x80]) :=
  have hv : valid_utf8 [97, 0xC3, 0xBF, 0xE2, 0x82, 0xAC, 0xF0, 0x9F, 0x98, 0x80] :=
    ⟨[97, 0xFF, 0x20AC, 0x1F600], by decide, by rfl⟩
  ⟨hv, by decide, copy_to_iterator_AllowFull_verbatim _ [34] hv (by decide)⟩

/-- C6: in both eight-bit modes, each occurrence of a double quote, backslash, slash,
backspace, form feed, newline, carriage return or tab in a valid UTF-8 string is emitted
as exactly two bytes, a backslash and then the double quote, backslash, slash, `b`, `f`,
`n`, `r`, `t` respectively: the output is the output for the code points before it,
these two bytes, and the output for the code points after it.  The string a, double
quote, b, newline, U+00FF gives a, backslash, double quote, b, backslash, n and then the
escape u00FF under DisallowHigh, the raw bytes C3 BF under AllowFull. -/
theorem copy_to_iterator_short_escape (mode : EightBitModes) (s pre post : List Nat)
    (cp : Nat) (it : List Nat) (hv : valid_utf8 s)
    (hs : utf8_code_points s = some (pre ++ cp :: post))
    (hcp : is_short_escaped cp = true) :
    (∃ o1 o2 : List Nat,
      escape_code_points mode pre [] = .ok o1 ∧
      escape_code_points mode post [] = .ok o2 ∧
      copy_to_iterator true mode s it = .ok (it ++ o1 ++ [92, short_escape_letter cp] ++ o2)) ∧
    (short_escape_letter 34 = 34 ∧ short_escape_letter 92 = 92 ∧ short_escape_letter 47 = 47 ∧
      short_escape_letter 8 = 98 ∧ short_escape_letter 12 = 102 ∧
      short_escape_letter 10 = 110 ∧ short_escape_letter 13 = 114 ∧
      short_escape_letter 9 = 116) ∧
    copy_to_iterator true .DisallowHigh [97, 34, 98, 10, 0xC3, 0xBF] []
      = .ok [97, 92, 34, 98, 92, 110, 92, 117, 48, 48, 70, 70] ∧
    copy_to_iterator true .AllowFull [97, 34, 98, 10, 0xC3, 0xBF] []
      = .ok [97, 92, 34, 98, 92, 110, 0xC3, 0xBF] := by
  refine ⟨?_, by decide, by rfl, by rfl⟩
  obtain ⟨cs, hcs, _, hle⟩ := valid_utf8_code_points hv
  rw [hs] at hcs
  have hcs : pre ++ cp :: post = cs := by simpa using hcs
  subst hcs
  obtain ⟨o1, h1⟩ := escape_code_points_total mode pre
    (fun c hc => hle c (List.mem_append_left _ hc))
  obtain ⟨o2, h2⟩ := escape_code_points_total mode post
    (fun c hc => hle c (List.mem_append_right _ (List.mem_cons_of_mem _ hc)))
  refine ⟨o1, o2, h1, h2, ?_⟩
  rw [copy_to_iterator_escape _ _ _ _ hs]
  exact escape_code_points_middle _ _ _ _ _ _ _ _ h1
    (fun it' => escape_code_point_short mode cp it' hcp) h2

theorem copy_to_iterator_short_escape_witness :
    valid_utf8 [97, 34, 98, 10, 0xC3, 0xBF] ∧
    utf8_code_points [97, 34, 98, 10, 0xC3, 0xBF] = some ([97, 34, 98] ++ 10 :: [0xFF]) ∧
    is_short_escaped 10 = true ∧
    ∃ o1 o2 : List Nat,
      escape_code_points .AllowFull [97, 34, 98] [] = .ok o1 ∧
      escape_code_points .AllowFull [0xFF] [] = .ok o2 ∧
      copy_to_iterator true .AllowFull [97, 34, 98, 10, 0xC3, 0xBF] []
        = .ok ([] ++ o1 ++ [92, short_escape_letter 10] ++ o2) :=
  have hv : valid_utf8 [97, 34, 98, 10, 0xC3, 0xBF] := ⟨[97, 34, 98, 10, 0xFF], by decide, by rfl⟩
  ⟨hv, by rfl, by decide,
    (copy_to_iterator_short_escape .AllowFull [97, 34, 98, 10, 0xC3, 0xBF] [97, 34, 98] [0xFF]
      10 [] hv (by rfl) (by decide)).1⟩

/-! ## JSON path navigation -/

/-- C10 (evaluation at the failing input): on the document `{"a":[1]}` the path `a[1]`
names no value (the array has the single element of index 0), yet `find_range` returns
`true`, with the cursor on the `]` that closes the array; the same happens on
`{"a":[]}` with the path `a[0]`.  An index beyond the length is reported: on
`{"a":[1]}` the path `a[2]` gives `false`. -/
theorem find_range_index_at_length :
    find_range true [123, 34, 97, 34, 58, 91, 49, 93, 125] [97, 91, 49, 93]
      = .ok (true, { checked := true, bytes := [93, 125] }) ∧
    find_range true [123, 34, 97, 34, 58, 91, 93, 125] [97, 91, 48, 93]
      = .ok (true, { checked := true, bytes := [93, 125] }) ∧
    find_range true [123, 34, 97, 34, 58, 91, 49, 93, 125] [97, 91, 50, 93]
      = .ok (false, { checked := true, bytes := [93, 125] }) := by
  refine ⟨by rfl, by rfl, by rfl⟩

/-! ## JSON paths: `pop_json_path` -/

/-- The scan of `pop_json_path` stops at the first unescaped delimiter: it returns the
bytes before it, the delimiter, and the bytes behind it; without an unescaped delimiter
it returns the whole path, no delimiter and an empty rest. -/
theorem pop_front_path_first_delimiter (q : List Nat) : ∀ escaped : Bool,
    ∃ k, k ≤ q.length ∧
      (∀ j, j < k → unescaped_delimiter_at escaped q j = false) ∧
      (unescaped_delimiter_at escaped q k = true ∨ k = q.length) ∧
      (pop_front_path escaped q).current = q.take k ∧
      (pop_front_path escaped q).found_char = q.getD k 0 ∧
      (pop_front_path escaped q).path = q.drop (k + 1) := by
  induction q with
  | nil =>
    intro escaped
    exact ⟨0, Nat.le_refl _, fun j hj => absurd hj (Nat.not_lt_zero _), Or.inr rfl,
      by cases escaped <;> rfl, by cases escaped <;> rfl, by cases escaped <;> rfl⟩
  | cons c rest ih =>
    intro escaped
    have step : ∀ e' : Bool,
        (∀ i, unescaped_delimiter_at escaped (c :: rest) (i + 1)
          = unescaped_delimiter_at e' rest i) →
        unescaped_delimiter_at escaped (c :: rest) 0 = false →
        pop_front_path escaped (c :: rest)
          = { pop_front_path e' rest with current := c :: (pop_front_path e' rest).current } →
        ∃ k, k ≤ (c :: rest).length ∧
          (∀ j, j < k → unescaped_delimiter_at escaped (c :: rest) j = false) ∧
          (unescaped_delimiter_at escaped (c :: rest) k = true ∨ k = (c :: rest).length) ∧
          (pop_front_path escaped (c :: rest)).current = (c :: rest).take k ∧
          (pop_front_path escaped (c :: rest)).found_char = (c :: rest).getD k 0 ∧
          (pop_front_path escaped (c :: rest)).path = (c :: rest).drop (k + 1) := by
      intro e' hshift h0 hpop
      obtain ⟨k, hk, hbefore, hat, hcur, hfound, hpath⟩ := ih e'
      refine ⟨k + 1, by simpa using hk, ?_, ?_, ?_, ?_, ?_⟩
      · intro j hj
        cases j with
        | zero => exact h0
        | succ j => rw [hshift]; exact hbefore j (by omega)
      · rcases hat with hat | hat
        · left; rw [hshift]; exact hat
        · right; simp [hat]
      · rw [hpop]; simp [hcur]
      · rw [hpop]; simp [hfound]
      · rw [hpop]; simp [hpath]
    cases escaped with
    | true => exact step false (fun i => rfl) rfl rfl
    | false =>
      by_cases h92 : c = 92
      · subst h92
        exact step true (fun i => rfl) rfl rfl
      · by_cases hd : c = 46 ∨ c = 91 ∨ c = 93
        · refine ⟨0, Nat.zero_le _, fun j hj => absurd hj (Nat.not_lt_zero _), Or.inl ?_, ?_, ?_, ?_⟩
          · simp [unescaped_delimiter_at, is_path_delimiter, hd]
          · simp [pop_front_path, h92, hd]
          · simp [pop_front_path, h92, hd]
          · simp [pop_front_path, h92, hd]
        · refine step false (fun i => ?_) ?_ ?_
          · simp [unescaped_delimiter_at, h92]
          · simp [unescaped_delimiter_at, is_path_delimiter, hd]
          · simp [pop_front_path, h92, hd]

theorem unescaped_delimiter_at_lt (q : List Nat) : ∀ (escaped : Bool) (k : Nat),
    unescaped_delimiter_at escaped q k = true →
    k < q.length ∧ is_path_delimiter (q.getD k 0) = true := by
  induction q with
  | nil => intro escaped k h; cases escaped <;> simp [unescaped_delimiter_at] at h
  | cons c rest ih =>
    intro escaped k h
    cases k with
    | zero =>
      cases escaped with
      | true => simp [unescaped_delimiter_at] at h
      | false =>
        simp only [unescaped_delimiter_at] at h
        exact ⟨by simp, by simpa using h⟩
    | succ k =>
      cases escaped with
      | true =>
        simp only [unescaped_delimiter_at] at h
        obtain ⟨h1, h2⟩ := ih _ _ h
        exact ⟨by simpa using h1, by simpa using h2⟩
      | false =>
        simp only [unescaped_delimiter_at] at h
        obtain ⟨h1, h2⟩ := ih _ _ h
        exact ⟨by simpa using h1, by simpa using h2⟩

theorem pop_json_path_eq (p : List Nat) :
    pop_json_path p = pop_front_path false (drop_leading_dot p) := by
  cases p with
  | nil => rfl
  | cons c rest =>
    by_cases h : c = 46
    · simp [pop_json_path, drop_leading_dot, h]
    · simp [pop_json_path, drop_leading_dot, h]

/-- C15: for every path `p`, with `q` the path `p` without one leading `.`, the segment
returned by `pop_json_path` is the longest prefix of `q` without an unescaped delimiter:
there is a position `k` with no unescaped delimiter before it such that the segment is
the first `k` bytes of `q`, the path left is what follows position `k`, and either `k`
holds the first unescaped delimiter, which is the delimiter returned (so `q` is the
segment, the delimiter and the rest), or `k` is the end of `q`, the delimiter returned is
NUL, the segment is `q` and the rest is empty. -/
theorem pop_json_path_first_delimiter (p : List Nat) :
    ∃ k, k ≤ (drop_leading_dot p).length ∧
      (∀ j, j < k → unescaped_delimiter_at false (drop_leading_dot p) j = false) ∧
      (pop_json_path p).current = (drop_leading_dot p).take k ∧
      (pop_json_path p).path = (drop_leading_dot p).drop (k + 1) ∧
      ((unescaped_delimiter_at false (drop_leading_dot p) k = true ∧
          is_path_delimiter (pop_json_path p).found_char = true ∧
          drop_leading_dot p = (pop_json_path p).current ++
            (pop_json_path p).found_char :: (pop_json_path p).path) ∨
        (k = (drop_leading_dot p).length ∧ (pop_json_path p).found_char = 0 ∧
          (pop_json_path p).current = drop_leading_dot p ∧ (pop_json_path p).path = [])) := by
  obtain ⟨k, hk, hbefore, hat, hcur, hfound, hpath⟩ :=
    pop_front_path_first_delimiter (drop_leading_dot p) false
  rw [← pop_json_path_eq] at hcur hfound hpath
  refine ⟨k, hk, hbefore, hcur, hpath, ?_⟩
  rcases hat with hat | hat
  · left
    obtain ⟨hlt, hdel⟩ := unescaped_delimiter_at_lt _ _ _ hat
    refine ⟨hat, by rw [hfound]; exact hdel, ?_⟩
    rw [hcur, hfound, hpath, List.getD_eq_getElem _ _ hlt]
    simp
  · right
    refine ⟨hat, ?_, ?_, ?_⟩
    · rw [hfound, hat]; simp
    · rw [hcur, hat]; simp
    · rw [hpath, hat]; simp

/-! ## JSON paths: `json_path_compare` -/

/-- A segment with its leading escape backslash removed, as `json_path_compare` holds it
at the head of its loop. -/
theorem json_path_compare_eq (s m : List Nat) :
    json_path_compare s m
      = json_path_compare_loop (match s with | 92 :: tail => tail | other => other) m := by
  unfold json_path_compare
  split <;> rfl

theorem json_path_compare_loop_iff (m : List Nat) : ∀ s : List Nat,
    json_path_compare_loop (match s with | 92 :: tail => tail | other => other) m = true
      ↔ unescape false s = m := by
  induction m with
  | nil =>
    intro s
    match s with
    | [] => simp [json_path_compare_loop, unescape]
    | [92] => simp [json_path_compare_loop, unescape]
    | 92 :: c :: rest => simp [json_path_compare_loop, unescape]
    | c :: rest =>
      by_cases h : c = 92
      · subst h
        cases rest with
        | nil => simp [json_path_compare_loop, unescape]
        | cons d rest => simp [json_path_compare_loop, unescape]
      · have : (match c :: rest with | 92 :: tail => tail | other => other) = c :: rest := by
          split
          · rename_i heq; simp at heq; exact absurd heq.1 h
          · rfl
        rw [this]
        simp [json_path_compare_loop, unescape, h]
  | cons m0 m ih =>
    intro s
    have key : ∀ (c : Nat) (rest : List Nat),
        json_path_compare_loop (c :: rest) (m0 :: m) = true
          ↔ c :: unescape false rest = m0 :: m := by
      intro c rest
      simp only [json_path_compare_loop]
      by_cases hc : c = m0
      · subst hc
        simp only [ne_eq, not_true_eq_false, if_false, List.cons.injEq, true_and]
        exact ih rest
      · simp [hc]
    match s with
    | [] => simp [json_path_compare_loop, unescape]
    | [92] => simp [json_path_compare_loop, unescape]
    | 92 :: c :: rest =>
      simp only [unescape, if_true]
      exact key c rest
    | c :: rest =>
      by_cases h : c = 92
      · subst h
        cases rest with
        | nil => simp [json_path_compare_loop, unescape]
        | cons d rest =>
          simp only [unescape, if_true]
          exact key d rest
      · have : (match c :: rest with | 92 :: tail => tail | other => other) = c :: rest := by
          split
          · rename_i heq; simp at heq; exact absurd heq.1 h
          · rfl
        rw [this]
        simp only [unescape, h, if_false]
        exact key c rest

/-- In the model the comparison agrees with unescaping for every segment. -/
theorem json_path_compare_iff (s m : List Nat) :
    json_path_compare s m = true ↔ unescape false s = m := by
  rw [json_path_compare_eq]
  exact json_path_compare_loop_iff m s

/-- C17: for every non-empty path segment `s` and every member name `m`,
`json_path_compare( s, m )` is true if and only if `s`, read from the left with each
escaping backslash dropped and the byte behind it kept literally, equals `m` byte for
byte. -/
theorem json_path_compare_unescape (s m : List Nat) (_hs : s ≠ []) :
    json_path_compare s m = true ↔ unescape false s = m :=
  json_path_compare_iff s m

theorem json_path_compare_unescape_witness :
    [109, 92, 46, 67] ≠ [] ∧
    (json_path_compare [109, 92, 46, 67] [109, 46, 67] = true
      ↔ unescape false [109, 92, 46, 67] = [109, 46, 67]) :=
  ⟨by decide, json_path_compare_unescape [109, 92, 46, 67] [109, 46, 67] (by decide)⟩

/-! ## JSON paths: escaped names joined with dots -/

theorem unescape_escape_name (n : List Nat) : unescape false (escape_name n) = n := by
  induction n with
  | nil => rfl
  | cons c rest ih =>
    by_cases h : is_path_delimiter c = true ∨ c = 92
    · simp [escape_name, h, unescape, ih]
    · have h92 : c ≠ 92 := fun hc => h (Or.inr hc)
      have hdel : ¬ is_path_delimiter c = true := fun hc => h (Or.inl hc)
      simp [escape_name, hdel, unescape, ih, h92]

/-- The scan of `pop_json_path` reads an escaped name whole: it stops at the `.` behind
it, or at the end of the path. -/
theorem pop_front_path_escape_name (n rest : List Nat) :
    pop_front_path false (escape_name n ++ 46 :: rest) = ⟨escape_name n, 46, rest⟩ ∧
    pop_front_path false (escape_name n) = ⟨escape_name n, 0, []⟩ := by
  induction n with
  | nil => exact ⟨by simp [escape_name, pop_front_path], rfl⟩
  | cons c n ih =>
    obtain ⟨ih1, ih2⟩ := ih
    by_cases h : is_path_delimiter c = true ∨ c = 92
    · simp [escape_name, h, pop_front_path, ih1, ih2]
    · have h92 : c ≠ 92 := fun hc => h (Or.inr hc)
      have hd : ¬ (c = 46 ∨ c = 91 ∨ c = 93) := by
        intro hd; exact h (Or.inl (by simpa [is_path_delimiter] using hd))
      have hdel : ¬ is_path_delimiter c = true := fun hc => h (Or.inl hc)
      simp [escape_name, hdel, pop_front_path, ih1, ih2, h92, hd]

theorem escape_name_head (c : Nat) (n : List Nat) :
    ∃ b tail, escape_name (c :: n) = b :: tail ∧ b ≠ 46 := by
  by_cases h : is_path_delimiter c = true ∨ c = 92
  · exact ⟨92, c :: escape_name n, by simp [escape_name, h], by decide⟩
  · refine ⟨c, escape_name n, by simp [escape_name, h], ?_⟩
    intro hc
    exact h (Or.inl (by simp [is_path_delimiter, hc]))

theorem pop_json_path_escape_name (n rest : List Nat) (hn : n ≠ []) :
    pop_json_path (escape_name n ++ 46 :: rest) = ⟨escape_name n, 46, rest⟩ ∧
    pop_json_path (escape_name n) = ⟨escape_name n, 0, []⟩ := by
  cases n with
  | nil => exact absurd rfl hn
  | cons c n =>
    obtain ⟨b, tail, hb, hne⟩ := escape_name_head c n
    have h := pop_front_path_escape_name (c :: n) rest
    rw [hb] at h ⊢
    constructor
    · simpa [pop_json_path, hne] using h.1
    · simpa [pop_json_path, hne] using h.2

theorem escape_name_ne_nil (n : List Nat) (hn : n ≠ []) : escape_name n ≠ [] := by
  cases n with
  | nil => exact absurd rfl hn
  | cons c n =>
    obtain ⟨b, tail, hb, _⟩ := escape_name_head c n
    rw [hb]; simp

theorem pop_segments_join (names : List (List Nat)) (hnames : ∀ n ∈ names, n ≠ []) :
    ∀ pops, names.length < pops →
      pop_segments pops (join_path (names.map escape_name)) = some (names.map escape_name) := by
  induction names with
  | nil =>
    intro pops hp
    cases pops with
    | zero => omega
    | succ pops => rfl
  | cons n names ih =>
    intro pops hp
    have hn : n ≠ [] := hnames n (List.mem_cons_self _ _)
    have hrest : ∀ n ∈ names, n ≠ [] := fun x hx => hnames x (List.mem_cons_of_mem _ hx)
    have hne : (escape_name n).isEmpty = false := by
      cases h : escape_name n with
      | nil => exact absurd h (escape_name_ne_nil n hn)
      | cons _ _ => rfl
    cases pops with
    | zero => omega
    | succ pops =>
      cases names with
      | nil =>
        simp only [List.map, join_path, pop_segments, (pop_json_path_escape_name n [] hn).2, hne]
        cases pops with
        | zero => simp at hp
        | succ pops => simp [pop_segments, pop_json_path]
      | cons n2 names =>
        have hih := ih hrest pops (by simpa using hp)
        simp only [List.map, join_path, pop_segments,
          (pop_json_path_escape_name n _ hn).1, hne]
        simp only [List.map] at hih
        simp [hih]

theorem join_path_length (segs : List (List Nat)) (h : ∀ s ∈ segs, s ≠ []) :
    segs.length ≤ (join_path segs).length := by
  induction segs with
  | nil => simp [join_path]
  | cons s segs ih =>
    have hs : 0 < s.length := List.length_pos.2 (h s (List.mem_cons_self _ _))
    cases segs with
    | nil => simp [join_path]; omega
    | cons s2 segs =>
      have := ih (fun x hx => h x (List.mem_cons_of_mem _ hx))
      simp only [join_path, List.length_append, List.length_cons] at this ⊢
      omega

/-- C16: for every non-empty list of non-empty member names, written with a backslash
before every `.`, `[`, `]` and backslash and joined with `.`, repeated `pop_json_path`
yields exactly one segment per name, in order, followed by an empty segment, and
`json_path_compare( segment_i, name_i )` is true for every name; the documented path
`memberA.memberB.member\.C` has the three parts `memberA`, `memberB` and `member\.C`, the
last of which compares equal to the name `member.C`. -/
theorem pop_segments_escaped_names (names : List (List Nat)) (_hne : names ≠ [])
    (hnames : ∀ n ∈ names, n ≠ []) :
    pop_segments ((join_path (names.map escape_name)).length + 1)
        (join_path (names.map escape_name)) = some (names.map escape_name) ∧
    (∀ n ∈ names, json_path_compare (escape_name n) n = true) ∧
    pop_segments 26 [109, 101, 109, 98, 101, 114, 65, 46, 109, 101, 109, 98, 101, 114, 66, 46,
        109, 101, 109, 98, 101, 114, 92, 46, 67]
      = some [[109, 101, 109, 98, 101, 114, 65], [109, 101, 109, 98, 101, 114, 66],
          [109, 101, 109, 98, 101, 114, 92, 46, 67]] ∧
    json_path_compare [109, 101, 109, 98, 101, 114, 92, 46, 67]
      [109, 101, 109, 98, 101, 114, 46, 67] = true := by
  refine ⟨?_, ?_, by rfl, by rfl⟩
  · apply pop_segments_join names hnames
    have h := join_path_length (names.map escape_name) (by
      intro s hs
      obtain ⟨n, hn, rfl⟩ := List.mem_map.1 hs
      exact escape_name_ne_nil n (hnames n hn))
    simp only [List.length_map] at h
    omega
  · intro n _
    rw [json_path_compare_iff]
    exact unescape_escape_name n

theorem pop_segments_escaped_names_witness :
    [[97, 46, 98], [99]] ≠ [] ∧ (∀ n ∈ [[97, 46, 98], [99]], n ≠ []) ∧
    pop_segments ((join_path ([[97, 46, 98], [99]].map escape_name)).length + 1)
        (join_path ([[97, 46, 98], [99]].map escape_name))
      = some ([[97, 46, 98], [99]].map escape_name) :=
  ⟨by decide, by decide,
    (pop_segments_escaped_names [[97, 46, 98], [99]] (by decide) (by decide)).1⟩

/-! ## Whitespace -/

theorem skip_spaces_append (ws rest : List Nat) (h : all_spaces ws = true) :
    skip_spaces (ws ++ rest) = skip_spaces rest := by
  induction ws with
  | nil => rfl
  | cons b ws ih =>
    simp only [all_spaces, List.all_cons, Bool.and_eq_true] at h
    simp only [List.cons_append, skip_spaces, h.1, if_true]
    exact ih (by simpa [all_spaces] using h.2)

theorem skip_spaces_cons_of_not_space (b : Nat) (rest : List Nat) (h : is_json_space b = false) :
    skip_spaces (b :: rest) = b :: rest := by
  simp [skip_spaces, h]

/-- What `skip_spaces` removes is whitespace, and what it leaves does not start with
whitespace. -/
theorem skip_spaces_split (l : List Nat) :
    ∃ ws, all_spaces ws = true ∧ l = ws ++ skip_spaces l ∧
      (∀ checked, Range.is_space ⟨checked, skip_spaces l⟩ = false) := by
  induction l with
  | nil => exact ⟨[], rfl, rfl, fun _ => rfl⟩
  | cons b l ih =>
    by_cases hb : is_json_space b = true
    · obtain ⟨ws, h1, h2, h3⟩ := ih
      refine ⟨b :: ws, by simpa [all_spaces, hb] using h1, ?_, ?_⟩
      · simp only [skip_spaces, hb, if_true, List.cons_append]
        rw [← h2]
      · simpa [skip_spaces, hb] using h3
    · have hb : is_json_space b = false := by simpa using hb
      refine ⟨[], rfl, ?_, ?_⟩
      · simp [skip_spaces, hb]
      · intro checked
        simp [skip_spaces, hb, Range.is_space]

/-! ## Member names: `parse_name` -/

theorem parse_nq_scan_body (body : List Nat) : ∀ (escaped : Bool) (rest : List Nat),
    name_body escaped body = true →
    parse_nq_scan escaped (body ++ 34 :: rest) = .ok (body, 34 :: rest) := by
  induction body with
  | nil =>
    intro escaped rest h
    cases escaped with
    | true => simp [name_body] at h
    | false => simp [parse_nq_scan]
  | cons b body ih =>
    intro escaped rest h
    cases escaped with
    | true =>
      simp only [name_body] at h
      simp [parse_nq_scan, ih false rest h, Except.map]
    | false =>
      simp only [name_body] at h
      by_cases hb : b = 34
      · simp [hb] at h
      · simp only [hb, if_false] at h
        simp [parse_nq_scan, hb, ih _ rest h, Except.map]

theorem parse_nq_scan_inv (bytes : List Nat) : ∀ (escaped : Bool) (name rest : List Nat),
    parse_nq_scan escaped bytes = .ok (name, rest) →
    bytes = name ++ rest ∧ ∃ rest', rest = 34 :: rest' := by
  induction bytes with
  | nil => intro escaped name rest h; cases escaped <;> simp [parse_nq_scan] at h
  | cons b bytes ih =>
    intro escaped name rest h
    have step : ∀ e' : Bool,
        (parse_nq_scan e' bytes).map (fun r => (b :: r.1, r.2)) = .ok (name, rest) →
        b :: bytes = name ++ rest ∧ ∃ rest', rest = 34 :: rest' := by
      intro e' h
      cases hr : parse_nq_scan e' bytes with
      | error e => rw [hr] at h; simp [Except.map] at h
      | ok r =>
        rw [hr] at h
        simp only [Except.map, Except.ok.injEq, Prod.mk.injEq] at h
        obtain ⟨h1, h2⟩ := ih e' r.1 r.2 hr
        refine ⟨?_, ?_⟩
        · rw [← h.1, ← h.2, List.cons_append, ← h1]
        · rw [← h.2]; exact h2
    cases escaped with
    | true =>
      simp only [parse_nq_scan] at h
      exact step false h
    | false =>
      simp only [parse_nq_scan] at h
      by_cases hb : b = 34
      · simp only [hb, if_true, Except.ok.injEq, Prod.mk.injEq] at h
        refine ⟨by rw [← h.1, ← h.2, hb]; rfl, bytes, by rw [← h.2]⟩
      · simp only [hb, if_false] at h
        exact step _ h

theorem trim_end_of_name_colon (checked : Bool) (ws tail : List Nat)
    (hws : all_spaces ws = true) :
    trim_end_of_name ⟨checked, ws ++ 58 :: tail⟩ = .ok ⟨checked, skip_spaces tail⟩ := by
  have h1 : skip_spaces (ws ++ 58 :: tail) = 58 :: tail := by
    rw [skip_spaces_append _ _ hws, skip_spaces_cons_of_not_space _ _ (by decide)]
  cases checked <;>
    simp [trim_end_of_name, h1, Range.front, daw_json_assert_weak, remove_prefix, bind,
      Except.bind, pure, Except.pure]

/-- On a quoted name followed by optional whitespace and a colon, `parse_name` returns
the bytes between the quotes and leaves the range behind the colon and the whitespace
after it. -/
theorem parse_name_quoted (checked : Bool) (body ws tail : List Nat)
    (hb : name_body false body = true) (hws : all_spaces ws = true) :
    parse_name ⟨checked, 34 :: (body ++ 34 :: (ws ++ 58 :: tail))⟩
      = .ok (body, ⟨checked, skip_spaces tail⟩) := by
  have hscan := parse_nq_scan_body body false (ws ++ 58 :: tail) hb
  have htrim := trim_end_of_name_colon checked ws tail hws
  cases checked <;>
    simp [parse_name, parse_nq, Range.front_is, Range.front, daw_json_assert_weak,
      remove_prefix, bind, Except.bind, pure, Except.pure, hscan, htrim]

theorem trim_end_of_name_checked_inv (l : List Nat) (r : Range)
    (h : trim_end_of_name ⟨true, l⟩ = .ok r) :
    ∃ ws1 ws2, all_spaces ws1 = true ∧ all_spaces ws2 = true ∧
      l = ws1 ++ 58 :: (ws2 ++ r.bytes) ∧ r.is_space = false ∧ r.checked = true := by
  obtain ⟨ws1, hws1, hl, _⟩ := skip_spaces_split l
  cases ht : skip_spaces l with
  | nil =>
    simp [trim_end_of_name, ht, Range.front, bind, Except.bind] at h
  | cons c t =>
    by_cases hc : c = 58
    · subst hc
      simp [trim_end_of_name, ht, Range.front, daw_json_assert_weak, remove_prefix, bind,
        Except.bind, pure, Except.pure] at h
      obtain ⟨ws2, hws2, ht2, hsp⟩ := skip_spaces_split t
      refine ⟨ws1, ws2, hws1, hws2, ?_, ?_, ?_⟩
      · rw [← h]
        simp only
        rw [← ht2, ← ht, ← hl]
      · rw [← h]; exact hsp true
      · rw [← h]
    · simp [trim_end_of_name, ht, Range.front, daw_json_assert_weak, remove_prefix, bind,
        Except.bind, pure, Except.pure, hc] at h

theorem trim_end_of_name_checked_error (ws tail : List Nat) (c : Nat)
    (hws : all_spaces ws = true) (hc : c ≠ 58) (hsp : is_json_space c = false) :
    trim_end_of_name ⟨true, ws ++ c :: tail⟩ = .error "Expected a ':'" := by
  have h1 : skip_spaces (ws ++ c :: tail) = c :: tail := by
    rw [skip_spaces_append _ _ hws, skip_spaces_cons_of_not_space _ _ hsp]
  simp [trim_end_of_name, h1, Range.front, daw_json_assert_weak, bind, Except.bind, hc]

/-- In checked mode a successful `parse_name` has consumed a quoted name, optional
whitespace, a colon and optional whitespace. -/
theorem parse_name_checked_inv (bytes name : List Nat) (r : Range)
    (h : parse_name ⟨true, bytes⟩ = .ok (name, r)) :
    ∃ ws1 ws2, all_spaces ws1 = true ∧ all_spaces ws2 = true ∧
      bytes = 34 :: (name ++ 34 :: (ws1 ++ 58 :: (ws2 ++ r.bytes))) ∧
      r.is_space = false ∧ r.checked = true := by
  cases bytes with
  | nil => simp [parse_name, Range.front_is, daw_json_assert_weak, bind, Except.bind] at h
  | cons b r1 =>
    by_cases hb : b = 34
    · subst hb
      cases hscan : parse_nq_scan false r1 with
      | error e =>
        simp [parse_name, parse_nq, Range.front_is, daw_json_assert_weak, remove_prefix, bind,
          Except.bind, pure, Except.pure, hscan] at h
      | ok res =>
        obtain ⟨nm, rest⟩ := res
        obtain ⟨hr1, rest', hrest⟩ := parse_nq_scan_inv r1 false nm rest hscan
        subst hrest
        cases htrim : trim_end_of_name ⟨true, rest'⟩ with
        | error e =>
          simp [parse_name, parse_nq, Range.front_is, Range.front, daw_json_assert_weak,
            remove_prefix, bind, Except.bind, pure, Except.pure, hscan, htrim] at h
        | ok r2 =>
          simp [parse_name, parse_nq, Range.front_is, Range.front, daw_json_assert_weak,
            remove_prefix, bind, Except.bind, pure, Except.pure, hscan, htrim] at h
          obtain ⟨hn, hr⟩ := h
          subst hn hr
          obtain ⟨ws1, ws2, h1, h2, h3, h4, h5⟩ := trim_end_of_name_checked_inv rest' r2 htrim
          exact ⟨ws1, ws2, h1, h2, by rw [hr1, h3], h4, h5⟩
    · simp [parse_name, Range.front_is, daw_json_assert_weak, bind, Except.bind, hb] at h

/-- C18: for every input of the form double quote, body, double quote, optional
whitespace, `:`, tail, where body consists of bytes other than the double quote and the
backslash interleaved with two-byte backslash escapes, `parse_name` returns exactly the
bytes of body, escapes kept verbatim; a backslash-escaped double quote inside the body
does not end the name (the name of `"a\"b":1` is `a\"b`). -/
theorem parse_name_returns_body (checked : Bool) (body ws tail : List Nat)
    (hb : name_body false body = true) (hws : all_spaces ws = true) :
    (parse_name ⟨checked, 34 :: (body ++ 34 :: (ws ++ 58 :: tail))⟩).map Prod.fst = .ok body ∧
    (parse_name ⟨true, [34, 97, 92, 34, 98, 34, 58, 49]⟩).map Prod.fst
      = .ok [97, 92, 34, 98] := by
  refine ⟨?_, by rfl⟩
  rw [parse_name_quoted checked body ws tail hb hws]
  rfl

theorem parse_name_returns_body_witness :
    name_body false [97, 92, 34, 98] = true ∧ all_spaces [32, 9] = true ∧
    (parse_name ⟨false, 34 :: ([97, 92, 34, 98] ++ 34 :: ([32, 9] ++ 58 :: [32, 49, 125]))⟩).map
      Prod.fst = .ok [97, 92, 34, 98] :=
  ⟨by decide, by decide,
    (parse_name_returns_body false [97, 92, 34, 98] [32, 9] [32, 49, 125] (by decide)
      (by decide)).1⟩

theorem trim_end_of_name_inv (checked : Bool) (l : List Nat) (r : Range)
    (h : trim_end_of_name ⟨checked, l⟩ = .ok r) :
    ∃ c ws1 ws2, all_spaces ws1 = true ∧ all_spaces ws2 = true ∧ is_json_space c = false ∧
      l = ws1 ++ c :: (ws2 ++ r.bytes) ∧ r.is_space = false ∧ r.checked = checked ∧
      (checked = true → c = 58) := by
  obtain ⟨ws1, hws1, hl, hns⟩ := skip_spaces_split l
  cases ht : skip_spaces l with
  | nil =>
    cases checked <;>
      simp [trim_end_of_name, ht, Range.front, remove_prefix, bind, Except.bind, pure,
        Except.pure] at h
  | cons c t =>
    have hc : is_json_space c = false := by
      have := hns checked
      rw [ht] at this
      simpa [Range.is_space] using this
    obtain ⟨ws2, hws2, ht2, hsp⟩ := skip_spaces_split t
    cases checked with
    | false =>
      simp [trim_end_of_name, ht, remove_prefix, bind, Except.bind, pure, Except.pure] at h
      refine ⟨c, ws1, ws2, hws1, hws2, hc, ?_, ?_, ?_, by simp⟩
      · rw [← h]
        simp only
        rw [← ht2, ← ht, ← hl]
      · rw [← h]; exact hsp false
      · rw [← h]
    | true =>
      by_cases h58 : c = 58
      · subst h58
        simp [trim_end_of_name, ht, Range.front, daw_json_assert_weak, remove_prefix, bind,
          Except.bind, pure, Except.pure] at h
        refine ⟨58, ws1, ws2, hws1, hws2, hc, ?_, ?_, ?_, fun _ => rfl⟩
        · rw [← h]
          simp only
          rw [← ht2, ← ht, ← hl]
        · rw [← h]; exact hsp true
        · rw [← h]
      · simp [trim_end_of_name, ht, Range.front, daw_json_assert_weak, remove_prefix, bind,
          Except.bind, pure, Except.pure, h58] at h

/-- A successful `parse_name` has consumed one byte (the opening quote when the mode is
checked), the name, the closing quote, optional whitespace, one byte that is not
whitespace (the colon when the mode is checked) and optional whitespace. -/
theorem parse_name_inv (checked : Bool) (bytes name : List Nat) (r : Range)
    (h : parse_name ⟨checked, bytes⟩ = .ok (name, r)) :
    ∃ q c ws1 ws2, all_spaces ws1 = true ∧ all_spaces ws2 = true ∧ is_json_space c = false ∧
      bytes = q :: (name ++ 34 :: (ws1 ++ c :: (ws2 ++ r.bytes))) ∧
      r.is_space = false ∧ r.checked = checked ∧ (checked = true → q = 34 ∧ c = 58) := by
  cases bytes with
  | nil =>
    cases checked <;>
      simp [parse_name, Range.front_is, daw_json_assert_weak, remove_prefix, bind,
        Except.bind] at h
  | cons b r1 =>
    have hq : checked = true → b = 34 := by
      intro hc
      subst hc
      by_contra hb
      simp [parse_name, Range.front_is, daw_json_assert_weak, bind, Except.bind, hb] at h
    have hstep : parse_name ⟨checked, b :: r1⟩ = parse_nq ⟨checked, r1⟩ := by
      cases checked with
      | false =>
        simp [parse_name, daw_json_assert_weak, remove_prefix, bind, Except.bind]
      | true =>
        simp [parse_name, Range.front_is, daw_json_assert_weak, remove_prefix, bind,
          Except.bind, hq rfl]
    rw [hstep] at h
    cases hscan : parse_nq_scan false r1 with
    | error e =>
      simp [parse_nq, bind, Except.bind, hscan] at h
    | ok res =>
      obtain ⟨nm, rest⟩ := res
      obtain ⟨hr1, rest', hrest⟩ := parse_nq_scan_inv r1 false nm rest hscan
      subst hrest
      cases htrim : trim_end_of_name ⟨checked, rest'⟩ with
      | error e =>
        cases checked <;>
          simp [parse_nq, Range.front, daw_json_assert_weak, remove_prefix, bind,
            Except.bind, pure, Except.pure, hscan, htrim] at h
      | ok r2 =>
        have hres : nm = name ∧ r2 = r := by
          cases checked <;>
            simpa [parse_nq, Range.front, daw_json_assert_weak, remove_prefix, bind,
              Except.bind, pure, Except.pure, hscan, htrim] using h
        obtain ⟨hn, hr⟩ := hres
        subst hn hr
        obtain ⟨c, ws1, ws2, h1, h2, hc, h3, h4, h5, h6⟩ :=
          trim_end_of_name_inv checked rest' r2 htrim
        exact ⟨b, c, ws1, ws2, h1, h2, hc, by rw [hr1, h3], h4, h5,
          fun hck => ⟨hq hck, h6 hck⟩⟩

/-- C19 as stated fails in unchecked mode: on `"a"x1` the parse succeeds, the byte `x`
stands where the colon is expected and is removed all the same, and the cursor is left on
`1`; the bytes consumed are not a quoted name, whitespace, a colon and whitespace. -/
theorem parse_name_unchecked_not_colon :
    parse_name ⟨false, [34, 97, 34, 120, 49]⟩ = .ok ([97], ⟨false, [49]⟩) ∧
    ¬ ∃ ws1 ws2, all_spaces ws1 = true ∧ all_spaces ws2 = true ∧
      [34, 97, 34, 120, 49] = 34 :: ([97] ++ 34 :: (ws1 ++ 58 :: (ws2 ++ [49]))) := by
  refine ⟨rfl, ?_⟩
  rintro ⟨ws1, ws2, h1, _, h3⟩
  cases ws1 with
  | nil => simp at h3
  | cons b w =>
    have hb : is_json_space b = true := by
      simp only [all_spaces, List.all_cons, Bool.and_eq_true] at h1
      exact h1.1
    simp at h3
    obtain ⟨hb2, _⟩ := h3
    subst hb2
    simp [is_json_space] at hb

/-- C19, amended: after every successful `parse_name` the bytes consumed are one byte, the
name, the closing quote, optional whitespace, one byte that is not whitespace and optional
whitespace, and the cursor stands on a byte that is not whitespace or at the end of the
input; in checked mode the first byte is the opening quote and the byte behind the
whitespace is the colon, so the cursor stands on the first non-whitespace byte after the
colon that follows the name.  In unchecked mode these two bytes are removed without being
looked at. -/
theorem parse_name_cursor (rng : Range) (name : List Nat) (rng' : Range)
    (h : parse_name rng = .ok (name, rng')) :
    ∃ q c ws1 ws2, all_spaces ws1 = true ∧ all_spaces ws2 = true ∧ is_json_space c = false ∧
      rng.bytes = q :: (name ++ 34 :: (ws1 ++ c :: (ws2 ++ rng'.bytes))) ∧
      rng'.is_space = false ∧ rng'.checked = rng.checked ∧
      (rng.checked = true → q = 34 ∧ c = 58) := by
  obtain ⟨checked, bytes⟩ := rng
  exact parse_name_inv checked bytes name rng' h

theorem parse_name_cursor_witness :
    parse_name ⟨true, [34, 97, 34, 32, 58, 32, 49, 125]⟩ = .ok ([97], ⟨true, [49, 125]⟩) ∧
    ∃ q c ws1 ws2, all_spaces ws1 = true ∧ all_spaces ws2 = true ∧ is_json_space c = false ∧
      [34, 97, 34, 32, 58, 32, 49, 125]
        = q :: ([97] ++ 34 :: (ws1 ++ c :: (ws2 ++ [49, 125]))) ∧
      Range.is_space ⟨true, [49, 125]⟩ = false ∧ true = true ∧
      (true = true → q = 34 ∧ c = 58) :=
  ⟨by rfl, parse_name_cursor ⟨true, [34, 97, 34, 32, 58, 32, 49, 125]⟩ [97] ⟨true, [49, 125]⟩
    (by rfl)⟩

/-- C20: in checked mode `parse_name` raises an error when the current byte is not a
double quote (or there is none), and raises an error when the first non-whitespace byte
after the closing quote of the name is not `:`; in neither case does it return a name. -/
theorem parse_name_checked_errors (rng : Range) (hc : rng.checked = true) :
    (rng.front_is 34 = false →
      parse_name rng = .error "Expected name to start with a quote") ∧
    (∀ body ws tail c, name_body false body = true → all_spaces ws = true → c ≠ 58 →
      is_json_space c = false → rng.bytes = 34 :: (body ++ 34 :: (ws ++ c :: tail)) →
      parse_name rng = .error "Expected a ':'") := by
  obtain ⟨checked, bytes⟩ := rng
  simp only at hc
  subst hc
  constructor
  · intro hq
    simp [parse_name, daw_json_assert_weak, hq, bind, Except.bind]
  · intro body ws tail c hb hws hc hsp hbytes
    simp only at hbytes
    subst hbytes
    have hscan := parse_nq_scan_body body false (ws ++ c :: tail) hb
    have htrim := trim_end_of_name_checked_error ws tail c hws hc hsp
    simp [parse_name, parse_nq, Range.front_is, Range.front, daw_json_assert_weak,
      remove_prefix, bind, Except.bind, pure, Except.pure, hscan, htrim]

theorem parse_name_checked_errors_witness :
    (Range.front_is ⟨true, [125]⟩ 34 = false →
      parse_name ⟨true, [125]⟩ = .error "Expected name to start with a quote") ∧
    parse_name ⟨true, [34, 97, 34, 32, 44, 49]⟩ = .error "Expected a ':'" :=
  ⟨fun _ => (parse_name_checked_errors ⟨true, [125]⟩ rfl).1 rfl,
    (parse_name_checked_errors ⟨true, [34, 97, 34, 32, 44, 49]⟩ rfl).2 [97] [32] [49] 44
      (by decide) (by decide) (by decide) (by decide) rfl⟩

/-! ## JSON path navigation: paths that name nothing -/

/-- C12 (evaluation at the failing input): on the empty object `{}` with the path `a`,
`find_range` in checked mode does not return `false`: the first `parse_name` of the
object branch meets `}` and raises.  On the non-empty object `{"x":1}` the same path
gives `false`, with the cursor on the closing `}`. -/
theorem find_range_empty_object_raises :
    find_range true [123, 125] [97] = .error "Expected name to start with a quote" ∧
    find_range true [123, 34, 120, 34, 58, 49, 125] [97]
      = .ok (false, { checked := true, bytes := [125] }) := by
  exact ⟨by rfl, by rfl⟩

/-- C13 (evaluation at the failing input): on `{"a":[10,20]}` the path `a[2]` reaches an
array of two elements with the index 2, and `find_range` returns `true` with the cursor
on the closing `]`; on `{"a":[]}` the path `a[0]` returns `true` in the same way.  The
index 3 on the two-element array gives `false`. -/
theorem find_range_index_equal_length_true :
    find_range true [123, 34, 97, 34, 58, 91, 49, 48, 44, 50, 48, 93, 125] [97, 91, 50, 93]
      = .ok (true, { checked := true, bytes := [93, 125] }) ∧
    find_range true [123, 34, 97, 34, 58, 91, 93, 125] [97, 91, 48, 93]
      = .ok (true, { checked := true, bytes := [93, 125] }) ∧
    find_range true [123, 34, 97, 34, 58, 91, 49, 48, 44, 50, 48, 93, 125] [97, 91, 51, 93]
      = .ok (false, { checked := true, bytes := [93, 125] }) := by
  exact ⟨by rfl, by rfl, by rfl⟩

/-- C14 (evaluation at the failing input): on the array `[1,2,3]` the path `[1]` starts
with a delimiter, so the first segment `pop_json_path` returns is empty and the segment
loop of `find_range2` does not run: `find_range` returns `true` with the range still at
the start of the document, whose `front()` is `[` and not the first byte of element 1. -/
theorem find_range_leading_index_not_followed :
    (pop_json_path [91, 49, 93]).current = [] ∧
    find_range true [91, 49, 44, 50, 44, 51, 93] [91, 49, 93]
      = .ok (true, { checked := true, bytes := [91, 49, 44, 50, 44, 51, 93] }) ∧
    find_range true [91, 49, 44, 50, 44, 51, 93] [91, 48, 93]
      = .ok (true, { checked := true, bytes := [91, 49, 44, 50, 44, 51, 93] }) := by
  exact ⟨by rfl, by rfl, by rfl⟩

/-! ## Skip-Value on well-formed JSON text -/

theorem skip_string_body_closed (body : List Nat) : ∀ (escaped : Bool) (rest : List Nat),
    name_body escaped body = true →
    skip_string_body escaped (body ++ 34 :: rest) = .ok rest := by
  induction body with
  | nil =>
    intro escaped rest h
    cases escaped with
    | true => simp [name_body] at h
    | false => simp [skip_string_body]
  | cons b body ih =>
    intro escaped rest h
    cases escaped with
    | true =>
      simp only [name_body] at h
      simp [skip_string_body, ih false rest h]
    | false =>
      simp only [name_body] at h
      by_cases hb : b = 34
      · simp [hb] at h
      · simp only [hb, if_false] at h
        by_cases h92 : b = 92
        · subst h92
          simp [skip_string_body, ih true rest (by simpa using h)]
        · simp [skip_string_body, hb, h92, ih false rest (by simpa [h92] using h)]

theorem skip_number_text (text tail : List Nat) (ht : text.all is_number_byte = true)
    (hf : follows_value tail = true) : skip_number (text ++ tail) = tail := by
  induction text with
  | nil =>
    cases tail with
    | nil => rfl
    | cons b tail =>
      simp only [follows_value, Bool.not_eq_true'] at hf
      simp [skip_number, hf]
  | cons b text ih =>
    simp only [List.all_cons, Bool.and_eq_true] at ht
    simp [skip_number, ht.1, ih ht.2]

/-- A string inside a bracketed value is passed over without a change of depth. -/
theorem skip_bracketed_string (opener closer : Nat) (body : List Nat) :
    ∀ (escaped : Bool) (depth : Nat) (rest : List Nat), name_body escaped body = true →
    skip_bracketed opener closer depth true escaped (body ++ 34 :: rest)
      = skip_bracketed opener closer depth false false rest := by
  induction body with
  | nil =>
    intro escaped depth rest h
    cases escaped with
    | true => simp [name_body] at h
    | false => simp [skip_bracketed]
  | cons b body ih =>
    intro escaped depth rest h
    cases escaped with
    | true =>
      simp only [name_body] at h
      simp [skip_bracketed, ih false depth rest h]
    | false =>
      simp only [name_body] at h
      by_cases hb : b = 34
      · simp [hb] at h
      · simp only [hb, if_false] at h
        by_cases h92 : b = 92
        · subst h92
          simp [skip_bracketed, ih true depth rest (by simpa using h)]
        · simp [skip_bracketed, hb, h92, ih false depth rest (by simpa [h92] using h)]

/-- Bytes that are neither a quote nor one of the two brackets are passed over without a
change of depth. -/
theorem skip_bracketed_neutral (opener closer : Nat) (l : List Nat)
    (hl : ∀ b ∈ l, b ≠ 34 ∧ b ≠ opener ∧ b ≠ closer) :
    ∀ (depth : Nat) (rest : List Nat),
    skip_bracketed opener closer depth false false (l ++ rest)
      = skip_bracketed opener closer depth false false rest := by
  induction l with
  | nil => intro depth rest; rfl
  | cons b l ih =>
    intro depth rest
    obtain ⟨h1, h2, h3⟩ := hl b (List.mem_cons_self _ _)
    simp only [List.cons_append, skip_bracketed, h1, h2, h3, if_false]
    exact ih (fun x hx => hl x (List.mem_cons_of_mem _ hx)) depth rest

theorem is_json_space_cases {b : Nat} (h : is_json_space b = true) :
    b = 32 ∨ b = 9 ∨ b = 10 ∨ b = 13 := by
  simpa [is_json_space] using h

theorem is_number_byte_cases {b : Nat} (h : is_number_byte b = true) :
    (48 ≤ b ∧ b ≤ 57) ∨ b = 101 ∨ b = 69 ∨ b = 43 ∨ b = 46 ∨ b = 45 := by
  simpa [is_number_byte] using h

theorem spaces_neutral (opener closer : Nat) (hp : (opener = 91 ∧ closer = 93) ∨
    (opener = 123 ∧ closer = 125)) (ws : List Nat) (hws : all_spaces ws = true) :
    ∀ b ∈ ws, b ≠ 34 ∧ b ≠ opener ∧ b ≠ closer := by
  intro b hb
  have hsp : is_json_space b = true := by
    simp only [all_spaces, List.all_eq_true] at hws
    exact hws b hb
  have := is_json_space_cases hsp
  omega

theorem number_bytes_neutral (opener closer : Nat) (hp : (opener = 91 ∧ closer = 93) ∨
    (opener = 123 ∧ closer = 125)) (text : List Nat) (ht : text.all is_number_byte = true) :
    ∀ b ∈ text, b ≠ 34 ∧ b ≠ opener ∧ b ≠ closer := by
  intro b hb
  have hn : is_number_byte b = true := by
    simp only [List.all_eq_true] at ht
    exact ht b hb
  have := is_number_byte_cases hn
  omega

theorem literal_neutral (opener closer : Nat) (hp : (opener = 91 ∧ closer = 93) ∨
    (opener = 123 ∧ closer = 125)) (text : List Nat) (ht : literal_text text = true) :
    ∀ b ∈ text, b ≠ 34 ∧ b ≠ opener ∧ b ≠ closer := by
  intro b hb
  simp only [literal_text, Bool.decide_or, Bool.or_eq_true, decide_eq_true_eq] at ht
  rcases ht with ht | ht | ht <;> subst ht <;>
    simp only [List.mem_cons, List.mem_singleton, List.not_mem_nil, or_false] at hb <;> omega

theorem number_text_all (text : List Nat) (h : number_text text = true) :
    text.all is_number_byte = true := by
  cases text with
  | nil => simp [number_text] at h
  | cons b rest =>
    simp only [number_text, Bool.and_eq_true, decide_eq_true_eq] at h
    simp only [List.all_cons, Bool.and_eq_true]
    refine ⟨?_, h.2⟩
    simp only [is_number_byte, Bool.decide_or, Bool.or_eq_true, decide_eq_true_eq,
      Bool.decide_and, Bool.and_eq_true]
    rcases h.1 with h1 | h1
    · exact Or.inl h1
    · right; right; right; right; right; exact h1

mutual
/-- A well-formed value inside a bracketed value is passed over without a change of
depth, whichever of the two bracket pairs is being counted. -/
theorem JsonValue.skip_bracketed_through_value (opener closer : Nat)
    (hp : (opener = 91 ∧ closer = 93) ∨ (opener = 123 ∧ closer = 125)) :
    ∀ v : JsonValue, v.well_formed = true → ∀ (depth : Nat) (rest : List Nat),
    skip_bracketed opener closer depth false false (v.render ++ rest)
      = skip_bracketed opener closer depth false false rest
  | .str body, h, depth, rest => by
    simp only [JsonValue.well_formed] at h
    have e : (JsonValue.str body).render ++ rest = 34 :: (body ++ 34 :: rest) := by
      simp [JsonValue.render]
    rw [e]
    simp only [skip_bracketed, if_true]
    exact skip_bracketed_string opener closer body false depth rest h
  | .num text, h, depth, rest => by
    simp only [JsonValue.well_formed] at h
    exact skip_bracketed_neutral opener closer text
      (number_bytes_neutral opener closer hp text (number_text_all text h)) depth rest
  | .lit text, h, depth, rest => by
    simp only [JsonValue.well_formed] at h
    exact skip_bracketed_neutral opener closer text
      (literal_neutral opener closer hp text h) depth rest
  | .arr_empty w, h, depth, rest => by
    simp only [JsonValue.well_formed] at h
    have hw := skip_bracketed_neutral opener closer w (spaces_neutral opener closer hp w h)
    rcases hp with ⟨rfl, rfl⟩ | ⟨rfl, rfl⟩
    · simp [JsonValue.render, skip_bracketed, hw]
    · simp [JsonValue.render, skip_bracketed, hw]
  | .arr elems, h, depth, rest => by
    simp only [JsonValue.well_formed] at h
    have he := JsonElements.skip_bracketed_through_elements opener closer hp elems h
    rcases hp with ⟨rfl, rfl⟩ | ⟨rfl, rfl⟩
    · simp [JsonValue.render, skip_bracketed, he]
    · simp [JsonValue.render, skip_bracketed, he]
  | .obj_empty w, h, depth, rest => by
    simp only [JsonValue.well_formed] at h
    have hw := skip_bracketed_neutral opener closer w (spaces_neutral opener closer hp w h)
    rcases hp with ⟨rfl, rfl⟩ | ⟨rfl, rfl⟩
    · simp [JsonValue.render, skip_bracketed, hw]
    · simp [JsonValue.render, skip_bracketed, hw]
  | .obj members, h, depth, rest => by
    simp only [JsonValue.well_formed] at h
    have hm := JsonMembers.skip_bracketed_through_members opener closer hp members h
    rcases hp with ⟨rfl, rfl⟩ | ⟨rfl, rfl⟩
    · simp [JsonValue.render, skip_bracketed, hm]
    · simp [JsonValue.render, skip_bracketed, hm]
/-- The elements of a well-formed array are passed over without a change of depth. -/
theorem JsonElements.skip_bracketed_through_elements (opener closer : Nat)
    (hp : (opener = 91 ∧ closer = 93) ∨ (opener = 123 ∧ closer = 125)) :
    ∀ es : JsonElements, es.well_formed = true → ∀ (depth : Nat) (rest : List Nat),
    skip_bracketed opener closer depth false false (es.render ++ rest)
      = skip_bracketed opener closer depth false false rest
  | .last w1 v w2, h, depth, rest => by
    simp only [JsonElements.well_formed, Bool.and_eq_true] at h
    obtain ⟨⟨h1, hv⟩, h2⟩ := h
    have hw1 := skip_bracketed_neutral opener closer w1 (spaces_neutral opener closer hp w1 h1)
    have hw2 := skip_bracketed_neutral opener closer w2 (spaces_neutral opener closer hp w2 h2)
    have hvt := JsonValue.skip_bracketed_through_value opener closer hp v hv
    simp only [JsonElements.render, List.append_assoc, hw1, hvt, hw2]
  | .cons w1 v w2 es, h, depth, rest => by
    simp only [JsonElements.well_formed, Bool.and_eq_true] at h
    obtain ⟨⟨⟨h1, hv⟩, h2⟩, hes⟩ := h
    have hw1 := skip_bracketed_neutral opener closer w1 (spaces_neutral opener closer hp w1 h1)
    have hw2 := skip_bracketed_neutral opener closer w2 (spaces_neutral opener closer hp w2 h2)
    have hvt := JsonValue.skip_bracketed_through_value opener closer hp v hv
    have hest := JsonElements.skip_bracketed_through_elements opener closer hp es hes
    have hc : (44 : Nat) ≠ 34 ∧ (44 : Nat) ≠ opener ∧ (44 : Nat) ≠ closer := by omega
    simp only [JsonElements.render, List.append_assoc, List.cons_append, hw1, hvt, hw2,
      skip_bracketed, hc.1, hc.2.1, hc.2.2, if_false, hest]
/-- The members of a well-formed object are passed over without a change of depth. -/
theorem JsonMembers.skip_bracketed_through_members (opener closer : Nat)
    (hp : (opener = 91 ∧ closer = 93) ∨ (opener = 123 ∧ closer = 125)) :
    ∀ ms : JsonMembers, ms.well_formed = true → ∀ (depth : Nat) (rest : List Nat),
    skip_bracketed opener closer depth false false (ms.render ++ rest)
      = skip_bracketed opener closer depth false false rest
  | .last w1 name w2 w3 v w4, h, depth, rest => by
    simp only [JsonMembers.well_formed, Bool.and_eq_true] at h
    obtain ⟨⟨⟨⟨⟨h1, hn⟩, h2⟩, h3⟩, hv⟩, h4⟩ := h
    have hw1 := skip_bracketed_neutral opener closer w1 (spaces_neutral opener closer hp w1 h1)
    have hw2 := skip_bracketed_neutral opener closer w2 (spaces_neutral opener closer hp w2 h2)
    have hw3 := skip_bracketed_neutral opener closer w3 (spaces_neutral opener closer hp w3 h3)
    have hw4 := skip_bracketed_neutral opener closer w4 (spaces_neutral opener closer hp w4 h4)
    have hvt := JsonValue.skip_bracketed_through_value opener closer hp v hv
    have hs := skip_bracketed_string opener closer name false
    have hc : (58 : Nat) ≠ 34 ∧ (58 : Nat) ≠ opener ∧ (58 : Nat) ≠ closer := by omega
    simp only [JsonMembers.render, List.append_assoc, List.cons_append, hw1, skip_bracketed,
      if_true, hs _ _ hn, hw2, hc.1, hc.2.1, hc.2.2, if_false, hw3, hvt, hw4]
  | .cons w1 name w2 w3 v w4 ms, h, depth, rest => by
    simp only [JsonMembers.well_formed, Bool.and_eq_true] at h
    obtain ⟨⟨⟨⟨⟨⟨h1, hn⟩, h2⟩, h3⟩, hv⟩, h4⟩, hms⟩ := h
    have hw1 := skip_bracketed_neutral opener closer w1 (spaces_neutral opener closer hp w1 h1)
    have hw2 := skip_bracketed_neutral opener closer w2 (spaces_neutral opener closer hp w2 h2)
    have hw3 := skip_bracketed_neutral opener closer w3 (spaces_neutral opener closer hp w3 h3)
    have hw4 := skip_bracketed_neutral opener closer w4 (spaces_neutral opener closer hp w4 h4)
    have hvt := JsonValue.skip_bracketed_through_value opener closer hp v hv
    have hmst := JsonMembers.skip_bracketed_through_members opener closer hp ms hms
    have hs := skip_bracketed_string opener closer name false
    have hc : (58 : Nat) ≠ 34 ∧ (58 : Nat) ≠ opener ∧ (58 : Nat) ≠ closer := by omega
    have hc2 : (44 : Nat) ≠ 34 ∧ (44 : Nat) ≠ opener ∧ (44 : Nat) ≠ closer := by omega
    simp only [JsonMembers.render, List.append_assoc, List.cons_append, hw1, skip_bracketed,
      if_true, hs _ _ hn, hw2, hc.1, hc.2.1, hc.2.2, hc2.1, hc2.2.1, hc2.2.2, if_false, hw3,
      hvt, hw4, hmst]
end

theorem take_length_sub (a b : List Nat) :
    (a ++ b).take ((a ++ b).length - b.length) = a := by
  simp

/-- A well-formed value starts with a byte that is not whitespace. -/
theorem JsonValue.render_head (v : JsonValue) (h : v.well_formed = true) :
    ∃ b r, v.render = b :: r ∧ is_json_space b = false := by
  cases v with
  | str body => exact ⟨34, _, rfl, by decide⟩
  | num text =>
    cases text with
    | nil => simp [JsonValue.well_formed, number_text] at h
    | cons b rest =>
      simp only [JsonValue.well_formed, number_text, Bool.and_eq_true, decide_eq_true_eq] at h
      refine ⟨b, rest, rfl, ?_⟩
      have h1 := h.1
      simp only [is_json_space, Bool.decide_or, Bool.or_eq_false_iff, decide_eq_false_iff_not]
      omega
  | lit text =>
    simp only [JsonValue.well_formed, literal_text, Bool.decide_or, Bool.or_eq_true,
      decide_eq_true_eq] at h
    rcases h with h | h | h <;> subst h <;> exact ⟨_, _, rfl, by decide⟩
  | arr_empty w => exact ⟨91, _, rfl, by decide⟩
  | arr elems => exact ⟨91, _, rfl, by decide⟩
  | obj_empty w => exact ⟨123, _, rfl, by decide⟩
  | obj members => exact ⟨123, _, rfl, by decide⟩

/-- Skip-Value on a well-formed value skips exactly that value. -/
theorem skip_value_well_formed (checked : Bool) (v : JsonValue) (tail : List Nat)
    (h : v.well_formed = true) (hf : follows_value tail = true) :
    skip_value ⟨checked, v.render ++ tail⟩ = .ok (v.render, ⟨checked, tail⟩) := by
  have hfin : ∀ x : List Nat,
      ((x ++ tail).take ((x ++ tail).length - tail.length), (⟨checked, tail⟩ : Range))
        = (x, ⟨checked, tail⟩) := by
    intro x; rw [take_length_sub]
  cases v with
  | str body =>
    simp only [JsonValue.well_formed] at h
    have e : (JsonValue.str body).render ++ tail = 34 :: (body ++ 34 :: tail) := by
      simp [JsonValue.render]
    have hx := hfin (JsonValue.str body).render
    rw [e] at hx ⊢
    simp only [skip_value, if_true, skip_string_body_closed body false tail h, Except.map]
    rw [hx]
  | num text =>
    simp only [JsonValue.well_formed] at h
    have hall := number_text_all text h
    cases text with
    | nil => simp [number_text] at h
    | cons b rest =>
      simp only [number_text, Bool.and_eq_true, decide_eq_true_eq] at h
      have hx := hfin (b :: rest)
      have hb : (48 ≤ b ∧ b ≤ 57) ∨ b = 45 := h.1
      have h1 : b ≠ 34 := by omega
      have h2 : b ≠ 123 := by omega
      have h3 : b ≠ 91 := by omega
      have h4 : ¬ (b = 116 ∨ b = 110) := by omega
      have h5 : b ≠ 102 := by omega
      simp only [JsonValue.render, List.cons_append] at hx ⊢
      simp only [skip_value, h1, h2, h3, h4, h5, hb, if_false, if_true,
        skip_number_text rest tail h.2 hf]
      rw [hx]
  | lit text =>
    simp only [JsonValue.well_formed, literal_text, Bool.decide_or, Bool.or_eq_true,
      decide_eq_true_eq] at h
    rcases h with h | h | h <;> subst h
    · have e4 : tail.length + 1 + 1 + 1 + 1 - tail.length = 4 := by omega
      simp only [JsonValue.render, List.cons_append, List.nil_append]
      simp [skip_value, remove_prefix, Except.map, e4]
    · have e5 : tail.length + 1 + 1 + 1 + 1 + 1 - tail.length = 5 := by omega
      simp only [JsonValue.render, List.cons_append, List.nil_append]
      simp [skip_value, remove_prefix, Except.map, e5]
    · have e4 : tail.length + 1 + 1 + 1 + 1 - tail.length = 4 := by omega
      simp only [JsonValue.render, List.cons_append, List.nil_append]
      simp [skip_value, remove_prefix, Except.map, e4]
  | arr_empty w =>
    simp only [JsonValue.well_formed] at h
    have hw := skip_bracketed_neutral 91 93 w
      (spaces_neutral 91 93 (Or.inl ⟨rfl, rfl⟩) w h) 0 (93 :: tail)
    have e : (JsonValue.arr_empty w).render ++ tail = 91 :: (w ++ 93 :: tail) := by
      simp [JsonValue.render]
    have hx := hfin (JsonValue.arr_empty w).render
    rw [e] at hx ⊢
    simp only [skip_value, hw, skip_bracketed, Except.map]
    simp only [Nat.reduceEqDiff, if_false, if_true]
    rw [hx]
  | arr elems =>
    simp only [JsonValue.well_formed] at h
    have hw := JsonElements.skip_bracketed_through_elements 91 93 (Or.inl ⟨rfl, rfl⟩) elems h 0
      (93 :: tail)
    have e : (JsonValue.arr elems).render ++ tail = 91 :: (elems.render ++ 93 :: tail) := by
      simp [JsonValue.render]
    have hx := hfin (JsonValue.arr elems).render
    rw [e] at hx ⊢
    simp only [skip_value, hw, skip_bracketed, Except.map]
    simp only [Nat.reduceEqDiff, if_false, if_true]
    rw [hx]
  | obj_empty w =>
    simp only [JsonValue.well_formed] at h
    have hw := skip_bracketed_neutral 123 125 w
      (spaces_neutral 123 125 (Or.inr ⟨rfl, rfl⟩) w h) 0 (125 :: tail)
    have e : (JsonValue.obj_empty w).render ++ tail = 123 :: (w ++ 125 :: tail) := by
      simp [JsonValue.render]
    have hx := hfin (JsonValue.obj_empty w).render
    rw [e] at hx ⊢
    simp only [skip_value, hw, skip_bracketed, Except.map]
    simp only [Nat.reduceEqDiff, if_false, if_true]
    rw [hx]
  | obj members =>
    simp only [JsonValue.well_formed] at h
    have hw := JsonMembers.skip_bracketed_through_members 123 125 (Or.inr ⟨rfl, rfl⟩) members h 0
      (125 :: tail)
    have e : (JsonValue.obj members).render ++ tail = 123 :: (members.render ++ 125 :: tail) := by
      simp [JsonValue.render]
    have hx := hfin (JsonValue.obj members).render
    rw [e] at hx ⊢
    simp only [skip_value, hw, skip_bracketed, Except.map]
    simp only [Nat.reduceEqDiff, if_false, if_true]
    rw [hx]

/-! ## JSON path navigation on well-formed text -/

theorem follows_value_spaces (w : List Nat) (b : Nat) (X : List Nat)
    (hw : all_spaces w = true) (hb : is_number_byte b = false) :
    follows_value (w ++ b :: X) = true := by
  cases w with
  | nil => simp [follows_value, hb]
  | cons c w =>
    simp only [all_spaces, List.all_cons, Bool.and_eq_true] at hw
    have := is_json_space_cases hw.1
    have hc : is_number_byte c = false := by
      simp only [is_number_byte, Bool.decide_or, Bool.or_eq_false_iff, decide_eq_false_iff_not,
        Bool.decide_and, Bool.and_eq_false_imp, decide_eq_true_eq]
      omega
    simp [follows_value, hc]

theorem skip_spaces_value (w : List Nat) (v : JsonValue) (X : List Nat)
    (hw : all_spaces w = true) (hv : v.well_formed = true) :
    skip_spaces (w ++ (v.render ++ X)) = v.render ++ X := by
  obtain ⟨b, r, hr, hb⟩ := v.render_head hv
  rw [skip_spaces_append _ _ hw, hr, List.cons_append,
    skip_spaces_cons_of_not_space _ _ hb]

theorem JsonElements.skip_spaces_render (es : JsonElements) (X : List Nat)
    (h : es.well_formed = true) : skip_spaces (es.render ++ X) = es.trimmed ++ X := by
  cases es with
  | last w1 v w2 =>
    simp only [JsonElements.well_formed, Bool.and_eq_true] at h
    simp only [JsonElements.render, JsonElements.trimmed, List.append_assoc]
    exact skip_spaces_value w1 v _ h.1.1 h.1.2
  | cons w1 v w2 rest =>
    simp only [JsonElements.well_formed, Bool.and_eq_true] at h
    simp only [JsonElements.render, JsonElements.trimmed, List.append_assoc]
    exact skip_spaces_value w1 v _ h.1.1.1 h.1.1.2

/-- The array-index loop of `find_range2`, entered on the first element of a well-formed
array with an index below its length, ends on the first byte of the element of that
index. -/
theorem find_range2_index_get (checked : Bool) : ∀ (i : Nat) (es : JsonElements)
    (v : JsonValue) (tail : List Nat), es.well_formed = true → es.get i = some v →
    v.well_formed = true ∧ ∃ tail', follows_value tail' = true ∧
      find_range2_index i ⟨checked, es.trimmed ++ 93 :: tail⟩
        = .ok (true, ⟨checked, v.render ++ tail'⟩) := by
  intro i
  induction i with
  | zero =>
    intro es v tail h hget
    cases es with
    | last w1 v0 w2 =>
      simp only [JsonElements.well_formed, Bool.and_eq_true] at h
      simp only [JsonElements.get, Option.some.injEq] at hget
      subst hget
      refine ⟨h.1.2, w2 ++ 93 :: tail, follows_value_spaces w2 93 tail h.2 (by decide), ?_⟩
      simp [find_range2_index, JsonElements.trimmed]
    | cons w1 v0 w2 rest =>
      simp only [JsonElements.well_formed, Bool.and_eq_true] at h
      simp only [JsonElements.get, Option.some.injEq] at hget
      subst hget
      refine ⟨h.1.1.2, w2 ++ 44 :: (rest.render ++ 93 :: tail),
        follows_value_spaces w2 44 _ h.1.2 (by decide), ?_⟩
      simp [find_range2_index, JsonElements.trimmed]
  | succ i ih =>
    intro es v tail h hget
    cases es with
    | last w1 v0 w2 => simp [JsonElements.get] at hget
    | cons w1 v0 w2 rest =>
      simp only [JsonElements.well_formed, Bool.and_eq_true] at h
      obtain ⟨⟨⟨h1, hv0⟩, h2⟩, hrest⟩ := h
      simp only [JsonElements.get] at hget
      obtain ⟨hv, tail', hf, hfind⟩ := ih rest v tail hrest hget
      refine ⟨hv, tail', hf, ?_⟩
      have e : (JsonElements.cons w1 v0 w2 rest).trimmed ++ 93 :: tail
          = v0.render ++ (w2 ++ 44 :: (rest.render ++ 93 :: tail)) := by
        simp [JsonElements.trimmed]
      have hskip := skip_value_well_formed checked v0 (w2 ++ 44 :: (rest.render ++ 93 :: tail))
        hv0 (follows_value_spaces w2 44 _ h2 (by decide))
      have hsp : skip_spaces (w2 ++ 44 :: (rest.render ++ 93 :: tail))
          = 44 :: (rest.render ++ 93 :: tail) := by
        rw [skip_spaces_append _ _ h2, skip_spaces_cons_of_not_space _ _ (by decide)]
      have hsp2 := rest.skip_spaces_render (93 :: tail) hrest
      rw [e]
      simp only [find_range2_index, hskip, bind, Except.bind, Range.trim_left_checked, hsp,
        Range.front_is, Range.clean_tail, skip_spaces_cons_of_not_space 44 _ (by decide), hsp2]
      simpa using hfind

/-- Behind the whitespace that leads the members of a well-formed object stands the
quote of the first name, and `parse_name` there returns that name and leaves the range on
the value of the first member. -/
theorem JsonMembers.parse_first_name (checked : Bool) (ms : JsonMembers) (X : List Nat)
    (h : ms.well_formed = true) :
    ∃ t, skip_spaces (ms.render ++ X) = 34 :: t ∧
      parse_name ⟨checked, 34 :: t⟩ = .ok (ms.first_name, ⟨checked, ms.after_colon ++ X⟩) := by
  cases ms with
  | last w1 name w2 w3 v w4 =>
    simp only [JsonMembers.well_formed, Bool.and_eq_true] at h
    obtain ⟨⟨⟨⟨⟨h1, hn⟩, h2⟩, h3⟩, hv⟩, h4⟩ := h
    refine ⟨name ++ 34 :: (w2 ++ 58 :: (w3 ++ (v.render ++ (w4 ++ X)))), ?_, ?_⟩
    · simp only [JsonMembers.render, List.append_assoc, List.cons_append]
      rw [skip_spaces_append _ _ h1, skip_spaces_cons_of_not_space _ _ (by decide)]
    · rw [parse_name_quoted checked name w2 _ hn h2, skip_spaces_value w3 v _ h3 hv]
      simp [JsonMembers.first_name, JsonMembers.after_colon]
  | cons w1 name w2 w3 v w4 rest =>
    simp only [JsonMembers.well_formed, Bool.and_eq_true] at h
    obtain ⟨⟨⟨⟨⟨⟨h1, hn⟩, h2⟩, h3⟩, hv⟩, h4⟩, hrest⟩ := h
    refine ⟨name ++ 34 :: (w2 ++ 58 :: (w3 ++ (v.render ++ (w4 ++ 44 :: (rest.render ++ X))))),
      ?_, ?_⟩
    · simp only [JsonMembers.render, List.append_assoc, List.cons_append]
      rw [skip_spaces_append _ _ h1, skip_spaces_cons_of_not_space _ _ (by decide)]
    · rw [parse_name_quoted checked name w2 _ hn h2, skip_spaces_value w3 v _ h3 hv]
      simp [JsonMembers.first_name, JsonMembers.after_colon]

/-- The member loop of `find_range2`, entered behind the first name of a well-formed
object that has a member named by the segment, ends on the first byte of the value of the
first such member. -/
theorem find_range2_member_find (checked : Bool) (segment : List Nat) :
    ∀ (ms : JsonMembers) (v : JsonValue) (tail : List Nat) (rounds : Nat),
    ms.well_formed = true → ms.find segment = some v → ms.count ≤ rounds →
    v.well_formed = true ∧ ∃ tail', follows_value tail' = true ∧
      find_range2_member segment rounds ms.first_name
          ⟨checked, ms.after_colon ++ 125 :: tail⟩
        = .ok (true, ⟨checked, v.render ++ tail'⟩)
  | .last w1 name w2 w3 v0 w4, v, tail, rounds, h, hfind, hrounds => by
    simp only [JsonMembers.well_formed, Bool.and_eq_true] at h
    obtain ⟨⟨⟨⟨⟨h1, hn⟩, h2⟩, h3⟩, hv⟩, h4⟩ := h
    simp only [JsonMembers.find] at hfind
    by_cases hname : unescape false segment = name
    · simp only [hname, if_true, Option.some.injEq] at hfind
      subst hfind
      cases rounds with
      | zero => simp [JsonMembers.count] at hrounds
      | succ rounds =>
        refine ⟨hv, w4 ++ 125 :: tail, follows_value_spaces w4 125 tail h4 (by decide), ?_⟩
        have hcmp : json_path_compare segment name = true :=
          (json_path_compare_iff segment name).2 hname
        simp [find_range2_member, JsonMembers.first_name, JsonMembers.after_colon, hcmp]
    · simp [hname] at hfind
  | .cons w1 name w2 w3 v0 w4 rest, v, tail, rounds, h, hfind, hrounds => by
    simp only [JsonMembers.well_formed, Bool.and_eq_true] at h
    obtain ⟨⟨⟨⟨⟨⟨h1, hn⟩, h2⟩, h3⟩, hv⟩, h4⟩, hrest⟩ := h
    simp only [JsonMembers.find] at hfind
    cases rounds with
    | zero => simp [JsonMembers.count] at hrounds
    | succ rounds =>
      by_cases hname : unescape false segment = name
      · simp only [hname, if_true, Option.some.injEq] at hfind
        subst hfind
        refine ⟨hv, w4 ++ 44 :: (rest.render ++ 125 :: tail),
          follows_value_spaces w4 44 _ h4 (by decide), ?_⟩
        have hcmp : json_path_compare segment name = true :=
          (json_path_compare_iff segment name).2 hname
        simp [find_range2_member, JsonMembers.first_name, JsonMembers.after_colon, hcmp]
      · simp only [hname, if_false] at hfind
        have hcmp : json_path_compare segment name = false := by
          cases hc : json_path_compare segment name with
          | false => rfl
          | true => exact absurd ((json_path_compare_iff segment name).1 hc) hname
        obtain ⟨hvw, tail', hf, hrec⟩ := find_range2_member_find checked segment rest v tail
          rounds hrest hfind (by simp only [JsonMembers.count] at hrounds; omega)
        refine ⟨hvw, tail', hf, ?_⟩
        have e : (JsonMembers.cons w1 name w2 w3 v0 w4 rest).after_colon ++ 125 :: tail
            = v0.render ++ (w4 ++ 44 :: (rest.render ++ 125 :: tail)) := by
          simp [JsonMembers.after_colon]
        have hskip := skip_value_well_formed checked v0
          (w4 ++ 44 :: (rest.render ++ 125 :: tail)) hv
          (follows_value_spaces w4 44 _ h4 (by decide))
        have hsp : skip_spaces (w4 ++ 44 :: (rest.render ++ 125 :: tail))
            = 44 :: (rest.render ++ 125 :: tail) := by
          rw [skip_spaces_append _ _ h4, skip_spaces_cons_of_not_space _ _ (by decide)]
        obtain ⟨t, ht, hparse⟩ := rest.parse_first_name checked (125 :: tail) hrest
        rw [e]
        simp only [find_range2_member, JsonMembers.first_name, hcmp, hskip, bind, Except.bind,
          Range.clean_tail, Range.trim_left_checked, hsp, ht, Range.empty, Range.front,
          hparse]
        simpa using hrec

/-! ## The text of a path, read by `pop_json_path` -/

/-- The scan of `pop_json_path` reads a valid segment whole: it stops at the delimiter
behind it, or at the end of the path. -/
theorem pop_front_path_segment (seg : List Nat) : ∀ (escaped : Bool) (d : Nat) (X : List Nat),
    path_segment escaped seg = true → is_path_delimiter d = true →
    pop_front_path escaped (seg ++ d :: X) = ⟨seg, d, X⟩ ∧
    pop_front_path escaped seg = ⟨seg, 0, []⟩ := by
  induction seg with
  | nil =>
    intro escaped d X h hd
    cases escaped with
    | true => simp [path_segment] at h
    | false =>
      have hd' : d = 46 ∨ d = 91 ∨ d = 93 := by simpa [is_path_delimiter] using hd
      have h92 : d ≠ 92 := by omega
      exact ⟨by simp [pop_front_path, h92, hd'], rfl⟩
  | cons c seg ih =>
    intro escaped d X h hd
    cases escaped with
    | true =>
      simp only [path_segment] at h
      obtain ⟨ih1, ih2⟩ := ih false d X h hd
      simp [pop_front_path, ih1, ih2]
    | false =>
      simp only [path_segment] at h
      by_cases h92 : c = 92
      · subst h92
        obtain ⟨ih1, ih2⟩ := ih true d X (by simpa using h) hd
        simp [pop_front_path, ih1, ih2]
      · simp only [h92, if_false] at h
        by_cases hc : is_path_delimiter c = true
        · simp [hc] at h
        · simp only [hc, if_false] at h
          have hc' : ¬ (c = 46 ∨ c = 91 ∨ c = 93) := by
            simpa [is_path_delimiter] using hc
          obtain ⟨ih1, ih2⟩ := ih false d X h hd
          simp [pop_front_path, h92, hc', ih1, ih2]

theorem path_segment_head (c : Nat) (seg : List Nat) (h : path_segment false (c :: seg) = true) :
    c ≠ 46 := by
  intro hc
  subst hc
  simp [path_segment, is_path_delimiter] at h

/-- On a path that starts with a non-empty valid segment `pop_json_path` returns that
segment, the delimiter behind it and the path behind the delimiter. -/
theorem pop_json_path_segment (seg : List Nat) (d : Nat) (X : List Nat)
    (hne : seg ≠ []) (h : path_segment false seg = true) (hd : is_path_delimiter d = true) :
    pop_json_path (seg ++ d :: X) = ⟨seg, d, X⟩ ∧ pop_json_path seg = ⟨seg, 0, []⟩ := by
  cases seg with
  | nil => exact absurd rfl hne
  | cons c seg =>
    have hc := path_segment_head c seg h
    have hp := pop_front_path_segment (c :: seg) false d X h hd
    constructor
    · simpa [pop_json_path, hc] using hp.1
    · simpa [pop_json_path, hc] using hp.2

theorem canonical_nat_mem (n : Nat) : ∀ c ∈ canonical_nat n, 48 ≤ c ∧ c ≤ 57 := by
  intro c hc
  unfold canonical_nat at hc
  split at hc
  · simp only [List.mem_singleton] at hc
    omega
  · simp only [List.mem_reverse, List.mem_map] at hc
    obtain ⟨d, hd, rfl⟩ := hc
    have := Nat.digits_lt_base (by norm_num : 1 < 10) hd
    omega

theorem canonical_nat_ne_nil (n : Nat) : canonical_nat n ≠ [] := by
  unfold canonical_nat
  split
  · simp
  · rename_i h
    simp only [ne_eq, List.reverse_eq_nil_iff, List.map_eq_nil_iff]
    exact fun h0 => h (Nat.digits_eq_nil_iff_eq_zero.1 h0)

theorem path_segment_of_plain (l : List Nat)
    (h : ∀ c ∈ l, c ≠ 92 ∧ is_path_delimiter c = false) : path_segment false l = true := by
  induction l with
  | nil => rfl
  | cons c l ih =>
    obtain ⟨h1, h2⟩ := h c (List.mem_cons_self _ _)
    simp only [path_segment, h1, h2, if_false]
    simpa using ih (fun x hx => h x (List.mem_cons_of_mem _ hx))

theorem path_segment_canonical_nat (n : Nat) : path_segment false (canonical_nat n) = true := by
  apply path_segment_of_plain
  intro c hc
  have := canonical_nat_mem n c hc
  refine ⟨by omega, ?_⟩
  simp only [is_path_delimiter, Bool.decide_or, Bool.or_eq_false_iff, decide_eq_false_iff_not]
  omega

theorem foldl_decimal_digits (L : List Nat) (hL : ∀ d ∈ L, d < 10) :
    ((L.map (48 + ·)).reverse).foldl (fun r c => r * 10 + (c - 48)) 0 = Nat.ofDigits 10 L := by
  induction L with
  | nil => rfl
  | cons a L ih =>
    simp only [List.map_cons, List.reverse_cons, List.foldl_append, List.foldl_cons,
      List.foldl_nil, Nat.ofDigits_cons]
    rw [ih (fun d hd => hL d (List.mem_cons_of_mem _ hd))]
    omega

/-- The index read from the decimal text of `n` is `n`, as long as `n` fits
`std::size_t`. -/
theorem parse_unsigned_int_canonical_nat (n : Nat) (hn : n < 2 ^ 64) :
    parse_unsigned_int (canonical_nat n) = n := by
  have hall : (canonical_nat n).takeWhile (fun c => decide (48 ≤ c ∧ c ≤ 57)) = canonical_nat n := by
    rw [List.takeWhile_eq_self_iff]
    intro c hc
    simpa using canonical_nat_mem n c hc
  unfold parse_unsigned_int
  rw [hall]
  have hval : (canonical_nat n).foldl (fun r c => r * 10 + (c - 48)) 0 = n := by
    unfold canonical_nat
    split
    · rename_i h0; subst h0; rfl
    · rw [foldl_decimal_digits _ (fun d hd => Nat.digits_lt_base (by norm_num) hd),
        Nat.ofDigits_digits]
  rw [hval]
  exact Nat.mod_eq_of_lt hn

theorem JsonMembers.count_le_render : ∀ ms : JsonMembers, ms.count ≤ ms.render.length
  | .last w1 name w2 w3 v w4 => by
    simp only [JsonMembers.count, JsonMembers.render, List.length_append, List.length_cons]
    omega
  | .cons w1 name w2 w3 v w4 rest => by
    have := JsonMembers.count_le_render rest
    simp only [JsonMembers.count, JsonMembers.render, List.length_append, List.length_cons]
    omega

theorem JsonMembers.count_le_after_colon (ms : JsonMembers) :
    ms.count ≤ ms.after_colon.length + 1 := by
  cases ms with
  | last w1 name w2 w3 v w4 => simp [JsonMembers.count]
  | cons w1 name w2 w3 v w4 rest =>
    have := rest.count_le_render
    simp only [JsonMembers.count, JsonMembers.after_colon, List.length_append,
      List.length_cons]
    omega

/-- One round of the segment loop of `find_range2` on a well-formed object: with a
non-empty segment that names a member and was not ended by `]`, the loop goes on behind
the pop with the range on the first byte of the value of that member. -/
theorem find_range2_loop_member (checked : Bool) (pops : Nat) (P seg R : List Nat)
    (found : Nat) (ms : JsonMembers) (vm : JsonValue) (tail : List Nat)
    (hpop : pop_json_path P = ⟨seg, found, R⟩) (hne : seg ≠ []) (hfound : found ≠ 93)
    (hms : ms.well_formed = true) (hfind : ms.find seg = some vm) :
    vm.well_formed = true ∧ ∃ tail', follows_value tail' = true ∧
      find_range2_loop (pops + 1) ⟨checked, (JsonValue.obj ms).render ++ tail⟩ P
        = find_range2_loop pops ⟨checked, vm.render ++ tail'⟩ R := by
  obtain ⟨t, ht, hparse⟩ := ms.parse_first_name checked (125 :: tail) hms
  obtain ⟨hvm, tail', hf, hmem⟩ := find_range2_member_find checked seg ms vm tail
    ((ms.after_colon ++ 125 :: tail).length + 1) hms hfind (by
      have := ms.count_le_after_colon
      simp only [List.length_append, List.length_cons]
      omega)
  refine ⟨hvm, tail', hf, ?_⟩
  have hempty : seg.isEmpty = false := by
    cases seg with
    | nil => exact absurd rfl hne
    | cons _ _ => rfl
  have e : (JsonValue.obj ms).render ++ tail = 123 :: (ms.render ++ 125 :: tail) := by
    simp [JsonValue.render]
  rw [e]
  simp only [find_range2_loop, hpop, hempty, hfound, Bool.false_eq_true, if_false,
    Range.front_is, daw_json_assert_weak, remove_prefix, bind, Except.bind,
    Range.trim_left_unchecked]
  simp only [beq_self_eq_true, Bool.not_true, Bool.and_false, Bool.false_eq_true, if_false,
    List.length_cons, Nat.le_add_left, if_true, List.drop_succ_cons, List.drop_zero, ht, hparse,
    hmem]

/-- One round of the segment loop of `find_range2` on a well-formed array: with the
decimal text of an index below the length as the segment, ended by `]`, the loop goes on
behind the pop with the range on the first byte of the element of that index. -/
theorem find_range2_loop_index (checked : Bool) (pops : Nat) (P R : List Nat) (i : Nat)
    (es : JsonElements) (v : JsonValue) (tail : List Nat)
    (hpop : pop_json_path P = ⟨canonical_nat i, 93, R⟩) (hi : i < 2 ^ 64)
    (hes : es.well_formed = true) (hget : es.get i = some v) :
    v.well_formed = true ∧ ∃ tail', follows_value tail' = true ∧
      find_range2_loop (pops + 1) ⟨checked, (JsonValue.arr es).render ++ tail⟩ P
        = find_range2_loop pops ⟨checked, v.render ++ tail'⟩ R := by
  obtain ⟨hv, tail', hf, hidx⟩ := find_range2_index_get checked i es v tail hes hget
  refine ⟨hv, tail', hf, ?_⟩
  have hempty : (canonical_nat i).isEmpty = false := by
    cases h : canonical_nat i with
    | nil => exact absurd h (canonical_nat_ne_nil i)
    | cons _ _ => rfl
  have e : (JsonValue.arr es).render ++ tail = 91 :: (es.render ++ 93 :: tail) := by
    simp [JsonValue.render]
  rw [e]
  simp only [find_range2_loop, hpop, hempty, Bool.false_eq_true, if_false, if_true,
    Range.front_is, daw_json_assert_weak, remove_prefix, bind, Except.bind,
    Range.trim_left_unchecked, parse_unsigned_int_canonical_nat i hi]
  simp only [beq_self_eq_true, Bool.not_true, Bool.and_false, Bool.false_eq_true, if_false,
    List.length_cons, Nat.le_add_left, if_true, List.drop_succ_cons, List.drop_zero,
    es.skip_spaces_render (93 :: tail) hes, hidx]

theorem PathPart.valid_iff (p : PathPart) (h : p.valid = true) :
    p.segment ≠ [] ∧ path_segment false p.segment = true ∧
      ∀ i, p.index = some i → i < 2 ^ 64 := by
  simp only [PathPart.valid, Bool.and_eq_true, Bool.not_eq_true', List.isEmpty_eq_false] at h
  obtain ⟨⟨h1, h2⟩, h3⟩ := h
  refine ⟨h1, h2, ?_⟩
  intro i hi
  rw [hi] at h3
  simpa using h3

theorem path_text_cons (p : PathPart) (parts : List PathPart) :
    path_text (p :: parts) = p.text ++
      (match parts with
       | [] => []
       | q :: qs => 46 :: path_text (q :: qs)) := by
  cases parts with
  | nil => simp [path_text, join_path]
  | cons q qs => simp [path_text, join_path]

theorem PathPart.text_head (p : PathPart) (h : p.valid = true) :
    ∃ c t, p.text = c :: t ∧ c ≠ 46 := by
  obtain ⟨hne, hseg, _⟩ := p.valid_iff h
  cases hs : p.segment with
  | nil => exact absurd hs hne
  | cons c seg =>
    rw [hs] at hseg
    have hc := path_segment_head c seg hseg
    unfold PathPart.text
    cases p.index with
    | none => exact ⟨c, seg, by simp [hs], hc⟩
    | some i => exact ⟨c, seg ++ 91 :: (canonical_nat i ++ [93]), by simp [hs], hc⟩

theorem drop_leading_dot_path_text (parts : List PathPart) (h : ∀ p ∈ parts, p.valid = true) :
    drop_leading_dot (path_text parts) = path_text parts := by
  cases parts with
  | nil => rfl
  | cons p parts =>
    obtain ⟨c, t, hc, hne⟩ := p.text_head (h p (List.mem_cons_self _ _))
    rw [path_text_cons, hc]
    simp [drop_leading_dot, hne]

theorem PathPart.pops_le_text (p : PathPart) (h : p.valid = true) :
    (if p.index.isSome then 2 else 1) ≤ p.text.length := by
  obtain ⟨hne, _, _⟩ := p.valid_iff h
  have hlen : 0 < p.segment.length := List.length_pos.2 hne
  unfold PathPart.text
  cases p.index with
  | none => simpa using hlen
  | some i => simp; omega

theorem pops_needed_le (parts : List PathPart) (h : ∀ p ∈ parts, p.valid = true) :
    pops_needed parts ≤ (path_text parts).length := by
  induction parts with
  | nil => simp [pops_needed]
  | cons p parts ih =>
    have hp := p.pops_le_text (h p (List.mem_cons_self _ _))
    have ih := ih (fun q hq => h q (List.mem_cons_of_mem _ hq))
    rw [path_text_cons]
    cases parts with
    | nil =>
      simp only [pops_needed, List.length_append, List.length_nil] at ih ⊢
      omega
    | cons q qs =>
      simp only [pops_needed, List.length_append, List.length_cons] at ih ⊢
      omega

/-- The segment loop of `find_range2` on well-formed text follows a path that resolves:
it returns `true` with the range on the first byte of the value the path identifies. -/
theorem find_range2_loop_resolve (checked : Bool) : ∀ (parts : List PathPart)
    (v target : JsonValue) (tail P : List Nat) (pops : Nat),
    (∀ p ∈ parts, p.valid = true) → v.well_formed = true → resolve v parts = some target →
    drop_leading_dot P = path_text parts → pops_needed parts < pops →
    target.well_formed = true ∧ ∃ tail',
      find_range2_loop pops ⟨checked, v.render ++ tail⟩ P
        = .ok (true, ⟨checked, target.render ++ tail'⟩) := by
  intro parts
  induction parts with
  | nil =>
    intro v target tail P pops _ hv hres hP hpops
    simp only [resolve, Option.some.injEq] at hres
    subst hres
    refine ⟨hv, tail, ?_⟩
    cases pops with
    | zero => omega
    | succ pops =>
      have hpop : pop_json_path P = ⟨[], 0, []⟩ := by
        rw [pop_json_path_eq, hP]; rfl
      simp [find_range2_loop, hpop]
  | cons p parts ih =>
    intro v target tail P pops hvalid hv hres hP hpops
    have hp := hvalid p (List.mem_cons_self _ _)
    have hparts : ∀ q ∈ parts, q.valid = true := fun q hq => hvalid q (List.mem_cons_of_mem _ hq)
    obtain ⟨hne, hseg, hidx⟩ := p.valid_iff hp
    -- the rest of the path behind the text of `p`
    have hsep : ∃ sep, path_text (p :: parts) = p.text ++ sep ∧
        drop_leading_dot sep = path_text parts ∧ (sep = [] ∨ ∃ X, sep = 46 :: X) := by
      rw [path_text_cons]
      cases parts with
      | nil => exact ⟨[], rfl, rfl, Or.inl rfl⟩
      | cons q qs => exact ⟨_, rfl, by simp [drop_leading_dot], Or.inr ⟨_, rfl⟩⟩
    obtain ⟨sep, htext, hsepdrop, hsepform⟩ := hsep
    -- what the path identifies in `v`
    simp only [resolve] at hres
    cases hrp : resolve_part v p with
    | none => simp [hrp] at hres
    | some v' =>
      simp only [hrp] at hres
      cases v with
      | str _ => simp [resolve_part] at hrp
      | num _ => simp [resolve_part] at hrp
      | lit _ => simp [resolve_part] at hrp
      | arr_empty _ => simp [resolve_part] at hrp
      | arr _ => simp [resolve_part] at hrp
      | obj_empty _ => simp [resolve_part] at hrp
      | obj ms =>
        simp only [JsonValue.well_formed] at hv
        cases hfind : ms.find p.segment with
        | none => simp [resolve_part, hfind] at hrp
        | some vm =>
          cases hindex : p.index with
          | none =>
            have hv' : vm = v' := by
              simpa [resolve_part, hfind, hindex] using hrp
            subst hv'
            have hpop : ∃ found R, pop_json_path P = ⟨p.segment, found, R⟩ ∧ found ≠ 93 ∧
                drop_leading_dot R = path_text parts := by
              rw [pop_json_path_eq, hP, htext]
              simp only [PathPart.text, hindex]
              rcases hsepform with hs | ⟨X, hs⟩
              · subst hs
                rw [List.append_nil, (pop_front_path_segment p.segment false 46 [] hseg
                  (by decide)).2]
                exact ⟨0, [], rfl, by decide, by simpa using hsepdrop⟩
              · subst hs
                rw [(pop_front_path_segment p.segment false 46 X hseg (by decide)).1]
                refine ⟨46, X, rfl, by decide, ?_⟩
                have hX : X = path_text parts := by simpa [drop_leading_dot] using hsepdrop
                rw [hX]
                exact drop_leading_dot_path_text parts hparts
            obtain ⟨found, R, hpop, hfound, hR⟩ := hpop
            cases pops with
            | zero => omega
            | succ pops =>
              obtain ⟨hvm, tail', _, hstep⟩ := find_range2_loop_member checked pops P p.segment
                R found ms vm tail hpop hne hfound hv hfind
              rw [hstep]
              exact ih vm target tail' R pops hparts hvm hres hR (by
                simp only [pops_needed, hindex, Option.isSome_none, Bool.false_eq_true,
                  if_false] at hpops
                omega)
          | some i =>
            cases vm with
            | str _ => simp [resolve_part, hfind, hindex] at hrp
            | num _ => simp [resolve_part, hfind, hindex] at hrp
            | lit _ => simp [resolve_part, hfind, hindex] at hrp
            | arr_empty _ => simp [resolve_part, hfind, hindex] at hrp
            | obj_empty _ => simp [resolve_part, hfind, hindex] at hrp
            | obj _ => simp [resolve_part, hfind, hindex] at hrp
            | arr es =>
              have hget : es.get i = some v' := by
                simpa [resolve_part, hfind, hindex] using hrp
              have hpop1 : pop_json_path P
                  = ⟨p.segment, 91, canonical_nat i ++ 93 :: sep⟩ := by
                rw [pop_json_path_eq, hP, htext]
                simp only [PathPart.text, hindex, List.append_assoc, List.cons_append,
                  List.nil_append]
                exact (pop_front_path_segment p.segment false 91 _ hseg (by decide)).1
              have hpop2 : pop_json_path (canonical_nat i ++ 93 :: sep)
                  = ⟨canonical_nat i, 93, sep⟩ :=
                (pop_json_path_segment (canonical_nat i) 93 sep (canonical_nat_ne_nil i)
                  (path_segment_canonical_nat i) (by decide)).1
              have hpn : pops_needed parts + 2 < pops := by
                simp only [pops_needed, hindex, Option.isSome_some, if_true] at hpops
                omega
              obtain ⟨pops2, rfl⟩ : ∃ k, pops = k + 1 + 1 := ⟨pops - 2, by omega⟩
              obtain ⟨hvm, tail1, _, hstep1⟩ := find_range2_loop_member checked (pops2 + 1) P
                p.segment _ 91 ms (.arr es) tail hpop1 hne (by decide) hv hfind
              simp only [JsonValue.well_formed] at hvm
              obtain ⟨hv', tail2, _, hstep2⟩ := find_range2_loop_index checked pops2
                (canonical_nat i ++ 93 :: sep) sep i es v' tail1 hpop2 (hidx i hindex) hvm hget
              rw [hstep1, hstep2]
              exact ih v' target tail2 sep pops2 hparts hv' hres hsepdrop (by omega)

/-- C11: for every well-formed document (a well-formed value with optional whitespace
around it) and every path made of non-empty member-name segments, each optionally
followed by one bracketed index, such that every named member exists in the object
reached and every index is below the length of the array reached (the path resolves to a
value `target`), `find_range` returns `true` and the returned range starts with the bytes
of `target`, so that its `front()` is the first byte of the identified value.  For the
document `{"a":[10,20,{"b":"hi"}]}` and the path `a[2].b` the range is on the opening
quote of `"hi"`. -/
theorem find_range_resolves (checked : Bool) (w0 w1 : List Nat) (doc target : JsonValue)
    (parts : List PathPart) (hw0 : all_spaces w0 = true) (_hw1 : all_spaces w1 = true)
    (hdoc : doc.well_formed = true) (hparts : ∀ p ∈ parts, p.valid = true)
    (hres : resolve doc parts = some target) :
    (∃ b rest tail, target.render = b :: rest ∧
      find_range checked (w0 ++ (doc.render ++ w1)) (path_text parts)
        = .ok (true, ⟨checked, target.render ++ tail⟩) ∧
      Range.front ⟨checked, target.render ++ tail⟩ = .ok b) ∧
    find_range true [123, 34, 97, 34, 58, 91, 49, 48, 44, 50, 48, 44, 123, 34, 98, 34, 58, 34,
        104, 105, 34, 125, 93, 125] [97, 91, 50, 93, 46, 98]
      = .ok (true, ⟨true, [34, 104, 105, 34, 125, 93, 125]⟩) := by
  refine ⟨?_, by rfl⟩
  have htrim : skip_spaces (w0 ++ (doc.render ++ w1)) = doc.render ++ w1 :=
    skip_spaces_value w0 doc w1 hw0 hdoc
  obtain ⟨b0, r0, hr0, _⟩ := doc.render_head hdoc
  have hmore : (doc.render ++ w1).isEmpty = false := by rw [hr0]; rfl
  obtain ⟨htarget, tail, hloop⟩ := find_range2_loop_resolve checked parts doc target w1
    (path_text parts) ((path_text parts).length + 1) hparts hdoc hres
    (drop_leading_dot_path_text parts hparts) (by
      have := pops_needed_le parts hparts
      omega)
  obtain ⟨b, rest, hr, _⟩ := target.render_head htarget
  by_cases hempty : (path_text parts).isEmpty = true
  · -- the empty path identifies the document itself
    have hnil : parts = [] := by
      cases parts with
      | nil => rfl
      | cons p parts =>
        obtain ⟨c, t, hc, _⟩ := p.text_head (hparts p (List.mem_cons_self _ _))
        rw [path_text_cons, hc] at hempty
        simp at hempty
    subst hnil
    simp only [resolve, Option.some.injEq] at hres
    subst hres
    refine ⟨b, rest, w1, hr, ?_, by rw [hr]; rfl⟩
    simp [find_range, Range.trim_left_checked, htrim, Range.has_more, hempty]
  · have hempty : (path_text parts).isEmpty = false := by simpa using hempty
    refine ⟨b, rest, tail, hr, ?_, by rw [hr]; rfl⟩
    simp [find_range, Range.trim_left_checked, htrim, Range.has_more, hmore, hempty,
      find_range2, hloop, bind, Except.bind]

theorem find_range_resolves_witness :
    ∃ b rest tail, (JsonValue.str [104, 105]).render = b :: rest ∧
      find_range true
        ([32] ++ ((JsonValue.obj (.last [] [97] [] [32] (.arr (.cons [] (.num [49, 48]) []
          (.cons [] (.lit [110, 117, 108, 108]) [32] (.last [] (.obj (.cons [] [120] [] []
            (.str [93, 92, 34]) [] (.last [] [98] [] [] (.str [104, 105]) []))) [])))) [])).render
          ++ [10]))
        (path_text [⟨[97], some 2⟩, ⟨[98], none⟩])
        = .ok (true, ⟨true, (JsonValue.str [104, 105]).render ++ tail⟩) ∧
      Range.front ⟨true, (JsonValue.str [104, 105]).render ++ tail⟩ = .ok b :=
  (find_range_resolves true [32] [10]
    (.obj (.last [] [97] [] [32] (.arr (.cons [] (.num [49, 48]) []
      (.cons [] (.lit [110, 117, 108, 108]) [32] (.last [] (.obj (.cons [] [120] [] []
        (.str [93, 92, 34]) [] (.last [] [98] [] [] (.str [104, 105]) []))) [])))) []))
    (.str [104, 105]) [⟨[97], some 2⟩, ⟨[98], none⟩]
    (by decide) (by decide) (by decide) (by decide) (by rfl)).1

/-! ## Class members: `to_json_str` and `tags_to_json_str` -/

theorem copy_raw_AllowFull (container : List Nat) : ∀ it : List Nat,
    copy_raw .AllowFull container it = .ok (it ++ container) := by
  induction container with
  | nil => intro it; simp [copy_raw]
  | cons c cs ih => intro it; simp [copy_raw, ih]

theorem comma_separated_cons (e : List Nat) (es : List (List Nat)) :
    comma_separated (e :: es) = e ++ (es.map (fun x => 44 :: x)).flatten := by
  induction es generalizing e with
  | nil => simp [comma_separated]
  | cons y rest ih => simp [comma_separated, ih]

/-- The text the entries add behind what was written before. -/
theorem to_json_str_emits (m : MemberValue) (st : MemberState) (text : List Nat)
    (hnew : m.name ∉ st.visited_members)
    (hval : ¬ (m.is_json_nullable = true ∧ m.has_value = false))
    (hv : ∀ it, m.member_to_string it = .ok (it ++ text)) :
    to_json_str m st = .ok ⟨false,
      st.it ++ ((if st.is_first then [] else [44]) ++ member_entry m.name text),
      st.visited_members ++ [m.name]⟩ := by
  have hc : st.visited_members.contains m.name = false := by
    simpa using hnew
  have hval2 : ¬ (m.is_json_nullable = true ∧ ¬ m.has_value = true) := by
    simpa using hval
  simp only [to_json_str, hc, Bool.false_eq_true, if_false, hval2, copy_to_iterator,
    copy_raw_AllowFull, hv, bind, Except.bind]
  cases st.is_first <;> simp [member_entry]

theorem to_json_str_skips (m : MemberValue) (st : MemberState)
    (hnew : m.name ∉ st.visited_members)
    (hn : m.is_json_nullable = true) (he : m.has_value = false) :
    to_json_str m st = .ok ⟨st.is_first, st.it, st.visited_members ++ [m.name]⟩ := by
  simp [to_json_str, hnew, hn, he]

theorem to_json_str_visited (m : MemberValue) (st : MemberState)
    (hold : m.name ∈ st.visited_members) : to_json_str m st = .ok st := by
  simp [to_json_str, hold]
theorem to_json_str_all_run (text : MemberValue → List Nat) :
    ∀ (ms : List MemberValue) (st : MemberState),
      (ms.map (fun m => m.name)).Nodup →
      (∀ m ∈ ms, m.name ∉ st.visited_members) →
      (∀ m ∈ ms, m.is_empty_nullable = false →
        ∀ it, m.member_to_string it = .ok (it ++ text m)) →
      to_json_str_all ms st = .ok ⟨st.is_first && (ms.filter (fun m => !m.is_empty_nullable)).isEmpty,
        st.it ++ (if st.is_first then
            comma_separated ((ms.filter (fun m => !m.is_empty_nullable)).map
              (fun m => member_entry m.name (text m)))
          else (((ms.filter (fun m => !m.is_empty_nullable)).map
              (fun m => member_entry m.name (text m))).map (fun x => 44 :: x)).flatten),
        st.visited_members ++ ms.map (fun m => m.name)⟩ := by
  intro ms
  induction ms with
  | nil => intro st _ _ _; cases st; simp [to_json_str_all, comma_separated]
  | cons m ms ih =>
    intro st hd hnew hv
    have hd2 : m.name ∉ ms.map (fun m => m.name) ∧ (ms.map (fun m => m.name)).Nodup := by
      simpa using hd
    have hm : m.name ∉ st.visited_members := hnew m (by simp)
    have hnew2 : ∀ m2 ∈ ms, m2.name ∉ st.visited_members ++ [m.name] := by
      intro m2 h2 hin
      rcases List.mem_append.1 hin with h | h
      · exact hnew m2 (by simp [h2]) h
      · have : m2.name = m.name := by simpa using h
        exact hd2.1 (by rw [← this]; exact List.mem_map_of_mem _ h2)
    have hv2 : ∀ m2 ∈ ms, m2.is_empty_nullable = false →
        ∀ it, m2.member_to_string it = .ok (it ++ text m2) :=
      fun m2 h2 => hv m2 (by simp [h2])
    cases hs : m.is_empty_nullable with
    | true =>
      have hs2 : m.is_json_nullable = true ∧ m.has_value = false := by
        simpa [MemberValue.is_empty_nullable] using hs
      rw [to_json_str_all, to_json_str_skips m st hm hs2.1 hs2.2]
      simp only [bind, Except.bind]
      rw [ih _ hd2.2 hnew2 hv2]
      simp [hs]
    | false =>
      have hs2 : ¬ (m.is_json_nullable = true ∧ m.has_value = false) := by
        simpa [MemberValue.is_empty_nullable] using hs
      rw [to_json_str_all, to_json_str_emits m st (text m) hm hs2 (hv m (by simp) hs)]
      simp only [bind, Except.bind]
      rw [ih _ hd2.2 hnew2 hv2]
      cases st.is_first <;> simp [hs, comma_separated_cons]

/-- C21: from `is_first = true` and an empty visited list, the calls of `to_json_str` for
members with pairwise distinct names and present values append exactly the entries
`"name":value` in the order of the calls, with one comma between two neighbours and none
before the first or behind the last, and `is_first` is true afterwards exactly when there
was no member. -/
theorem to_json_str_all_entries (ms : List MemberValue) (text : MemberValue → List Nat)
    (it : List Nat)
    (hdistinct : (ms.map (fun m => m.name)).Nodup)
    (hpresent : ∀ m ∈ ms, m.is_json_nullable = true → m.has_value = true)
    (hvalue : ∀ m ∈ ms, ∀ it, m.member_to_string it = .ok (it ++ text m)) :
    ∃ st, to_json_str_all ms ⟨true, it, []⟩ = .ok st ∧
      st.it = it ++ comma_separated (ms.map (fun m => member_entry m.name (text m))) ∧
      (st.is_first = true ↔ ms = []) := by
  have hall : ∀ m ∈ ms, m.is_empty_nullable = false := by
    intro m hm
    cases hn : m.is_json_nullable with
    | false => simp [MemberValue.is_empty_nullable, hn]
    | true => simp [MemberValue.is_empty_nullable, hpresent m hm hn]
  have hf : ms.filter (fun m => !m.is_empty_nullable) = ms := by
    rw [List.filter_eq_self]
    intro m hm
    simp [hall m hm]
  refine ⟨_, to_json_str_all_run text ms ⟨true, it, []⟩ hdistinct (by simp)
    (fun m hm _ => hvalue m hm), ?_, ?_⟩
  · simp [hf]
  · simp [hf]

theorem to_json_str_all_entries_witness :
    ∃ st, to_json_str_all
        [⟨[97], false, true, fun it => .ok (it ++ [49])⟩,
         ⟨[98], true, true, fun it => .ok (it ++ [49])⟩] ⟨true, [123], []⟩ = .ok st ∧
      st.it = [123] ++ comma_separated
        ([(⟨[97], false, true, fun it => .ok (it ++ [49])⟩ : MemberValue),
          ⟨[98], true, true, fun it => .ok (it ++ [49])⟩].map
            (fun m => member_entry m.name [49])) ∧
      (st.is_first = true ↔
        [(⟨[97], false, true, fun it => .ok (it ++ [49])⟩ : MemberValue),
          ⟨[98], true, true, fun it => .ok (it ++ [49])⟩] = []) :=
  to_json_str_all_entries _ (fun _ => [49]) [123] (by decide) (by simp) (by simp)

/-- C22: `to_json_str` for a nullable member whose value is empty appends nothing and
leaves `is_first` as it was; so the members of one object (pairwise distinct names) give
the entries of the members that are not empty nullable members, with one comma between two
neighbours and none before the first, behind the last or doubled. -/
theorem to_json_str_empty_nullable (ms : List MemberValue) (text : MemberValue → List Nat)
    (it : List Nat)
    (hdistinct : (ms.map (fun m => m.name)).Nodup)
    (hvalue : ∀ m ∈ ms, m.is_empty_nullable = false →
      ∀ it, m.member_to_string it = .ok (it ++ text m)) :
    (∀ (m : MemberValue) (st : MemberState), m.is_json_nullable = true →
      m.has_value = false →
      ∃ st2, to_json_str m st = .ok st2 ∧ st2.it = st.it ∧ st2.is_first = st.is_first) ∧
    ∃ st, to_json_str_all ms ⟨true, it, []⟩ = .ok st ∧
      st.it = it ++ comma_separated ((ms.filter (fun m => !m.is_empty_nullable)).map
        (fun m => member_entry m.name (text m))) := by
  constructor
  · intro m st hn he
    by_cases hold : m.name ∈ st.visited_members
    · exact ⟨st, to_json_str_visited m st hold, rfl, rfl⟩
    · exact ⟨_, to_json_str_skips m st hold hn he, rfl, rfl⟩
  · exact ⟨_, to_json_str_all_run text ms ⟨true, it, []⟩ hdistinct (by simp) hvalue,
      by simp⟩
theorem to_json_str_empty_nullable_witness :
    ∃ st, to_json_str_all
        [⟨[97], false, true, fun it => .ok (it ++ [49])⟩,
         ⟨[98], true, false, fun _ => .error "Should Never get here without a value"⟩,
         ⟨[99], true, true, fun it => .ok (it ++ [49])⟩] ⟨true, [123], []⟩ = .ok st ∧
      st.it = [123] ++ comma_separated
        (([(⟨[97], false, true, fun it => .ok (it ++ [49])⟩ : MemberValue),
          ⟨[98], true, false, fun _ => .error "Should Never get here without a value"⟩,
          ⟨[99], true, true, fun it => .ok (it ++ [49])⟩].filter
            (fun m => !m.is_empty_nullable)).map (fun m => member_entry m.name [49])) :=
  (to_json_str_empty_nullable _ (fun _ => [49]) [123] (by decide)
    (by simp [MemberValue.is_empty_nullable])).2

theorem tags_to_json_str_step (kind : OutputIteratorKind) (t : TagValue) (st : MemberState)
    (text : List Nat) (hnew : t.name ∉ st.visited_members)
    (hv : ∀ it, t.member_to_string it = .ok (it ++ text)) :
    tags_to_json_str kind (some t) st = .ok ⟨false,
      if kind = .inserter then
        st.it ++ ((if st.is_first then [] else [44]) ++ member_entry t.name text)
      else st.it,
      st.visited_members ++ [t.name]⟩ := by
  simp only [tags_to_json_str, copy_to_iterator, copy_raw_AllowFull, hv, bind, Except.bind]
  cases st.is_first <;> cases kind <;> simp [member_entry, hnew]

theorem MemberCall.run_step (kind : OutputIteratorKind) (c : MemberCall) (st : MemberState)
    (text : List Nat)
    (hv : c.has_entry = true → ∀ it, c.member_to_string it = .ok (it ++ text)) :
    ∃ st1, c.run kind st = .ok st1 ∧
      (∀ n ∈ st.visited_members, n ∈ st1.visited_members) ∧
      (∀ n, c.name = some n → n ∈ st1.visited_members) ∧
      (st1.it = st.it ∨ ∃ n comma, c.name = some n ∧ n ∉ st.visited_members ∧
        st1.it = st.it ++ WrittenKey.bytes ⟨comma, n, text⟩) := by
  cases c with
  | tags tag =>
    cases tag with
    | none => exact ⟨st, rfl, fun _ h => h, by simp [MemberCall.name], Or.inl rfl⟩
    | some t =>
      by_cases hold : t.name ∈ st.visited_members
      · refine ⟨st, by simp [MemberCall.run, tags_to_json_str, hold], fun _ h => h, ?_,
          Or.inl rfl⟩
        intro n hn
        simp only [MemberCall.name, Option.some.injEq] at hn
        exact hn ▸ hold
      · refine ⟨_, tags_to_json_str_step kind t st text hold (hv rfl), ?_, ?_, ?_⟩
        · intro n hn; simp [hn]
        · intro n hn
          simp only [MemberCall.name, Option.some.injEq] at hn
          simp [hn]
        · cases kind with
          | position => left; simp
          | inserter =>
            right
            exact ⟨t.name, !st.is_first, rfl, hold, by
              cases st.is_first <;> simp [WrittenKey.bytes]⟩
  | member m =>
    by_cases hold : m.name ∈ st.visited_members
    · refine ⟨st, to_json_str_visited m st hold, fun _ h => h, ?_, Or.inl rfl⟩
      intro n hn
      simp only [MemberCall.name, Option.some.injEq] at hn
      exact hn ▸ hold
    · cases hs : m.is_empty_nullable with
      | true =>
        have hs2 : m.is_json_nullable = true ∧ m.has_value = false := by
          simpa [MemberValue.is_empty_nullable] using hs
        refine ⟨_, to_json_str_skips m st hold hs2.1 hs2.2, ?_, ?_, Or.inl rfl⟩
        · intro n hn; simp [hn]
        · intro n hn
          simp only [MemberCall.name, Option.some.injEq] at hn
          simp [hn]
      | false =>
        have hs2 : ¬ (m.is_json_nullable = true ∧ m.has_value = false) := by
          simpa [MemberValue.is_empty_nullable] using hs
        refine ⟨_, to_json_str_emits m st text hold hs2
          (hv (by simp [MemberCall.has_entry, hs])), ?_, ?_, ?_⟩
        · intro n hn; simp [hn]
        · intro n hn
          simp only [MemberCall.name, Option.some.injEq] at hn
          simp [hn]
        · right
          exact ⟨m.name, !st.is_first, rfl, hold, by
            cases st.is_first <;> simp [WrittenKey.bytes]⟩

theorem run_calls_keys (kind : OutputIteratorKind) (text : MemberCall → List Nat) :
    ∀ (calls : List MemberCall) (st : MemberState),
      (∀ c ∈ calls, c.has_entry = true →
        ∀ it, c.member_to_string it = .ok (it ++ text c)) →
      ∃ (st2 : MemberState) (keys : List WrittenKey),
        run_calls kind calls st = .ok st2 ∧
        st2.it = st.it ++ (keys.map WrittenKey.bytes).flatten ∧
        (keys.map (fun k => k.name)).Nodup ∧
        ∀ k ∈ keys, k.name ∉ st.visited_members ∧
          ∃ c pre post, calls = pre ++ c :: post ∧ c.name = some k.name ∧
            k.value = text c ∧ ∀ c2 ∈ pre, c2.name ≠ some k.name := by
  intro calls
  induction calls with
  | nil => intro st _; exact ⟨st, [], rfl, by simp, by simp, by simp⟩
  | cons c cs ih =>
    intro st hv
    obtain ⟨st1, hrun, hsub, hname, hit⟩ :=
      MemberCall.run_step kind c st (text c) (hv c (by simp))
    obtain ⟨st2, keys, hrun2, hit2, hnd, hkeys⟩ :=
      ih st1 (fun c2 h2 => hv c2 (by simp [h2]))
    have hall : run_calls kind (c :: cs) st = .ok st2 := by
      simp [run_calls, hrun, hrun2, bind, Except.bind]
    have hlift : ∀ k ∈ keys, k.name ∉ st.visited_members ∧
        ∃ c3 pre post, c :: cs = pre ++ c3 :: post ∧ c3.name = some k.name ∧
          k.value = text c3 ∧ ∀ c2 ∈ pre, c2.name ≠ some k.name := by
      intro k hk
      obtain ⟨hk1, c3, pre, post, hcs, hc3, hval, hpre⟩ := hkeys k hk
      refine ⟨fun h => hk1 (hsub _ h), c3, c :: pre, post, by simp [hcs], hc3, hval, ?_⟩
      intro c2 h2
      rcases List.mem_cons.1 h2 with h | h
      · intro hc
        exact hk1 (hname _ (h ▸ hc))
      · exact hpre c2 h
    rcases hit with hit | ⟨n, comma, hn, hnew, hit⟩
    · exact ⟨st2, keys, hall, by rw [hit2, hit], hnd, hlift⟩
    · refine ⟨st2, ⟨comma, n, text c⟩ :: keys, hall, by rw [hit2, hit]; simp, ?_, ?_⟩
      · simp only [List.map_cons, List.nodup_cons]
        refine ⟨?_, hnd⟩
        intro hin
        obtain ⟨k, hk, hkn⟩ := List.mem_map.1 hin
        exact (hkeys k hk).1 (hkn ▸ hname n hn)
      · intro k hk
        rcases List.mem_cons.1 hk with h | h
        · subst h
          exact ⟨hnew, c, [], cs, rfl, hn, rfl, by simp⟩
        · exact hlift k h
/-- C23: in a sequence of `tags_to_json_str` and `to_json_str` calls on one shared state
that starts with an empty visited list, the output is made of entries whose names are
pairwise distinct, and each entry is written by the first call that names its member; a
later call that names the same member (a tag member of another variant, or the member
described once more) writes nothing. -/
theorem run_calls_key_at_most_once (kind : OutputIteratorKind) (calls : List MemberCall)
    (text : MemberCall → List Nat) (it : List Nat)
    (hvalue : ∀ c ∈ calls, c.has_entry = true →
      ∀ it, c.member_to_string it = .ok (it ++ text c)) :
    ∃ (st : MemberState) (keys : List WrittenKey),
      run_calls kind calls ⟨true, it, []⟩ = .ok st ∧
      st.it = it ++ (keys.map WrittenKey.bytes).flatten ∧
      (keys.map (fun k => k.name)).Nodup ∧
      ∀ k ∈ keys, ∃ c pre post, calls = pre ++ c :: post ∧ c.name = some k.name ∧
        k.value = text c ∧ ∀ c2 ∈ pre, c2.name ≠ some k.name := by
  obtain ⟨st, keys, hrun, hit, hnd, hkeys⟩ :=
    run_calls_keys kind text calls ⟨true, it, []⟩ hvalue
  exact ⟨st, keys, hrun, hit, hnd, fun k hk => (hkeys k hk).2⟩

theorem run_calls_key_at_most_once_witness :
    ∃ (st : MemberState) (keys : List WrittenKey),
      run_calls .inserter
        [.tags (some ⟨[116], fun it => .ok (it ++ [49])⟩),
         .member ⟨[97], false, true, fun it => .ok (it ++ [49])⟩,
         .tags (some ⟨[116], fun it => .ok (it ++ [49])⟩),
         .tags none,
         .member ⟨[116], false, true, fun it => .ok (it ++ [49])⟩] ⟨true, [123], []⟩ = .ok st ∧
      st.it = [123] ++ (keys.map WrittenKey.bytes).flatten ∧
      (keys.map (fun k => k.name)).Nodup ∧
      ∀ k ∈ keys, ∃ c pre post,
        [MemberCall.tags (some ⟨[116], fun it => .ok (it ++ [49])⟩),
         .member ⟨[97], false, true, fun it => .ok (it ++ [49])⟩,
         .tags (some ⟨[116], fun it => .ok (it ++ [49])⟩),
         .tags none,
         .member ⟨[116], false, true, fun it => .ok (it ++ [49])⟩] = pre ++ c :: post ∧
        c.name = some k.name ∧ k.value = (fun _ => [49]) c ∧
        ∀ c2 ∈ pre, c2.name ≠ some k.name :=
  run_calls_key_at_most_once .inserter _ (fun _ => [49]) [123]
    (by simp [MemberCall.member_to_string, MemberCall.has_entry])

/-! ## Arrays -/

theorem to_string_Array_loop_texts {α : Type}
    (to_string : List Nat → α → Except String (List Nat)) (text : α → List Nat) :
    ∀ (rest : List α) (v : α) (it : List Nat),
      rest.length < 2 ^ 64 →
      (∀ x ∈ v :: rest, ∀ it, to_string it x = .ok (it ++ text x)) →
      to_string_Array_loop to_string (v :: rest) rest.length it
        = .ok (it ++ comma_separated ((v :: rest).map text)) := by
  intro rest
  induction rest with
  | nil =>
    intro v it _ hv
    simp [to_string_Array_loop, hv, bind, Except.bind, comma_separated]
  | cons y rest ih =>
    intro v it hlen hv
    have hlen2 : rest.length < 2 ^ 64 := by
      simp only [List.length_cons] at hlen; omega
    have hcount : (rest.length + 1 + 2 ^ 64 - 1) % 2 ^ 64 = rest.length := by
      rw [show rest.length + 1 + 2 ^ 64 - 1 = rest.length + 2 ^ 64 by omega,
        Nat.add_mod_right, Nat.mod_eq_of_lt hlen2]
    rw [to_string_Array_loop, hv v (by simp)]
    simp only [bind, Except.bind, List.length_cons, hcount]
    rw [ih y _ hlen2 (fun x hx => hv x (by simp [hx]))]
    simp [comma_separated]

/-- C24: the Array serializer writes `[`, the serializations of the elements in iteration
order with one comma between two neighbours (n - 1 commas for n elements, none behind the
last), and `]`; the empty sequence gives exactly `[]`. -/
theorem to_string_Array_elements {α : Type}
    (to_string : List Nat → α → Except String (List Nat)) (text : α → List Nat)
    (it : List Nat) (container : List α)
    (hsize : container.length < 2 ^ 64)
    (helement : ∀ x ∈ container, ∀ it, to_string it x = .ok (it ++ text x)) :
    to_string_Array to_string it container
        = .ok (it ++ [91] ++ comma_separated (container.map text) ++ [93]) ∧
      to_string_Array to_string it ([] : List α) = .ok (it ++ [91, 93]) := by
  constructor
  · cases container with
    | nil => simp [to_string_Array, comma_separated, bind, Except.bind]
    | cons v rest =>
      simp only [List.length_cons] at hsize
      have hlen : rest.length < 2 ^ 64 := by omega
      have hcount : ((rest.length + 1) % 2 ^ 64 + 2 ^ 64 - 1) % 2 ^ 64 = rest.length := by
        rw [Nat.mod_eq_of_lt hsize,
          show rest.length + 1 + 2 ^ 64 - 1 = rest.length + 2 ^ 64 by omega,
          Nat.add_mod_right, Nat.mod_eq_of_lt hlen]
      simp only [to_string_Array, List.isEmpty_cons, Bool.false_eq_true, not_false_eq_true,
        if_true, List.length_cons, hcount, bind, Except.bind]
      rw [to_string_Array_loop_texts to_string text rest v _ hlen helement]
  · simp [to_string_Array, bind, Except.bind]

theorem to_string_Array_elements_witness :
    to_string_Array (fun it (v : Nat) => .ok (it ++ [48 + v])) [58] [1, 2, 3]
        = .ok ([58] ++ [91] ++ comma_separated ([1, 2, 3].map (fun v => [48 + v])) ++ [93]) ∧
      to_string_Array (fun it (v : Nat) => .ok (it ++ [48 + v])) [58] ([] : List Nat)
        = .ok ([58] ++ [91, 93]) :=
  to_string_Array_elements (fun it (v : Nat) => .ok (it ++ [48 + v])) (fun v => [48 + v])
    [58] [1, 2, 3] (by simp) (by simp)

/-! ## Nullable members -/

theorem takeWhile_append_stop (p : Nat → Bool) (l tail : List Nat) (b : Nat)
    (hl : ∀ c ∈ l, p c = true) (hb : p b = false) :
    (l ++ b :: tail).takeWhile p = l := by
  induction l with
  | nil => simp [List.takeWhile, hb]
  | cons c l ih =>
    have hc := hl c (by simp)
    simp [List.takeWhile, hc, ih (fun x hx => hl x (by simp [hx]))]

theorem canonical_nat_value (n : Nat) :
    (canonical_nat n).foldl (fun r c => r * 10 + (c - 48)) 0 = n := by
  unfold canonical_nat
  split
  · rename_i h0; subst h0; rfl
  · rw [foldl_decimal_digits _ (fun d hd => Nat.digits_lt_base (by norm_num) hd),
      Nat.ofDigits_digits]

theorem canonical_nat_head (n : Nat) :
    ∃ b rest, canonical_nat n = b :: rest ∧ 48 ≤ b ∧ b ≤ 57 := by
  cases h : canonical_nat n with
  | nil => exact absurd h (canonical_nat_ne_nil n)
  | cons b rest => exact ⟨b, rest, rfl, canonical_nat_mem n b (by simp [h])⟩

theorem parse_value_Signed_canonical (bits : Nat) (n : Int) (checked : Bool)
    (tail : List Nat)
    (hlo : -(2 : Int) ^ (bits - 1) ≤ n) (hhi : n < (2 : Int) ^ (bits - 1)) :
    parse_value_Signed bits ⟨checked, canonical_int n ++ 44 :: tail⟩
      = .ok (n, ⟨checked, 44 :: tail⟩) := by
  obtain ⟨b, rest, hb, hb1, hb2⟩ := canonical_nat_head n.natAbs
  have htw : (canonical_nat n.natAbs ++ 44 :: tail).takeWhile
      (fun c => decide (48 ≤ c ∧ c ≤ 57)) = canonical_nat n.natAbs :=
    takeWhile_append_stop _ _ tail 44
      (fun c hc => by simpa using canonical_nat_mem _ c hc) (by decide)
  have hne : (canonical_nat n.natAbs).isEmpty = false := by simp [hb]
  by_cases hneg : n < 0
  · have hval : -((n.natAbs : Nat) : Int) = n := by omega
    simp only [parse_value_Signed, canonical_int, hneg, if_true, Range.front_is,
      List.cons_append, beq_self_eq_true, List.drop_succ_cons, List.drop_zero, htw, hne,
      Bool.false_eq_true, if_false, canonical_nat_value, hval, hlo, hhi, and_self,
      List.drop_left]
  · have hval : ((n.natAbs : Nat) : Int) = n := by omega
    have h45 : (b == 45) = false := by
      simp only [beq_eq_false_iff_ne, ne_eq]; omega
    have hfront : Range.front_is ⟨checked, canonical_nat n.natAbs ++ 44 :: tail⟩ 45
        = false := by
      simp [Range.front_is, hb, h45]
    simp only [parse_value_Signed, canonical_int, hneg, if_false, hfront,
      Bool.false_eq_true, htw, hne, canonical_nat_value, hval, hlo, hhi, and_self, if_true,
      List.drop_left]

/-- C25: parsing a nullable member gives the empty optional when the input at the cursor
is the literal `null` (whatever follows it, whatever the policy), and when the value is
absent: an empty range parsed with known bounds. -/
theorem parse_value_Null_empty {α : Type} (inner : Range → Except String (α × Range))
    (checked known_bounds : Bool) (tail : List Nat) :
    parse_value_Null inner known_bounds ⟨checked, [110, 117, 108, 108] ++ tail⟩
        = .ok (none, ⟨checked, tail⟩) ∧
      parse_value_Null (parse_value_Signed 32) false ⟨true, [110, 117, 108, 108, 44]⟩
        = .ok (none, ⟨true, [44]⟩) ∧
      parse_value_Null inner true ⟨checked, []⟩ = .ok (none, ⟨checked, []⟩) := by
  refine ⟨?_, rfl, ?_⟩
  · simp [parse_value_Null, Range.empty]
  · simp [parse_value_Null, Range.empty]

/-- C26: on input that starts with the decimal text of an integer `n` of the target type
(32 bits) followed by a comma, parsing a nullable signed number gives the optional that
holds `n` and leaves the cursor on the comma, the same under the checked policy, the
unchecked policy and with known bounds. -/
theorem parse_value_Null_number (n : Int) (checked known_bounds : Bool) (tail : List Nat)
    (hlo : -(2 : Int) ^ 31 ≤ n) (hhi : n < (2 : Int) ^ 31) :
    parse_value_Null (parse_value_Signed 32) known_bounds
        ⟨checked, canonical_int n ++ 44 :: tail⟩
      = .ok (some n, ⟨checked, 44 :: tail⟩) := by
  have hnum := parse_value_Signed_canonical 32 n checked tail hlo hhi
  obtain ⟨b, rest, hb, hb1, hb2⟩ := canonical_nat_head n.natAbs
  have hhead : ∃ c rest2, canonical_int n = c :: rest2 ∧ c ≠ 110 := by
    unfold canonical_int
    split
    · exact ⟨45, _, rfl, by decide⟩
    · exact ⟨b, rest, hb, by omega⟩
  obtain ⟨c, rest2, hc, hc110⟩ := hhead
  have hnull : ¬ ((canonical_int n ++ 44 :: tail).take 4 = [110, 117, 108, 108]) := by
    rw [hc]
    intro h
    simp only [List.cons_append, List.take_succ_cons, List.cons.injEq] at h
    exact hc110 h.1
  have hempty : (Range.mk checked (canonical_int n ++ 44 :: tail)).empty = false := by
    simp [Range.empty, hc]
  simp only [parse_value_Null, hempty, Bool.false_eq_true, and_false, if_false, hnull, hnum]
  rfl

theorem parse_value_Null_number_witness :
    parse_value_Null (parse_value_Signed 32) true ⟨false, canonical_int 5 ++ 44 :: []⟩
      = .ok (some 5, ⟨false, 44 :: []⟩) :=
  parse_value_Null_number 5 false true [] (by decide) (by decide)

/-! ## The linking class: `from_json_string` -/

theorem skip_ws_separator (w : List Nat) (c : Nat) (rest : List Nat)
    (hw : all_spaces w = true) (hc : c = 44 ∨ c = 125 ∨ c = 58 ∨ c = 34) :
    skip_ws (w ++ c :: rest) = c :: rest := by
  unfold skip_ws
  rw [skip_spaces_append _ _ hw]
  apply skip_spaces_cons_of_not_space
  rcases hc with h | h | h | h <;> subst h <;> decide

theorem parse_json_string_body (body rest : List Nat) (hb : name_body false body = true) :
    parse_json_string (34 :: (body ++ 34 :: rest)) = .ok (body, rest) := by
  simp [parse_json_string, parse_nq_scan_body body false rest hb, Except.map]

theorem skip_json_value_well_formed (v : JsonValue) (tail : List Nat)
    (h : v.well_formed = true) (hf : follows_value tail = true) :
    skip_json_value (v.render ++ tail) = .ok tail := by
  simp [skip_json_value, skip_value_well_formed true v tail h hf, Except.map]

/-- One round of the member loop on a well-formed member: the view the round starts with
is on the quote of the name, `c` is the separator behind the member. -/
theorem from_json_string_member_round {Derived : Type} (std_hash : List Nat → Nat)
    (ignore_missing : Bool) (member_map : List (json_link_functions_info Derived))
    (m : ObjectMember) (c : Nat) (rest : List Nat) (result : Derived) (found : List Nat)
    (step : Except String (Derived × List Nat))
    (hm : m.well_formed = true) (hc : c = 44 ∨ c = 125)
    (hstep : (match find_link_func_member member_map (std_hash m.name) with
      | some f => (f.setter result (m.v.render ++ (m.w4 ++ c :: rest))).map
          (fun r => (r.1, r.2, found ++ [std_hash m.name]))
      | none =>
        if !ignore_missing then .error (not_linked_message m.name)
        else .ok (m.w4 ++ c :: rest, result, found))
      = step.map (fun r => (m.w4 ++ c :: rest, r.1, r.2))) :
    from_json_string_member std_hash ignore_missing member_map
        (m.text_from_name ++ c :: rest) result found
      = step.map (fun r => (if c = 44 then skip_ws rest else c :: rest, r.1, r.2)) := by
  simp only [ObjectMember.well_formed, Bool.and_eq_true] at hm
  obtain ⟨⟨⟨⟨⟨h1, hn⟩, h2⟩, h3⟩, hv⟩, h4⟩ := hm
  have e : m.text_from_name ++ c :: rest
      = 34 :: (m.name ++ 34 :: (m.w2 ++ 58 :: (m.w3 ++ (m.v.render ++ (m.w4 ++ c :: rest))))) := by
    simp [ObjectMember.text_from_name]
  have hcolon : skip_ws (m.w2 ++ 58 :: (m.w3 ++ (m.v.render ++ (m.w4 ++ c :: rest))))
      = 58 :: (m.w3 ++ (m.v.render ++ (m.w4 ++ c :: rest))) :=
    skip_ws_separator _ 58 _ h2 (by simp)
  have hvalue : skip_ws (m.w3 ++ (m.v.render ++ (m.w4 ++ c :: rest)))
      = m.v.render ++ (m.w4 ++ c :: rest) := skip_spaces_value _ _ _ h3 hv
  have hskip := skip_json_value_well_formed m.v (m.w4 ++ c :: rest) hv
    (follows_value_spaces _ c rest h4 (by rcases hc with h | h <;> subst h <;> decide))
  have hsep : skip_ws (m.w4 ++ c :: rest) = c :: rest :=
    skip_ws_separator _ c _ h4 (by omega)
  rw [e]
  cases hfind : find_link_func_member member_map (std_hash m.name) with
  | some f =>
    rw [hfind] at hstep
    simp only at hstep
    simp only [from_json_string_member, parse_json_string_body _ _ hn, bind, Except.bind,
      hcolon, view_front, daw_throw_on_false, beq_self_eq_true, if_true, List.drop_succ_cons,
      List.drop_zero, hvalue, hfind, hstep]
    cases step with
    | error e => rfl
    | ok r =>
      simp only [Except.map, hsep]
      rcases hc with h | h <;> subst h <;> simp [skip_ws, skip_spaces, is_json_space]
  | none =>
    rw [hfind] at hstep
    simp only at hstep
    cases hi : ignore_missing with
    | false =>
      rw [hi] at hstep
      simp only [Bool.not_false, if_true] at hstep
      cases step with
      | ok r => simp [Except.map] at hstep
      | error e2 =>
        simp only [Except.map, Except.error.injEq] at hstep
        simp [from_json_string_member, parse_json_string_body _ _ hn, bind, Except.bind,
          hcolon, view_front, daw_throw_on_false, hvalue, hfind, Except.map, ← hstep,
          not_linked_message]
    | true =>
      rw [hi] at hstep
      simp only [Bool.not_true, Bool.false_eq_true, if_false] at hstep
      cases step with
      | error e2 => simp [Except.map] at hstep
      | ok r =>
        simp only [Except.map, Except.ok.injEq, Prod.mk.injEq, true_and] at hstep
        simp only [from_json_string_member, parse_json_string_body _ _ hn, bind, Except.bind,
          hcolon, view_front, daw_throw_on_false, beq_self_eq_true, if_true,
          List.drop_succ_cons, List.drop_zero, hvalue, hfind, hskip, Except.map,
          Bool.not_true, Bool.false_eq_true, if_false, hsep, ← hstep.1, ← hstep.2]
        rcases hc with h | h <;> subst h <;> simp [skip_ws, skip_spaces, is_json_space]
theorem link_members_cons {Derived : Type} (std_hash : List Nat → Nat) (ignore_missing : Bool)
    (member_map : List (json_link_functions_info Derived))
    (sem : List Nat → JsonValue → Derived → Derived) (m : ObjectMember)
    (rest : List ObjectMember) (result : Derived) (found : List Nat) :
    link_members std_hash ignore_missing member_map sem (m :: rest) result found
      = (link_members std_hash ignore_missing member_map sem [m] result found).bind
          (fun r => link_members std_hash ignore_missing member_map sem rest r.1 r.2) := by
  simp only [link_members]
  cases find_link_func_member member_map (std_hash m.name) with
  | some f => rfl
  | none => cases ignore_missing <;> rfl

theorem skip_ws_members_text (m : ObjectMember) (rest : List ObjectMember) (X : List Nat)
    (hm : m.well_formed = true) :
    skip_ws (members_text (m :: rest) ++ X)
      = m.text_from_name ++ (match rest with
          | [] => X
          | m2 :: r => 44 :: (members_text (m2 :: r) ++ X)) := by
  simp only [ObjectMember.well_formed, Bool.and_eq_true] at hm
  have e : members_text (m :: rest) ++ X
      = m.w1 ++ 34 :: (m.name ++ 34 :: (m.w2 ++ 58 :: (m.w3 ++ (m.v.render ++ m.w4)))
          ++ (match rest with
            | [] => X
            | m2 :: r => 44 :: (members_text (m2 :: r) ++ X))) := by
    cases rest <;> simp [members_text, ObjectMember.text, ObjectMember.text_from_name]
  rw [e, skip_ws_separator _ 34 _ hm.1.1.1.1.1 (by simp)]
  simp [ObjectMember.text_from_name]

/-- The member loop on the members of a well-formed object, from the quote of the first
name on: it does what `link_members` describes and stops on the closing brace. -/
theorem from_json_string_loop_members {Derived : Type} (std_hash : List Nat → Nat)
    (ignore_missing : Bool) (member_map : List (json_link_functions_info Derived))
    (sem : List Nat → JsonValue → Derived → Derived) (tail : List Nat) :
    ∀ (rest : List ObjectMember) (m : ObjectMember) (fuel : Nat) (result : Derived)
      (found : List Nat),
      (∀ x ∈ m :: rest, x.well_formed = true) →
      (∀ x ∈ m :: rest, ∀ f, find_link_func_member member_map (std_hash x.name) = some f →
        ∀ d Y, follows_value Y = true →
          f.setter d (x.v.render ++ Y) = .ok (Y, sem x.name x.v d)) →
      rest.length + 2 ≤ fuel →
      from_json_string_loop std_hash ignore_missing member_map fuel
          (skip_ws (members_text (m :: rest) ++ 125 :: tail)) result found
        = (link_members std_hash ignore_missing member_map sem (m :: rest) result found).map
            (fun r => (125 :: tail, r.1, r.2)) := by
  intro rest
  induction rest with
  | nil =>
    intro m fuel result found hwf hset hfuel
    obtain ⟨fuel, rfl⟩ : ∃ k, fuel = k + 2 := ⟨fuel - 2, by simp at hfuel; omega⟩
    have hm := hwf m (by simp)
    rw [skip_ws_members_text m [] _ hm]
    have hround := from_json_string_member_round std_hash ignore_missing member_map m 125 tail
      result found (link_members std_hash ignore_missing member_map sem [m] result found)
      hm (by simp) (by
        simp only [link_members]
        cases hfind : find_link_func_member member_map (std_hash m.name) with
        | some f =>
          simp only
          rw [hset m (by simp) f hfind result _
            (follows_value_spaces _ 125 tail (by
              simp only [ObjectMember.well_formed, Bool.and_eq_true] at hm
              exact hm.2) (by decide))]
          rfl
        | none => cases ignore_missing <;> rfl)
    have hhead : m.text_from_name ++ 125 :: tail
        = 34 :: (m.name ++ 34 :: (m.w2 ++ 58 :: (m.w3 ++ (m.v.render ++ m.w4))) ++ 125 :: tail) := by
      simp [ObjectMember.text_from_name]
    simp only at hround ⊢
    rw [hhead] at hround ⊢
    rw [from_json_string_loop]
    simp only [show (34 : Nat) ≠ 125 by decide, if_false, hround]
    cases link_members std_hash ignore_missing member_map sem [m] result found with
    | error e => rfl
    | ok r =>
      simp [Except.map, Except.bind, from_json_string_loop]
  | cons m2 rest ih =>
    intro m fuel result found hwf hset hfuel
    obtain ⟨fuel, rfl⟩ : ∃ k, fuel = k + 1 := ⟨fuel - 1, by simp at hfuel; omega⟩
    have hm := hwf m (by simp)
    rw [skip_ws_members_text m (m2 :: rest) _ hm]
    have hround := from_json_string_member_round std_hash ignore_missing member_map m 44
      (members_text (m2 :: rest) ++ 125 :: tail)
      result found (link_members std_hash ignore_missing member_map sem [m] result found)
      hm (by simp) (by
        simp only [link_members]
        cases hfind : find_link_func_member member_map (std_hash m.name) with
        | some f =>
          simp only
          rw [hset m (by simp) f hfind result _
            (follows_value_spaces _ 44 _ (by
              simp only [ObjectMember.well_formed, Bool.and_eq_true] at hm
              exact hm.2) (by decide))]
          rfl
        | none => cases ignore_missing <;> rfl)
    have hhead : m.text_from_name ++ 44 :: (members_text (m2 :: rest) ++ 125 :: tail)
        = 34 :: (m.name ++ 34 :: (m.w2 ++ 58 :: (m.w3 ++ (m.v.render ++ m.w4)))
            ++ 44 :: (members_text (m2 :: rest) ++ 125 :: tail)) := by
      simp [ObjectMember.text_from_name]
    simp only at hround ⊢
    rw [hhead] at hround ⊢
    rw [from_json_string_loop]
    simp only [show (34 : Nat) ≠ 125 by decide, if_false, hround]
    rw [link_members_cons std_hash ignore_missing member_map sem m (m2 :: rest)]
    cases link_members std_hash ignore_missing member_map sem [m] result found with
    | error e => rfl
    | ok r =>
      simp only [Except.map, Except.bind, if_true]
      have := ih m2 fuel r.1 r.2 (fun x hx => hwf x (by simp [hx]))
        (fun x hx => hset x (by simp [hx])) (by simp at hfuel ⊢; omega)
      simpa [Except.map] using this
theorem members_text_length : ∀ ms : List ObjectMember, ms.length ≤ (members_text ms).length
  | [] => by simp
  | [m] => by
    simp [members_text, ObjectMember.text, ObjectMember.text_from_name]
    omega
  | m :: m2 :: rest => by
    have := members_text_length (m2 :: rest)
    simp only [members_text, ObjectMember.text, ObjectMember.text_from_name,
      List.length_append, List.length_cons] at this ⊢
    omega

/-- The parse of the text of a well-formed object whose linked members have values their
setters read: the members are taken in the order of the text, then the registry is searched
for a member that is not optional and was not found, and the view behind the closing brace
is returned with the object. -/
theorem from_json_string_object {Derived : Type} (std_hash : List Nat → Nat)
    (ignore_missing : Bool) (member_map : List (json_link_functions_info Derived))
    (sem : List Nat → JsonValue → Derived → Derived) (init : Derived)
    (w0 w tail : List Nat) (ms : List ObjectMember)
    (hw0 : all_spaces w0 = true) (hw : all_spaces w = true)
    (hwf : ∀ x ∈ ms, x.well_formed = true)
    (hset : ∀ x ∈ ms, ∀ f, find_link_func_member member_map (std_hash x.name) = some f →
      ∀ d Y, follows_value Y = true →
        f.setter d (x.v.render ++ Y) = .ok (Y, sem x.name x.v d)) :
    from_json_string std_hash ignore_missing member_map init (w0 ++ object_text w ms ++ tail)
      = (link_members std_hash ignore_missing member_map sem ms init []).bind
          (fun r => (check_members_found r.2 member_map).map (fun _ => (tail, r.1))) := by
  have hopen : skip_ws (w0 ++ object_text w ms ++ tail)
      = 123 :: ((if ms.isEmpty then w else members_text ms) ++ 125 :: tail) := by
    unfold skip_ws
    rw [List.append_assoc, skip_spaces_append _ _ hw0]
    simp only [object_text, List.cons_append, List.append_assoc, List.singleton_append]
    exact skip_spaces_cons_of_not_space _ _ (by decide)
  have hclose : skip_ws (125 :: tail) = 125 :: tail :=
    skip_spaces_cons_of_not_space _ _ (by decide)
  cases ms with
  | nil =>
    have hin : skip_ws (w ++ 125 :: tail) = 125 :: tail :=
      skip_ws_separator w 125 tail hw (by simp)
    simp only [from_json_string, hopen, List.isEmpty_cons, daw_throw_on_true, view_front,
      daw_throw_on_false, bind, Except.bind, beq_self_eq_true, if_true, List.drop_succ_cons,
      List.drop_zero, List.isEmpty_nil, hin, List.length_cons, from_json_string_loop,
      link_members, Bool.false_eq_true, if_false, hclose]
    cases check_members_found ([] : List Nat) member_map <;> rfl
  | cons m rest =>
    have hm := hwf m (by simp)
    have hlen : rest.length + 2
        ≤ (skip_ws (members_text (m :: rest) ++ 125 :: tail)).length + 1 := by
      rw [skip_ws_members_text m rest _ hm]
      cases rest with
      | nil =>
        simp [ObjectMember.text_from_name]
      | cons m2 r =>
        have := members_text_length (m2 :: r)
        simp only [ObjectMember.text_from_name, List.length_append, List.length_cons] at this ⊢
        omega
    have hloop := from_json_string_loop_members std_hash ignore_missing member_map sem tail
      rest m _ init [] hwf hset hlen
    simp only [from_json_string, hopen, List.isEmpty_cons, daw_throw_on_true, view_front,
      daw_throw_on_false, bind, Except.bind, beq_self_eq_true, if_true, List.drop_succ_cons,
      List.drop_zero, Bool.false_eq_true, if_false, hloop]
    cases link_members std_hash ignore_missing member_map sem (m :: rest) init [] with
    | error e => rfl
    | ok r =>
      simp only [Except.map, hclose, List.drop_succ_cons, List.drop_zero]

/-- C30: a `LinkedExample` whose string member holds `a"b` is written by `to_json_string`
with that quote as it is, and `from_json_string` on the text does not give the value back:
it raises. -/
theorem from_json_string_to_json_string_quote :
    to_json_string LinkedExample.link_map_abs ⟨-7, true, [97, 34, 98]⟩
        = [123, 34, 97, 34, 58, 45, 55, 44, 34, 98, 34, 58, 116, 114, 117, 101, 44,
            34, 115, 34, 58, 34, 97, 34, 98, 34, 125] ∧
      from_json_string example_hash false LinkedExample.link_map_abs ⟨0, false, []⟩
          (to_json_string LinkedExample.link_map_abs ⟨-7, true, [97, 34, 98]⟩)
        = .error "Invalid Json object.  No ',' character separating members" := by
  have h : to_json_string LinkedExample.link_map_abs ⟨-7, true, [97, 34, 98]⟩
      = [123, 34, 97, 34, 58, 45, 55, 44, 34, 98, 34, 58, 116, 114, 117, 101, 44,
          34, 115, 34, 58, 34, 97, 34, 98, 34, 125] := by
    simp [to_json_string, to_json_string_loop, LinkedExample.link_map_abs,
      LinkedExample.link_map_ab, link_json_integer_fn, link_json_boolean_fn,
      link_json_string_fn, canonical_int, canonical_nat]
  refine ⟨h, ?_⟩
  rw [h]
  rfl

/-- C28 as stated fails: with `ignore_missing( )` at its initial value `false`, the object
with the linked members `a`, `b` and a member `x` that is not linked raises, while the same
text without `x` parses. -/
theorem from_json_string_unlinked_raises :
    from_json_string example_hash false LinkedExample.link_map_ab ⟨0, false, []⟩
        [123, 34, 97, 34, 58, 45, 55, 44, 34, 120, 34, 58, 49, 44, 34, 98, 34, 58,
          116, 114, 117, 101, 125]
        = .error "Json string contains a member name 'x' that isn't linked" ∧
      from_json_string example_hash false LinkedExample.link_map_ab ⟨0, false, []⟩
        [123, 34, 97, 34, 58, 45, 55, 44, 34, 98, 34, 58, 116, 114, 117, 101, 125]
        = .ok ([], ⟨-7, true, []⟩) := by
  constructor <;> rfl
theorem find_link_func_member_mem {Derived : Type}
    (member_map : List (json_link_functions_info Derived)) (hash : Nat)
    (f : json_link_functions_info Derived)
    (h : find_link_func_member member_map hash = some f) : f ∈ member_map ∧ f.hash = hash := by
  unfold find_link_func_member at h
  refine ⟨List.mem_of_find?_eq_some h, ?_⟩
  have := List.find?_some h
  simp only [beq_iff_eq] at this
  exact this.symm

theorem find_link_func_member_linked {Derived : Type} (std_hash : List Nat → Nat)
    (member_map : List (json_link_functions_info Derived)) (name : List Nat)
    (hmap : ∀ f ∈ member_map, f.hash = std_hash f.name)
    (h : is_linked member_map name = true) :
    ∃ f, find_link_func_member member_map (std_hash name) = some f := by
  simp only [is_linked, List.any_eq_true, beq_iff_eq] at h
  obtain ⟨f, hf, hname⟩ := h
  have hsome : (find_link_func_member member_map (std_hash name)).isSome = true := by
    unfold find_link_func_member
    rw [List.find?_isSome]
    exact ⟨f, hf, by simp [hmap f hf, hname]⟩
  exact Option.isSome_iff_exists.1 hsome

theorem find_link_func_member_not_linked {Derived : Type} (std_hash : List Nat → Nat)
    (member_map : List (json_link_functions_info Derived)) (name : List Nat)
    (hmap : ∀ f ∈ member_map, f.hash = std_hash f.name)
    (hhash : ∀ f ∈ member_map, std_hash f.name = std_hash name → f.name = name)
    (h : is_linked member_map name = false) :
    find_link_func_member member_map (std_hash name) = none := by
  cases hfind : find_link_func_member member_map (std_hash name) with
  | none => rfl
  | some f =>
    obtain ⟨hf, hh⟩ := find_link_func_member_mem member_map _ f hfind
    have hname : f.name = name := hhash f hf (by rw [← hmap f hf, hh])
    have : is_linked member_map name = true := by
      simp only [is_linked, List.any_eq_true, beq_iff_eq]
      exact ⟨f, hf, hname⟩
    rw [h] at this
    exact absurd this (by decide)

theorem link_members_all_linked {Derived : Type} (std_hash : List Nat → Nat)
    (ignore_missing : Bool) (member_map : List (json_link_functions_info Derived))
    (sem : List Nat → JsonValue → Derived → Derived) :
    ∀ (ms : List ObjectMember) (result : Derived) (found : List Nat),
      (∀ x ∈ ms, ∃ f, find_link_func_member member_map (std_hash x.name) = some f) →
      link_members std_hash ignore_missing member_map sem ms result found
        = .ok (ms.foldl (fun d x => sem x.name x.v d) result,
            found ++ ms.map (fun x => std_hash x.name)) := by
  intro ms
  induction ms with
  | nil => intro result found _; simp [link_members]
  | cons m rest ih =>
    intro result found h
    obtain ⟨f, hf⟩ := h m (by simp)
    simp only [link_members, hf]
    rw [ih _ _ (fun x hx => h x (by simp [hx]))]
    simp

theorem check_members_found_cases {Derived : Type} (found : List Nat) :
    ∀ member_map : List (json_link_functions_info Derived),
      (∃ f ∈ member_map, f.is_optional = false ∧ f.hash ∉ found ∧
        check_members_found found member_map = .error (missing_message f.name)) ∨
      ((∀ f ∈ member_map, f.is_optional = false → f.hash ∈ found) ∧
        check_members_found found member_map = .ok ()) := by
  intro member_map
  induction member_map with
  | nil => right; simp [check_members_found]
  | cons g rest ih =>
    by_cases hg : g.is_optional = false ∧ g.hash ∉ found
    · left
      refine ⟨g, by simp, hg.1, hg.2, ?_⟩
      simp [check_members_found, hg.1, hg.2, missing_message]
    · have hstep : check_members_found found (g :: rest) = check_members_found found rest := by
        simp only [check_members_found]
        split
        · rename_i hc
          simp only [Bool.and_eq_true, Bool.not_eq_true', List.contains_eq_any_beq,
            List.any_eq_false, beq_iff_eq] at hc
          exfalso
          apply hg
          refine ⟨hc.1, fun hin => ?_⟩
          exact hc.2 _ hin rfl
        · rfl
      rcases ih with ⟨f, hf, h1, h2, h3⟩ | ⟨h1, h2⟩
      · left; exact ⟨f, by simp [hf], h1, h2, by rw [hstep, h3]⟩
      · right
        refine ⟨?_, by rw [hstep, h2]⟩
        intro f hf hopt
        rcases List.mem_cons.1 hf with h | h
        · subst h
          by_contra hnot
          exact hg ⟨hopt, hnot⟩
        · exact h1 f h hopt

theorem check_members_found_congr {Derived : Type} (found1 found2 : List Nat)
    (h : ∀ x, x ∈ found1 ↔ x ∈ found2) :
    ∀ member_map : List (json_link_functions_info Derived),
      check_members_found found1 member_map = check_members_found found2 member_map := by
  intro member_map
  induction member_map with
  | nil => rfl
  | cons g rest ih =>
    have hc : found1.contains g.hash = found2.contains g.hash := by
      rw [Bool.eq_iff_iff]
      simpa using h g.hash
    simp only [check_members_found, hc, ih]
theorem hash_found_iff_name {Derived : Type} (std_hash : List Nat → Nat)
    (member_map : List (json_link_functions_info Derived)) (ms : List ObjectMember)
    (hmap : ∀ f ∈ member_map, f.hash = std_hash f.name)
    (hhash : ∀ f ∈ member_map, ∀ x ∈ ms, std_hash f.name = std_hash x.name → f.name = x.name)
    (f : json_link_functions_info Derived) (hf : f ∈ member_map) :
    f.hash ∈ ms.map (fun x => std_hash x.name) ↔ f.name ∈ ms.map (fun x => x.name) := by
  simp only [List.mem_map]
  constructor
  · rintro ⟨x, hx, hh⟩
    exact ⟨x, hx, (hhash f hf x hx (by rw [← hmap f hf, hh])).symm⟩
  · rintro ⟨x, hx, hn⟩
    exact ⟨x, hx, by rw [hmap f hf, hn]⟩

/-- C27: on the text of a well-formed object whose member names are all linked (the
values being what the linked setters read, and no two of the names having one hash),
`from_json_string` raises `Missing non-optional member` for a linked member that is not
optional and does not occur among the names of the object when there is one, and returns
the object the setters have set, with the view behind the closing brace, when there is
none. -/
theorem from_json_string_missing_member {Derived : Type} (std_hash : List Nat → Nat)
    (ignore_missing : Bool) (member_map : List (json_link_functions_info Derived))
    (sem : List Nat → JsonValue → Derived → Derived) (init : Derived)
    (w0 w tail : List Nat) (ms : List ObjectMember)
    (hw0 : all_spaces w0 = true) (hw : all_spaces w = true)
    (hwf : ∀ x ∈ ms, x.well_formed = true)
    (hmap : ∀ f ∈ member_map, f.hash = std_hash f.name)
    (hhash : ∀ f ∈ member_map, ∀ x ∈ ms, std_hash f.name = std_hash x.name → f.name = x.name)
    (hlinked : ∀ x ∈ ms, is_linked member_map x.name = true)
    (hset : ∀ x ∈ ms, ∀ f, find_link_func_member member_map (std_hash x.name) = some f →
      ∀ d Y, follows_value Y = true →
        f.setter d (x.v.render ++ Y) = .ok (Y, sem x.name x.v d)) :
    ((∃ f ∈ member_map, f.is_optional = false ∧ f.name ∉ ms.map (fun x => x.name)) →
      ∃ f ∈ member_map, f.is_optional = false ∧ f.name ∉ ms.map (fun x => x.name) ∧
        from_json_string std_hash ignore_missing member_map init
            (w0 ++ object_text w ms ++ tail)
          = .error (missing_message f.name)) ∧
    ((∀ f ∈ member_map, f.is_optional = false → f.name ∈ ms.map (fun x => x.name)) →
      from_json_string std_hash ignore_missing member_map init
          (w0 ++ object_text w ms ++ tail)
        = .ok (tail, ms.foldl (fun d x => sem x.name x.v d) init)) := by
  have hfound : ∀ x ∈ ms, ∃ f, find_link_func_member member_map (std_hash x.name) = some f :=
    fun x hx => find_link_func_member_linked std_hash member_map x.name hmap (hlinked x hx)
  have hparse := from_json_string_object std_hash ignore_missing member_map sem init w0 w tail
    ms hw0 hw hwf hset
  rw [link_members_all_linked std_hash ignore_missing member_map sem ms init [] hfound]
    at hparse
  simp only [Except.bind, List.nil_append] at hparse
  have hiff := hash_found_iff_name std_hash member_map ms hmap hhash
  rcases check_members_found_cases (ms.map (fun x => std_hash x.name)) member_map with
    ⟨f, hf, hopt, hnot, herr⟩ | ⟨hall, hok⟩
  · have hname : f.name ∉ ms.map (fun x => x.name) := fun h => hnot ((hiff f hf).2 h)
    constructor
    · intro _
      exact ⟨f, hf, hopt, hname, by rw [hparse, herr]; rfl⟩
    · intro hpresent
      exact absurd (hpresent f hf hopt) hname
  · constructor
    · rintro ⟨f, hf, hopt, hname⟩
      exact absurd ((hiff f hf).1 (hall f hf hopt)) hname
    · intro _
      rw [hparse, hok]; rfl
/-- The setter `link_json_boolean_fn` registers reads the literals `true` and `false`. -/
theorem link_json_boolean_fn_setter {Derived : Type} (std_hash : List Nat → Nat)
    (member_name : List Nat) (setter : Derived → Bool → Derived) (getter : Derived → Bool)
    (b : Bool) (d : Derived) (Y : List Nat) :
    (link_json_boolean_fn std_hash member_name setter getter).setter d
        ((JsonValue.lit (if b then [116, 114, 117, 101] else [102, 97, 108, 115, 101])).render
          ++ Y)
      = .ok (Y, setter d b) := by
  cases b <;> simp [link_json_boolean_fn, parse_json_boolean, JsonValue.render, Except.map]

/-- The setter `link_json_string_fn` registers reads a string and stores the bytes between
its quotes. -/
theorem link_json_string_fn_setter {Derived : Type} (std_hash : List Nat → Nat)
    (member_name : List Nat) (setter : Derived → List Nat → Derived)
    (getter : Derived → List Nat) (body : List Nat) (d : Derived) (Y : List Nat)
    (hb : name_body false body = true) :
    (link_json_string_fn std_hash member_name setter getter).setter d
        ((JsonValue.str body).render ++ Y)
      = .ok (Y, setter d body) := by
  have e : (JsonValue.str body).render ++ Y = 34 :: (body ++ 34 :: Y) := by
    simp [JsonValue.render]
  rw [e]
  simp [link_json_string_fn, parse_json_string_body body Y hb, Except.map]

theorem from_json_string_missing_member_witness :
    ∃ f ∈ LinkedExample.link_map_ab, f.is_optional = false ∧
      f.name ∉ [(⟨[], [98], [], [], .lit [116, 114, 117, 101], []⟩ : ObjectMember)].map
        (fun x => x.name) ∧
      from_json_string example_hash false LinkedExample.link_map_ab ⟨0, false, []⟩
          ([] ++ object_text [] [⟨[], [98], [], [], .lit [116, 114, 117, 101], []⟩] ++ [])
        = .error (missing_message f.name) :=
  (from_json_string_missing_member example_hash false LinkedExample.link_map_ab
    (fun _ _ d => { d with b := true }) ⟨0, false, []⟩ [] [] []
    [⟨[], [98], [], [], .lit [116, 114, 117, 101], []⟩] rfl rfl (by decide)
    (by simp [LinkedExample.link_map_ab, link_json_integer_fn, link_json_boolean_fn])
    (by simp [LinkedExample.link_map_ab, link_json_integer_fn, link_json_boolean_fn,
      example_hash])
    (by simp [is_linked, LinkedExample.link_map_ab, link_json_integer_fn,
      link_json_boolean_fn])
    (by
      intro x hx f hf d Y _
      simp only [List.mem_singleton] at hx
      subst hx
      have hfind : find_link_func_member LinkedExample.link_map_ab (example_hash [98])
          = some (link_json_boolean_fn example_hash [98] (fun obj v => { obj with b := v })
              (fun obj => obj.b)) := rfl
      rw [hfind] at hf
      cases hf
      exact link_json_boolean_fn_setter example_hash [98] _ _ true d Y)).1
    ⟨link_json_integer_fn example_hash [97] (fun obj v => { obj with a := v })
        (fun obj => obj.a),
      by simp [LinkedExample.link_map_ab], rfl, by simp [link_json_integer_fn]⟩
theorem link_members_filter_linked {Derived : Type} (std_hash : List Nat → Nat)
    (member_map : List (json_link_functions_info Derived))
    (sem : List Nat → JsonValue → Derived → Derived)
    (hmap : ∀ f ∈ member_map, f.hash = std_hash f.name) :
    ∀ (ms : List ObjectMember) (result : Derived) (found : List Nat),
      (∀ f ∈ member_map, ∀ x ∈ ms, std_hash f.name = std_hash x.name → f.name = x.name) →
      link_members std_hash true member_map sem ms result found
        = link_members std_hash true member_map sem
            (ms.filter (fun x => is_linked member_map x.name)) result found := by
  intro ms
  induction ms with
  | nil => intro _ _ _; rfl
  | cons m rest ih =>
    intro result found hhash
    have hrest : ∀ f ∈ member_map, ∀ x ∈ rest,
        std_hash f.name = std_hash x.name → f.name = x.name :=
      fun f hf x hx => hhash f hf x (by simp [hx])
    cases hl : is_linked member_map m.name with
    | true =>
      obtain ⟨f, hf⟩ := find_link_func_member_linked std_hash member_map m.name hmap hl
      simp only [List.filter_cons, hl, if_true, link_members, hf]
      exact ih _ _ hrest
    | false =>
      have hf := find_link_func_member_not_linked std_hash member_map m.name hmap
        (fun f hf => hhash f hf m (by simp)) hl
      simp only [List.filter_cons, hl, Bool.false_eq_true, if_false, link_members, hf,
        Bool.not_true]
      exact ih _ _ hrest

theorem link_members_strict {Derived : Type} (std_hash : List Nat → Nat)
    (member_map : List (json_link_functions_info Derived))
    (sem : List Nat → JsonValue → Derived → Derived)
    (hmap : ∀ f ∈ member_map, f.hash = std_hash f.name) :
    ∀ (ms : List ObjectMember),
      (∀ f ∈ member_map, ∀ x ∈ ms, std_hash f.name = std_hash x.name → f.name = x.name) →
      (∃ x ∈ ms, is_linked member_map x.name = false) →
      ∃ x ∈ ms, is_linked member_map x.name = false ∧ ∀ (result : Derived) (found : List Nat),
        link_members std_hash false member_map sem ms result found
          = .error (not_linked_message x.name) := by
  intro ms
  induction ms with
  | nil => intro _ h; simp at h
  | cons m rest ih =>
    intro hhash hex
    cases hl : is_linked member_map m.name with
    | false =>
      have hf := find_link_func_member_not_linked std_hash member_map m.name hmap
        (fun f hf => hhash f hf m (by simp)) hl
      exact ⟨m, by simp, hl, fun result found => by simp [link_members, hf]⟩
    | true =>
      obtain ⟨f, hf⟩ := find_link_func_member_linked std_hash member_map m.name hmap hl
      have hex2 : ∃ x ∈ rest, is_linked member_map x.name = false := by
        obtain ⟨x, hx, hxl⟩ := hex
        rcases List.mem_cons.1 hx with h | h
        · subst h; rw [hl] at hxl; exact absurd hxl (by decide)
        · exact ⟨x, h, hxl⟩
      obtain ⟨x, hx, hxl, hall⟩ := ih (fun f hf x hx => hhash f hf x (by simp [hx])) hex2
      exact ⟨x, by simp [hx], hxl, fun result found => by simp [link_members, hf, hall]⟩

/-- C28, amended: with `ignore_missing( )` set, `from_json_string` on a well-formed object
gives what it gives on the same text without the members whose names are not linked; with
`ignore_missing( )` at its initial value `false`, an object with such a member raises
`Json string contains a member name ... that isn't linked`. -/
theorem from_json_string_unlinked_members {Derived : Type} (std_hash : List Nat → Nat)
    (member_map : List (json_link_functions_info Derived))
    (sem : List Nat → JsonValue → Derived → Derived) (init : Derived)
    (w0 w tail : List Nat) (ms : List ObjectMember)
    (hw0 : all_spaces w0 = true) (hw : all_spaces w = true)
    (hwf : ∀ x ∈ ms, x.well_formed = true)
    (hmap : ∀ f ∈ member_map, f.hash = std_hash f.name)
    (hhash : ∀ f ∈ member_map, ∀ x ∈ ms, std_hash f.name = std_hash x.name → f.name = x.name)
    (hset : ∀ x ∈ ms, ∀ f, find_link_func_member member_map (std_hash x.name) = some f →
      ∀ d Y, follows_value Y = true →
        f.setter d (x.v.render ++ Y) = .ok (Y, sem x.name x.v d)) :
    from_json_string std_hash true member_map init (w0 ++ object_text w ms ++ tail)
        = from_json_string std_hash true member_map init
            (w0 ++ object_text w (ms.filter (fun x => is_linked member_map x.name)) ++ tail) ∧
      ((∃ x ∈ ms, is_linked member_map x.name = false) →
        ∃ x ∈ ms, is_linked member_map x.name = false ∧
          from_json_string std_hash false member_map init (w0 ++ object_text w ms ++ tail)
            = .error (not_linked_message x.name)) := by
  constructor
  · rw [from_json_string_object std_hash true member_map sem init w0 w tail ms hw0 hw hwf hset,
      from_json_string_object std_hash true member_map sem init w0 w tail
        (ms.filter (fun x => is_linked member_map x.name)) hw0 hw
        (fun x hx => hwf x (List.mem_of_mem_filter hx))
        (fun x hx => hset x (List.mem_of_mem_filter hx)),
      link_members_filter_linked std_hash member_map sem hmap ms init [] hhash]
  · intro hex
    obtain ⟨x, hx, hxl, hall⟩ := link_members_strict std_hash member_map sem hmap ms hhash hex
    refine ⟨x, hx, hxl, ?_⟩
    rw [from_json_string_object std_hash false member_map sem init w0 w tail ms hw0 hw hwf
      hset, hall]
    rfl

theorem from_json_string_unlinked_members_witness :
    from_json_string example_hash true LinkedExample.link_map_b ⟨0, false, []⟩
        ([32] ++ object_text [] LinkedExample.members_xb ++ [])
        = from_json_string example_hash true LinkedExample.link_map_b ⟨0, false, []⟩
            ([32] ++ object_text [] (LinkedExample.members_xb.filter
              (fun x => is_linked LinkedExample.link_map_b x.name)) ++ []) ∧
      ((∃ x ∈ LinkedExample.members_xb, is_linked LinkedExample.link_map_b x.name = false) →
        ∃ x ∈ LinkedExample.members_xb, is_linked LinkedExample.link_map_b x.name = false ∧
          from_json_string example_hash false LinkedExample.link_map_b ⟨0, false, []⟩
              ([32] ++ object_text [] LinkedExample.members_xb ++ [])
            = .error (not_linked_message x.name)) :=
  from_json_string_unlinked_members example_hash LinkedExample.link_map_b
    (fun _ _ d => { d with b := true }) ⟨0, false, []⟩ [32] [] [] LinkedExample.members_xb
    rfl rfl (by decide)
    (by simp [LinkedExample.link_map_b, link_json_boolean_fn])
    (by simp [LinkedExample.link_map_b, LinkedExample.members_xb, link_json_boolean_fn,
      example_hash])
    (by
      intro x hx f hf d Y _
      simp only [LinkedExample.members_xb, List.mem_cons, List.mem_singleton,
        List.not_mem_nil, or_false] at hx
      rcases hx with hx | hx
      · subst hx
        have hfind : find_link_func_member LinkedExample.link_map_b (example_hash [120])
            = none := rfl
        rw [hfind] at hf
        cases hf
      · subst hx
        have hfind : find_link_func_member LinkedExample.link_map_b (example_hash [98])
            = some (link_json_boolean_fn example_hash [98]
                (fun obj v => { obj with b := v }) (fun obj => obj.b)) := rfl
        rw [hfind] at hf
        cases hf
        exact link_json_boolean_fn_setter example_hash [98] _ _ true d Y)
/-- C29: two well-formed object texts whose members are the same names and values in
another order (pairwise distinct linked names, values the linked setters read, setters of
different members setting different parts of the object) give the same result; and the
object with `b = true` written before `a = -7` parses to `a = -7`, `b = true`. -/
theorem from_json_string_permutation {Derived : Type} (std_hash : List Nat → Nat)
    (ignore_missing : Bool) (member_map : List (json_link_functions_info Derived))
    (sem : List Nat → JsonValue → Derived → Derived) (init : Derived)
    (w0 w w0b wb tail : List Nat) (ms1 ms2 : List ObjectMember)
    (hw0 : all_spaces w0 = true) (hw : all_spaces w = true)
    (hw0b : all_spaces w0b = true) (hwb : all_spaces wb = true)
    (hwf1 : ∀ x ∈ ms1, x.well_formed = true) (hwf2 : ∀ x ∈ ms2, x.well_formed = true)
    (hperm : (ms1.map (fun x => (x.name, x.v))).Perm (ms2.map (fun x => (x.name, x.v))))
    (hdistinct : (ms1.map (fun x => x.name)).Nodup)
    (hmap : ∀ f ∈ member_map, f.hash = std_hash f.name)
    (hlinked : ∀ x ∈ ms1, is_linked member_map x.name = true)
    (hset : ∀ x ∈ ms1, ∀ f, find_link_func_member member_map (std_hash x.name) = some f →
      ∀ d Y, follows_value Y = true →
        f.setter d (x.v.render ++ Y) = .ok (Y, sem x.name x.v d))
    (hcomm : ∀ x ∈ ms1, ∀ y ∈ ms1, x.name ≠ y.name →
      ∀ d, sem y.name y.v (sem x.name x.v d) = sem x.name x.v (sem y.name y.v d)) :
    from_json_string std_hash ignore_missing member_map init
        (w0 ++ object_text w ms1 ++ tail)
      = from_json_string std_hash ignore_missing member_map init
        (w0b ++ object_text wb ms2 ++ tail) ∧
    ∀ init2 : LinkedExample,
      from_json_string example_hash false LinkedExample.link_map_ab init2
        [123, 34, 98, 34, 58, 116, 114, 117, 101, 44, 34, 97, 34, 58, 45, 55, 125]
      = .ok ([], ⟨-7, true, init2.s⟩) := by
  refine ⟨?_, fun _ => rfl⟩
  have hpair : ∀ x ∈ ms2, ∃ y ∈ ms1, y.name = x.name ∧ y.v = x.v := by
    intro x hx
    have hmem : (x.name, x.v) ∈ ms1.map (fun x => (x.name, x.v)) :=
      hperm.symm.subset (List.mem_map_of_mem _ hx)
    obtain ⟨y, hy, hyx⟩ := List.mem_map.1 hmem
    simp only [Prod.mk.injEq] at hyx
    exact ⟨y, hy, hyx.1, hyx.2⟩
  have hset2 : ∀ x ∈ ms2, ∀ f, find_link_func_member member_map (std_hash x.name) = some f →
      ∀ d Y, follows_value Y = true →
        f.setter d (x.v.render ++ Y) = .ok (Y, sem x.name x.v d) := by
    intro x hx f hf d Y hY
    obtain ⟨y, hy, hn, hv⟩ := hpair x hx
    rw [← hn, ← hv]
    exact hset y hy f (by rw [hn]; exact hf) d Y hY
  have hfound1 : ∀ x ∈ ms1, ∃ f, find_link_func_member member_map (std_hash x.name) = some f :=
    fun x hx => find_link_func_member_linked std_hash member_map x.name hmap (hlinked x hx)
  have hfound2 : ∀ x ∈ ms2, ∃ f, find_link_func_member member_map (std_hash x.name) = some f := by
    intro x hx
    obtain ⟨y, hy, hn, _⟩ := hpair x hx
    rw [← hn]
    exact hfound1 y hy
  rw [from_json_string_object std_hash ignore_missing member_map sem init w0 w tail ms1
      hw0 hw hwf1 hset,
    from_json_string_object std_hash ignore_missing member_map sem init w0b wb tail ms2
      hw0b hwb hwf2 hset2,
    link_members_all_linked std_hash ignore_missing member_map sem ms1 init [] hfound1,
    link_members_all_linked std_hash ignore_missing member_map sem ms2 init [] hfound2]
  have hfold : ∀ ms : List ObjectMember, ms.foldl (fun d x => sem x.name x.v d) init
      = (ms.map (fun x => (x.name, x.v))).foldl (fun d p => sem p.1 p.2 d) init := by
    intro ms; rw [List.foldl_map]
  have hvalue : ms1.foldl (fun d x => sem x.name x.v d) init
      = ms2.foldl (fun d x => sem x.name x.v d) init := by
    rw [hfold ms1, hfold ms2]
    apply List.Perm.foldl_eq' hperm
    intro p hp q hq d
    obtain ⟨x, hx, rfl⟩ := List.mem_map.1 hp
    obtain ⟨y, hy, rfl⟩ := List.mem_map.1 hq
    by_cases hxy : x.name = y.name
    · have hidx : x = y := by
        by_contra hne
        have hnd := hdistinct
        rw [List.nodup_map_iff_inj_on (List.Nodup.of_map _ hdistinct)] at hnd
        exact hne (hnd x hx y hy hxy)
      subst hidx
      rfl
    · exact hcomm x hx y hy hxy d
  have hhashes : ∀ h, h ∈ ms1.map (fun x => std_hash x.name)
      ↔ h ∈ ms2.map (fun x => std_hash x.name) := by
    have hp2 := hperm.map (fun p => std_hash p.1)
    simp only [List.map_map] at hp2
    intro h
    exact hp2.mem_iff
  simp only [Except.bind, List.nil_append, hvalue,
    check_members_found_congr _ _ hhashes member_map]

theorem from_json_string_permutation_witness :
    from_json_string example_hash false LinkedExample.link_map_bs ⟨0, false, []⟩
        ([] ++ object_text [] LinkedExample.members_bs ++ [])
      = from_json_string example_hash false LinkedExample.link_map_bs ⟨0, false, []⟩
        ([32] ++ object_text [] LinkedExample.members_sb ++ []) ∧
    ∀ init2 : LinkedExample,
      from_json_string example_hash false LinkedExample.link_map_ab init2
        [123, 34, 98, 34, 58, 116, 114, 117, 101, 44, 34, 97, 34, 58, 45, 55, 125]
      = .ok ([], ⟨-7, true, init2.s⟩) :=
  from_json_string_permutation example_hash false LinkedExample.link_map_bs
    (fun name v d => match v with
      | .str body => { d with s := body }
      | _ => { d with b := true })
    ⟨0, false, []⟩ [] [] [32] [] []
    LinkedExample.members_bs LinkedExample.members_sb rfl rfl rfl rfl (by decide) (by decide)
    (List.Perm.swap _ _ [])
    (by decide)
    (by simp [LinkedExample.link_map_bs, link_json_boolean_fn, link_json_string_fn])
    (by simp [is_linked, LinkedExample.link_map_bs, LinkedExample.members_bs,
      link_json_boolean_fn, link_json_string_fn])
    (by
      intro x hx f hf d Y _
      simp only [LinkedExample.members_bs, List.mem_cons, List.mem_singleton,
        List.not_mem_nil, or_false] at hx
      rcases hx with hx | hx
      · subst hx
        have hfind : find_link_func_member LinkedExample.link_map_bs (example_hash [98])
            = some (link_json_boolean_fn example_hash [98]
                (fun obj v => { obj with b := v }) (fun obj => obj.b)) := rfl
        rw [hfind] at hf
        cases hf
        exact link_json_boolean_fn_setter example_hash [98] _ _ true d Y
      · subst hx
        have hfind : find_link_func_member LinkedExample.link_map_bs (example_hash [115])
            = some (link_json_string_fn example_hash [115]
                (fun obj v => { obj with s := v }) (fun obj => obj.s)) := rfl
        rw [hfind] at hf
        cases hf
        exact link_json_string_fn_setter example_hash [115] _ _ [104, 105] d Y rfl)
    (by
      intro x hx y hy _ d
      simp only [LinkedExample.members_bs, List.mem_cons, List.mem_singleton,
        List.not_mem_nil, or_false] at hx hy
      rcases hx with hx | hx <;> rcases hy with hy | hy <;> subst hx <;> subst hy <;> rfl)

theorem members_text_render : ∀ (rest : List ObjectMember) (m : ObjectMember),
    members_text (m :: rest) = (JsonMembers.of_list m rest).render
  | [], m => by
    simp [members_text, JsonMembers.of_list, JsonMembers.render, ObjectMember.text,
      ObjectMember.text_from_name]
  | m2 :: rest, m => by
    have ih := members_text_render rest m2
    simp only [members_text, JsonMembers.of_list, JsonMembers.render, ObjectMember.text,
      ObjectMember.text_from_name] at ih ⊢
    rw [ih]
    simp

/-- The text of an object with the given members is the text of the object as a tree. -/
theorem object_text_render (w : List Nat) (ms : List ObjectMember) :
    object_text w ms = (JsonValue.of_members w ms).render := by
  cases ms with
  | nil => simp [object_text, JsonValue.of_members, JsonValue.render]
  | cons m rest =>
    simp [object_text, JsonValue.of_members, JsonValue.render, members_text_render rest m]

theorem of_list_well_formed : ∀ (rest : List ObjectMember) (m : ObjectMember),
    (∀ x ∈ m :: rest, x.well_formed = true) → (JsonMembers.of_list m rest).well_formed = true
  | [], m, h => by
    have hm := h m (by simp)
    simpa [JsonMembers.of_list, JsonMembers.well_formed, ObjectMember.well_formed] using hm
  | m2 :: rest, m, h => by
    have hm := h m (by simp)
    have ih := of_list_well_formed rest m2 (fun x hx => h x (by simp [hx]))
    simp only [ObjectMember.well_formed, Bool.and_eq_true] at hm
    simp only [JsonMembers.of_list, JsonMembers.well_formed, Bool.and_eq_true]
    exact ⟨hm, ih⟩

/-- An object with well-formed members is well-formed JSON. -/
theorem of_members_well_formed (w : List Nat) (ms : List ObjectMember)
    (hw : all_spaces w = true) (h : ∀ x ∈ ms, x.well_formed = true) :
    (JsonValue.of_members w ms).well_formed = true := by
  cases ms with
  | nil => simpa [JsonValue.of_members, JsonValue.well_formed] using hw
  | cons m rest =>
    simpa [JsonValue.of_members, JsonValue.well_formed] using of_list_well_formed rest m h

theorem takeWhile_digits_follows (l Y : List Nat) (hl : ∀ c ∈ l, 48 ≤ c ∧ c ≤ 57)
    (hY : follows_value Y = true) :
    (l ++ Y).takeWhile (fun c => decide (48 ≤ c ∧ c ≤ 57)) = l := by
  cases Y with
  | nil =>
    rw [List.append_nil, List.takeWhile_eq_self_iff]
    intro c hc
    simpa using hl c hc
  | cons b t =>
    apply takeWhile_append_stop
    · intro c hc; simpa using hl c hc
    · have hnb : is_number_byte b = false := by simpa [follows_value] using hY
      simp only [decide_eq_false_iff_not]
      intro hd
      have : is_number_byte b = true := by simp [is_number_byte, hd]
      rw [hnb] at this
      exact absurd this (by decide)

/-- The `Signed` parse of the decimal text of an integer of the target type gives the
integer and stops behind the text. -/
theorem parse_value_Signed_text (bits : Nat) (n : Int) (checked : Bool) (Y : List Nat)
    (hlo : -(2 : Int) ^ (bits - 1) ≤ n) (hhi : n < (2 : Int) ^ (bits - 1))
    (hY : follows_value Y = true) :
    parse_value_Signed bits ⟨checked, canonical_int n ++ Y⟩ = .ok (n, ⟨checked, Y⟩) := by
  obtain ⟨b, rest, hb, hb1, hb2⟩ := canonical_nat_head n.natAbs
  have htw : (canonical_nat n.natAbs ++ Y).takeWhile
      (fun c => decide (48 ≤ c ∧ c ≤ 57)) = canonical_nat n.natAbs :=
    takeWhile_digits_follows _ Y (canonical_nat_mem _) hY
  have hne : (canonical_nat n.natAbs).isEmpty = false := by simp [hb]
  by_cases hneg : n < 0
  · have hval : -((n.natAbs : Nat) : Int) = n := by omega
    simp only [parse_value_Signed, canonical_int, hneg, if_true, Range.front_is,
      List.cons_append, beq_self_eq_true, List.drop_succ_cons, List.drop_zero, htw, hne,
      Bool.false_eq_true, if_false, canonical_nat_value, hval, hlo, hhi, and_self,
      List.drop_left]
  · have hval : ((n.natAbs : Nat) : Int) = n := by omega
    have h45 : (b == 45) = false := by
      simp only [beq_eq_false_iff_ne, ne_eq]; omega
    have hfront : Range.front_is ⟨checked, canonical_nat n.natAbs ++ Y⟩ 45 = false := by
      simp [Range.front_is, hb, h45]
    simp only [parse_value_Signed, canonical_int, hneg, if_false, hfront,
      Bool.false_eq_true, htw, hne, canonical_nat_value, hval, hlo, hhi, and_self, if_true,
      List.drop_left]

/-- The setter `link_json_integer_fn` registers reads the decimal text of an `int64_t`. -/
theorem link_json_integer_fn_setter {Derived : Type} (std_hash : List Nat → Nat)
    (member_name : List Nat) (setter : Derived → Int → Derived) (getter : Derived → Int)
    (n : Int) (d : Derived) (Y : List Nat)
    (hlo : -(2 : Int) ^ 63 ≤ n) (hhi : n < (2 : Int) ^ 63) (hY : follows_value Y = true) :
    (link_json_integer_fn std_hash member_name setter getter).setter d
        ((JsonValue.num (canonical_int n)).render ++ Y)
      = .ok (Y, setter d n) := by
  simp [link_json_integer_fn, parse_json_integer, JsonValue.render,
    parse_value_Signed_text 64 n true Y hlo hhi hY, Except.map]

/-! ## The linking class: `to_json_string` and the containers -/

theorem to_json_string_loop_entries {Derived : Type} (obj : Derived) :
    ∀ (member_map : List (json_link_functions_info Derived)) (is_first : Bool)
      (result : List Nat),
      to_json_string_loop obj member_map is_first result
        = result ++ (if is_first then
            comma_separated (member_map.map (fun f => member_entry f.name (f.getter obj)))
          else ((member_map.map (fun f => member_entry f.name (f.getter obj))).map
            (fun x => 44 :: x)).flatten) := by
  intro member_map
  induction member_map with
  | nil => intro is_first result; cases is_first <;> simp [to_json_string_loop, comma_separated]
  | cons f rest ih =>
    intro is_first result
    simp only [to_json_string_loop, ih, Bool.false_eq_true, if_false]
    cases is_first <;> simp [comma_separated_cons, member_entry]

/-- C31: `to_json_string( obj )` is `{`, one entry `"name":value` for each linked member in
the order of the registry, with one comma between two neighbours and none before the first
or behind the last, and `}`; with no linked member it is `{}`. -/
theorem to_json_string_entries {Derived : Type}
    (member_map : List (json_link_functions_info Derived)) (obj : Derived) :
    to_json_string member_map obj
        = [123] ++ comma_separated
            (member_map.map (fun f => member_entry f.name (f.getter obj))) ++ [125] ∧
      to_json_string ([] : List (json_link_functions_info Derived)) obj = [123, 125] := by
  constructor
  · simp [to_json_string, to_json_string_loop_entries]
  · rfl

theorem to_json_string_Container_cons {Derived : Type}
    (member_map : List (json_link_functions_info Derived)) (first : Derived)
    (rest : List Derived) :
    to_json_string_Container member_map (first :: rest)
      = [91] ++ comma_separated
          ((first :: first :: rest).map (to_json_string member_map)) ++ [93] := by
  have hfold : ∀ (l : List Derived) (r : List Nat),
      l.foldl (fun r x => r ++ (44 :: to_json_string member_map x)) r
        = r ++ ((l.map (to_json_string member_map)).map (fun x => 44 :: x)).flatten := by
    intro l
    induction l with
    | nil => intro r; simp
    | cons x l ih => intro r; simp [ih]
  simp [to_json_string_Container, hfold, comma_separated_cons]

/-- C32: for the container that holds the one object `b = true`, `to_json_string` writes
the object twice, `[{"b":true},{"b":true}]`, and `from_json_array_string` reads two
elements back from it. -/
theorem to_json_string_Container_first_twice :
    to_json_string_Container LinkedExample.link_map_b [⟨0, true, []⟩]
        = [91, 123, 34, 98, 34, 58, 116, 114, 117, 101, 125, 44,
            123, 34, 98, 34, 58, 116, 114, 117, 101, 125, 93] ∧
      from_json_array_string example_hash false LinkedExample.link_map_b ⟨0, false, []⟩
          (to_json_string_Container LinkedExample.link_map_b [⟨0, true, []⟩])
        = .ok [⟨0, true, []⟩, ⟨0, true, []⟩] := by
  constructor <;> rfl

/-- The text `impl::container_to_string` returns for a container that is not empty. -/
theorem container_to_string_cons {α : Type} (to_string : α → List Nat) (first : α)
    (rest : List α) :
    container_to_string to_string (first :: rest)
      = .ok ([91] ++ comma_separated ((first :: rest).map to_string) ++ [93]) := by
  have hfold : ∀ (l : List α) (r : List Nat),
      l.foldl (fun r x => r ++ 44 :: to_string x) r
        = r ++ ((l.map to_string).map (fun x => 44 :: x)).flatten := by
    intro l
    induction l with
    | nil => intro r; simp
    | cons x l ih => intro r; simp [ih]
  simp [container_to_string, hfold, comma_separated_cons]

/-- C34: on an empty container `impl::container_to_string` reads `*it` through the end
iterator and does not return `[]`; a container that is not empty gives `[`, the texts of
the elements with commas between them, and `]`. -/
theorem container_to_string_empty_reads_end :
    container_to_string canonical_int ([] : List Int)
        = .error "dereference of the end iterator of an empty container" ∧
      container_to_string (fun (b : Nat) => [48 + b]) [1, 2, 3]
        = .ok [91, 49, 44, 50, 44, 51, 93] := by
  constructor <;> rfl

/-! ## Integers: the size of the scratch buffer -/

/-- C35: the scratch buffer has `digits10` elements, 9 for 32 bits and 18 for 64 bits
signed, and the values with one digit more do not fit: for `2147483647`, the most negative
32-bit value, `4294967295` and `9223372036854775807` a store goes behind the end of
`buff`, while `999999999` is written. -/
theorem to_string_Signed_int32_max_overruns_buff :
    digits10 31 = 9 ∧ digits10 63 = 18 ∧
    to_string_Signed 31 [] 2147483647 = .error "store past the end of buff" ∧
    to_string_Signed 31 [] (-2147483648) = .error "store past the end of buff" ∧
    to_string_Unsigned 32 [] 4294967295 = .error "store past the end of buff" ∧
    to_string_Signed 63 [] 9223372036854775807 = .error "store past the end of buff" ∧
    to_string_Signed 31 [] 999999999 = .ok [57, 57, 57, 57, 57, 57, 57, 57, 57] := by
  refine ⟨rfl, rfl, rfl, rfl, rfl, rfl, rfl⟩

/-! ## Raw strings -/

theorem copy_raw_DisallowHigh_ok (value : List Nat) (hb : ∀ c ∈ value, c < 256)
    (hr : ∀ c ∈ value, 0x20 ≤ c ∧ c ≤ 0x7F) :
    ∀ it, copy_raw .DisallowHigh value it = .ok (it ++ value) := by
  induction value with
  | nil => intro it; simp [copy_raw]
  | cons c cs ih =>
    intro it
    have hc := hr c (by simp)
    have hc256 : c % 256 = c := Nat.mod_eq_of_lt (hb c (by simp))
    simp [copy_raw, hc256, hc, ih (fun x hx => hb x (by simp [hx]))
      (fun x hx => hr x (by simp [hx]))]

theorem copy_raw_DisallowHigh_error (value : List Nat) (hb : ∀ c ∈ value, c < 256)
    (hr : ∃ c ∈ value, ¬ (0x20 ≤ c ∧ c ≤ 0x7F)) :
    ∀ it, copy_raw .DisallowHigh value it
      = .error "string support limited to 0x20 < chr <= 0x7F when DisallowHighEightBit is true" := by
  induction value with
  | nil => simp at hr
  | cons c cs ih =>
    intro it
    have hc256 : c % 256 = c := Nat.mod_eq_of_lt (hb c (by simp))
    by_cases hc : 0x20 ≤ c ∧ c ≤ 0x7F
    · have hrest : ∃ x ∈ cs, ¬ (0x20 ≤ x ∧ x ≤ 0x7F) := by
        obtain ⟨x, hx, hxr⟩ := hr
        rcases List.mem_cons.1 hx with h | h
        · subst h; exact absurd hc hxr
        · exact ⟨x, h, hxr⟩
      simp only [copy_raw, hc256, ge_iff_le, hc, and_self, not_true_eq_false, and_false,
        if_false]
      exact ih (fun x hx => hb x (by simp [hx])) hrest _
    · simp only [copy_raw, hc256, ge_iff_le, hc, not_false_eq_true, and_self, if_true]

/-- C33: under DisallowHigh the raw-string serializer raises exactly when the value holds
a byte outside 0x20..0x7F; when it holds none, and always under AllowFull, it writes a
double quote, the bytes of the value as they are, and a double quote. -/
theorem to_string_StringRaw_bytes (it value : List Nat) (hb : ∀ c ∈ value, c < 256) :
    ((∃ e, to_string_StringRaw .DisallowHigh it value = .error e)
        ↔ ∃ c ∈ value, ¬ (0x20 ≤ c ∧ c ≤ 0x7F)) ∧
      ((∀ c ∈ value, 0x20 ≤ c ∧ c ≤ 0x7F) →
        to_string_StringRaw .DisallowHigh it value = .ok (it ++ [34] ++ value ++ [34])) ∧
      to_string_StringRaw .AllowFull it value = .ok (it ++ [34] ++ value ++ [34]) := by
  have hok : (∀ c ∈ value, 0x20 ≤ c ∧ c ≤ 0x7F) →
      to_string_StringRaw .DisallowHigh it value = .ok (it ++ [34] ++ value ++ [34]) := by
    intro hr
    cases value with
    | nil => simp [to_string_StringRaw, bind, Except.bind]
    | cons c cs =>
      simp [to_string_StringRaw, copy_to_iterator, copy_raw_DisallowHigh_ok _ hb hr, bind,
        Except.bind]
  refine ⟨⟨?_, ?_⟩, hok, ?_⟩
  · rintro ⟨e, he⟩
    by_contra hno
    have hr : ∀ c ∈ value, 0x20 ≤ c ∧ c ≤ 0x7F := by
      intro c hc
      by_contra hcr
      exact hno ⟨c, hc, hcr⟩
    rw [hok hr] at he
    cases he
  · intro hr
    cases value with
    | nil => simp at hr
    | cons c cs =>
      refine ⟨"string support limited to 0x20 < chr <= 0x7F when DisallowHighEightBit is true",
        ?_⟩
      simp only [to_string_StringRaw, List.length_cons, gt_iff_lt, Nat.zero_lt_succ,
        if_true, copy_to_iterator, Bool.false_eq_true, if_false,
        copy_raw_DisallowHigh_error _ hb hr, bind, Except.bind]
  · cases value with
    | nil => simp [to_string_StringRaw, bind, Except.bind]
    | cons c cs =>
      simp [to_string_StringRaw, copy_to_iterator, copy_raw_AllowFull, bind, Except.bind]

theorem to_string_StringRaw_bytes_witness :
    ((∃ e, to_string_StringRaw .DisallowHigh [58] [65, 200] = .error e)
        ↔ ∃ c ∈ [65, 200], ¬ (0x20 ≤ c ∧ c ≤ 0x7F)) ∧
      ((∀ c ∈ [65, 200], 0x20 ≤ c ∧ c ≤ 0x7F) →
        to_string_StringRaw .DisallowHigh [58] [65, 200]
          = .ok ([58] ++ [34] ++ [65, 200] ++ [34])) ∧
      to_string_StringRaw .AllowFull [58] [65, 200] = .ok ([58] ++ [34] ++ [65, 200] ++ [34]) :=
  to_string_StringRaw_bytes [58] [65, 200] (by decide)

/-! ## UTF-8: `utf32_to_utf8` against a standard decoder -/

theorem standard_utf8_decode_encoding (c : Nat) (hc : c ≤ 0x10FFFF) :
    standard_utf8_decode (utf8_encoding c) = if is_scalar_value c then some c else none := by
  unfold utf8_encoding
  by_cases h1 : c < 0x80
  · have hs : is_scalar_value c = true := by simp [is_scalar_value]; omega
    simp only [h1, if_true, standard_utf8_decode, hs]
    rw [if_pos (by omega)]
  · by_cases h2 : c < 0x800
    · have hs : is_scalar_value c = true := by simp [is_scalar_value]; omega
      have hb1 : is_continuation_byte (0x80 + c % 64) = true := by
        simp [is_continuation_byte]; omega
      have hval : (0xC0 + c / 64 - 0xC0) * 64 + (0x80 + c % 64 - 0x80) = c := by omega
      simp only [h1, h2, if_true, if_false, standard_utf8_decode, hval, hb1, hs]
      rw [if_pos ⟨by omega, by omega, trivial, by omega⟩]
    · by_cases h3 : c < 0x10000
      · have hb1 : is_continuation_byte (0x80 + c / 64 % 64) = true := by
          simp [is_continuation_byte]; omega
        have hb2 : is_continuation_byte (0x80 + c % 64) = true := by
          simp [is_continuation_byte]; omega
        have hval : (0xE0 + c / 4096 - 0xE0) * 4096 + (0x80 + c / 64 % 64 - 0x80) * 64
            + (0x80 + c % 64 - 0x80) = c := by omega
        simp only [h1, h2, h3, if_true, if_false, standard_utf8_decode, hval, hb1, hb2]
        by_cases hsur : 0xD800 ≤ c ∧ c ≤ 0xDFFF
        · have hs : is_scalar_value c = false := by
            simp [is_scalar_value]; omega
          rw [if_neg (by
            intro h
            exact h.2.2.2.2.2 hsur), hs]
          rfl
        · have hs : is_scalar_value c = true := by
            simp [is_scalar_value]; omega
          rw [if_pos ⟨by omega, by omega, trivial, trivial, by omega, hsur⟩, hs]
          rfl
      · have hs : is_scalar_value c = true := by simp [is_scalar_value]; omega
        have hb1 : is_continuation_byte (0x80 + c / 4096 % 64) = true := by
          simp [is_continuation_byte]; omega
        have hb2 : is_continuation_byte (0x80 + c / 64 % 64) = true := by
          simp [is_continuation_byte]; omega
        have hb3 : is_continuation_byte (0x80 + c % 64) = true := by
          simp [is_continuation_byte]; omega
        have hval : (0xF0 + c / 262144 - 0xF0) * 262144 + (0x80 + c / 4096 % 64 - 0x80) * 4096
            + (0x80 + c / 64 % 64 - 0x80) * 64 + (0x80 + c % 64 - 0x80) = c := by omega
        simp only [h1, h2, h3, if_false, standard_utf8_decode, hval, hb1, hb2, hb3, hs]
        rw [if_pos ⟨by omega, by omega, trivial, trivial, trivial, by omega, hc⟩]
        rfl

theorem utf8_encoding_length (c : Nat) :
    (utf8_encoding c).length
      = if c ≤ 0x7F then 1 else if c ≤ 0x7FF then 2 else if c ≤ 0xFFFF then 3 else 4 := by
  unfold utf8_encoding
  by_cases h1 : c < 0x80
  · simp [h1, show c ≤ 0x7F by omega]
  · by_cases h2 : c < 0x800
    · simp [h1, h2, show ¬ c ≤ 0x7F by omega, show c ≤ 0x7FF by omega]
    · by_cases h3 : c < 0x10000
      · simp [h1, h2, h3, show ¬ c ≤ 0x7F by omega, show ¬ c ≤ 0x7FF by omega,
          show c ≤ 0xFFFF by omega]
      · simp [h1, h2, h3, show ¬ c ≤ 0x7F by omega, show ¬ c ≤ 0x7FF by omega,
          show ¬ c ≤ 0xFFFF by omega]

/-- C37 as stated fails at the surrogates: for `cp = 0xD800` `utf32_to_utf8` writes the
three bytes `ED A0 80`, which a standard UTF-8 decoder rejects. -/
theorem utf32_to_utf8_surrogate_not_read_back :
    (0xD800 : Nat) ≤ 0x10FFFF ∧
    utf32_to_utf8 0xD800 [] = .ok [0xED, 0xA0, 0x80] ∧
    standard_utf8_decode [0xED, 0xA0, 0x80] = none := by
  refine ⟨by decide, rfl, rfl⟩

/-- C37, amended: `utf32_to_utf8` raises `Invalid code point` exactly when
`cp > 0x10FFFF`; for every `cp <= 0x10FFFF` it writes the bytes of the UTF-8 encoding form
of `cp`, 1, 2, 3 or 4 of them for `cp` up to 0x7F, 0x7FF, 0xFFFF, 0x10FFFF; a standard
UTF-8 decoder reads these bytes back as `cp` when `cp` is a scalar value and rejects them
when `cp` is a surrogate (0xD800..0xDFFF). -/
theorem utf32_to_utf8_standard (cp : Nat) (it : List Nat) :
    (utf32_to_utf8 cp it = .error "Invalid code point" ↔ cp > 0x10FFFF) ∧
    (cp ≤ 0x10FFFF →
      utf32_to_utf8 cp it = .ok (it ++ utf8_encoding cp) ∧
      (utf8_encoding cp).length
        = (if cp ≤ 0x7F then 1 else if cp ≤ 0x7FF then 2 else if cp ≤ 0xFFFF then 3 else 4) ∧
      (is_scalar_value cp = true → standard_utf8_decode (utf8_encoding cp) = some cp) ∧
      (is_scalar_value cp = false → standard_utf8_decode (utf8_encoding cp) = none)) := by
  constructor
  · constructor
    · intro h
      by_contra hle
      rw [utf32_to_utf8_encoding cp it (by omega)] at h
      cases h
    · intro h
      simp [utf32_to_utf8, show ¬ cp ≤ 0x7F by omega, show ¬ cp ≤ 0x7FF by omega,
        show ¬ cp ≤ 0xFFFF by omega, show ¬ cp ≤ 0x10FFFF by omega]
  · intro hc
    refine ⟨utf32_to_utf8_encoding cp it hc, utf8_encoding_length cp, ?_, ?_⟩
    · intro hs
      rw [standard_utf8_decode_encoding cp hc, hs]
      rfl
    · intro hs
      rw [standard_utf8_decode_encoding cp hc, hs]
      rfl

theorem utf32_to_utf8_standard_witness :
    (utf32_to_utf8 0x20AC [58] = .error "Invalid code point" ↔ 0x20AC > 0x10FFFF) ∧
    (0x20AC ≤ 0x10FFFF →
      utf32_to_utf8 0x20AC [58] = .ok ([58] ++ utf8_encoding 0x20AC) ∧
      (utf8_encoding 0x20AC).length
        = (if 0x20AC ≤ 0x7F then 1 else if 0x20AC ≤ 0x7FF then 2
            else if 0x20AC ≤ 0xFFFF then 3 else 4) ∧
      (is_scalar_value 0x20AC = true →
        standard_utf8_decode (utf8_encoding 0x20AC) = some 0x20AC) ∧
      (is_scalar_value 0x20AC = false →
        standard_utf8_decode (utf8_encoding 0x20AC) = none)) :=
  utf32_to_utf8_standard 0x20AC [58]

/-! ## Escaped strings are read back as one string token -/

theorem name_body_append (a b : List Nat) : ∀ escaped : Bool,
    name_body escaped a = true → name_body escaped (a ++ b) = name_body false b := by
  induction a with
  | nil =>
    intro escaped h
    cases escaped with
    | true => simp [name_body] at h
    | false => rfl
  | cons c a ih =>
    intro escaped h
    cases escaped with
    | true =>
      simp only [name_body, List.cons_append] at h ⊢
      exact ih false h
    | false =>
      simp only [name_body, List.cons_append] at h ⊢
      by_cases hc : c = 34
      · simp [hc] at h
      · simp only [hc, if_false] at h ⊢
        exact ih _ h

theorem name_body_plain (l : List Nat) (h : ∀ b ∈ l, b ≠ 34 ∧ b ≠ 92) :
    name_body false l = true := by
  induction l with
  | nil => rfl
  | cons c l ih =>
    have hc := h c (by simp)
    simp only [name_body, hc.1, if_false, hc.2, decide_False]
    exact ih (fun b hb => h b (by simp [hb]))

theorem name_body_u_escape (c : Nat) : name_body false (u_escape c) = true := by
  have hx : ∀ x, hex_upper x ≠ 34 ∧ hex_upper x ≠ 92 := by
    intro x
    unfold hex_upper
    split <;> omega
  have hplain : name_body false
      [hex_upper (c / 4096), hex_upper (c / 256), hex_upper (c / 16), hex_upper c] = true :=
    name_body_plain _ (by
      intro b hb
      simp only [List.mem_cons, List.mem_singleton, List.not_mem_nil, or_false] at hb
      rcases hb with h | h | h | h <;> subst h <;> exact hx _)
  simp only [u_escape, name_body, show (92 : Nat) ≠ 34 by decide, if_false, decide_True]
  exact hplain

theorem name_body_utf8_encoding (c : Nat) (h34 : c ≠ 34) (h92 : c ≠ 92) :
    name_body false (utf8_encoding c) = true := by
  apply name_body_plain
  intro b hb
  unfold utf8_encoding at hb
  split at hb
  · simp only [List.mem_singleton] at hb
    subst hb
    exact ⟨h34, h92⟩
  · split at hb
    · simp only [List.mem_cons, List.mem_singleton, List.not_mem_nil, or_false] at hb
      rcases hb with h | h <;> omega
    · split at hb
      · simp only [List.mem_cons, List.mem_singleton, List.not_mem_nil, or_false] at hb
        rcases hb with h | h | h <;> omega
      · simp only [List.mem_cons, List.mem_singleton, List.not_mem_nil, or_false] at hb
        rcases hb with h | h | h | h <;> omega

/-- What the serializer writes for one code point holds no double quote that a backslash
does not escape, and ends outside an escape. -/
theorem escape_code_point_name_body (mode : EightBitModes) (cp : Nat) (hcp : cp ≤ 0x10FFFF) :
    ∃ e : List Nat, (∀ it, escape_code_point mode cp it = .ok (it ++ e)) ∧
      name_body false e = true := by
  cases hs : is_short_escaped cp with
  | true =>
    refine ⟨[92, short_escape_letter cp], fun it => escape_code_point_short mode cp it hs, ?_⟩
    simp [name_body]
  | false =>
    have hne : cp ≠ 34 ∧ cp ≠ 92 := by
      simp only [is_short_escaped, Bool.decide_or, Bool.or_eq_false_iff,
        decide_eq_false_iff_not] at hs
      exact ⟨hs.1, hs.2.1⟩
    cases mode with
    | AllowFull =>
      refine ⟨utf8_encoding cp, fun it => ?_, name_body_utf8_encoding cp hne.1 hne.2⟩
      rw [escape_code_point_AllowFull cp it hs, utf32_to_utf8_encoding cp it hcp]
    | DisallowHigh =>
      by_cases h1 : cp < 0x20 ∨ (0x7F ≤ cp ∧ cp ≤ 0xFFFF)
      · exact ⟨u_escape cp, fun it => escape_code_point_DisallowHigh_hex cp it hs h1,
          name_body_u_escape cp⟩
      · by_cases h2 : 0xFFFF < cp
        · refine ⟨u_escape (0xD7C0 + cp / 1024) ++ u_escape (0xDC00 + cp % 1024),
            fun it => ?_, ?_⟩
          · rw [escape_code_point_DisallowHigh_pair cp it h2, List.append_assoc]
          · rw [name_body_append _ _ false (name_body_u_escape _)]
            exact name_body_u_escape _
        · refine ⟨[cp], fun it =>
            escape_code_point_DisallowHigh_ascii cp it hs (by omega), ?_⟩
          exact name_body_plain _ (by simp [hne.1, hne.2])

theorem escape_code_points_name_body (mode : EightBitModes) (cps : List Nat)
    (hcps : ∀ c ∈ cps, c ≤ 0x10FFFF) :
    ∃ e : List Nat, (∀ it, escape_code_points mode cps it = .ok (it ++ e)) ∧
      name_body false e = true := by
  induction cps with
  | nil => exact ⟨[], fun it => by simp [escape_code_points], rfl⟩
  | cons c cps ih =>
    obtain ⟨e1, he1, hb1⟩ := escape_code_point_name_body mode c (hcps c (by simp))
    obtain ⟨e2, he2, hb2⟩ := ih (fun x hx => hcps x (by simp [hx]))
    refine ⟨e1 ++ e2, fun it => ?_, ?_⟩
    · simp [escape_code_points, he1, he2, bind, Except.bind]
    · rw [name_body_append e1 e2 false hb1]
      exact hb2

/-- C36: for every valid UTF-8 string and either eight-bit mode the escaped-string
serializer writes an output `e` in which every double quote is escaped: the scan of the
name parser on `e` followed by a double quote returns exactly `e` and stops on that
quote. -/
theorem copy_to_iterator_escaped_one_token (mode : EightBitModes) (s : List Nat)
    (hs : valid_utf8 s) :
    ∃ e : List Nat, (∀ it, copy_to_iterator true mode s it = .ok (it ++ e)) ∧
      (∀ it, to_string_StringEscaped mode it s = .ok (it ++ [34] ++ e ++ [34])) ∧
      ∀ rest, parse_nq_scan false (e ++ 34 :: rest) = .ok (e, 34 :: rest) := by
  obtain ⟨cs, hcs, _, hle⟩ := valid_utf8_code_points hs
  obtain ⟨e, he, hb⟩ := escape_code_points_name_body mode cs hle
  have hcopy : ∀ it, copy_to_iterator true mode s it = .ok (it ++ e) := by
    intro it
    rw [copy_to_iterator_escape mode s cs it hcs]
    exact he it
  refine ⟨e, hcopy, fun it => ?_, fun rest => parse_nq_scan_body e false rest hb⟩
  simp [to_string_StringEscaped, hcopy, bind, Except.bind]

theorem copy_to_iterator_escaped_one_token_witness :
    ∃ e : List Nat,
      (∀ it, copy_to_iterator true .DisallowHigh [97, 34, 92, 195, 169] it = .ok (it ++ e)) ∧
      (∀ it, to_string_StringEscaped .DisallowHigh it [97, 34, 92, 195, 169]
        = .ok (it ++ [34] ++ e ++ [34])) ∧
      ∀ rest, parse_nq_scan false (e ++ 34 :: rest) = .ok (e, 34 :: rest) :=
  copy_to_iterator_escaped_one_token .DisallowHigh [97, 34, 92, 195, 169]
    ⟨[97, 34, 92, 233], by decide, by decide⟩

/-! ## The segment loop of `find_range2` terminates -/

theorem pop_json_path_shorter (path : List Nat) (h : path ≠ []) :
    (pop_json_path path).path.length < path.length := by
  obtain ⟨k, _, _, _, hpath, _⟩ := pop_json_path_first_delimiter path
  rw [hpath, List.length_drop]
  have hdl : (drop_leading_dot path).length ≤ path.length := by
    cases path with
    | nil => exact absurd rfl h
    | cons c rest =>
      simp only [drop_leading_dot]
      split <;> simp
  have hpos : 0 < path.length := List.length_pos.2 h
  omega

theorem pop_json_path_current_nonempty (path : List Nat)
    (h : (pop_json_path path).current.isEmpty = false) : path ≠ [] := by
  intro hp
  subst hp
  simp [pop_json_path] at h

theorem pop_segments_total : ∀ (pops : Nat) (path : List Nat), path.length < pops →
    ∃ segments, pop_segments pops path = some segments ∧ segments.length ≤ path.length := by
  intro pops
  induction pops with
  | zero => intro path h; omega
  | succ pops ih =>
    intro path h
    cases hcur : (pop_json_path path).current.isEmpty with
    | true => exact ⟨[], by simp [pop_segments, hcur], by simp⟩
    | false =>
      have hshort := pop_json_path_shorter path (pop_json_path_current_nonempty path hcur)
      obtain ⟨segs, hsegs, hlen⟩ := ih (pop_json_path path).path (by omega)
      refine ⟨(pop_json_path path).current :: segs, ?_, ?_⟩
      · simp [pop_segments, hcur, hsegs]
      · simp only [List.length_cons]; omega

theorem find_range2_loop_or_fallback (z1 z2 : Except String (Bool × Range)) :
    ∀ (pops : Nat) (rng : Range) (path : List Nat), path.length < pops →
      find_range2_loop_or z1 pops rng path = find_range2_loop_or z2 pops rng path := by
  intro pops
  induction pops with
  | zero => intro rng path h; omega
  | succ pops ih =>
    intro rng path h
    cases hcur : (pop_json_path path).current.isEmpty with
    | true => simp only [find_range2_loop_or, hcur, if_true]
    | false =>
      have hshort := pop_json_path_shorter path (pop_json_path_current_nonempty path hcur)
      have ihp : ∀ r : Range, find_range2_loop_or z1 pops r (pop_json_path path).path
          = find_range2_loop_or z2 pops r (pop_json_path path).path :=
        fun r => ih r _ (by omega)
      simp only [find_range2_loop_or, hcur, ihp]

theorem find_range2_loop_eq_or : ∀ (pops : Nat) (rng : Range) (path : List Nat),
    find_range2_loop pops rng path
      = find_range2_loop_or (.error "segment loop: path not exhausted") pops rng path := by
  intro pops
  induction pops with
  | zero => intro rng path; rfl
  | succ pops ih =>
    intro rng path
    simp only [find_range2_loop, find_range2_loop_or, ih]

/-- C38: `pop_json_path` leaves a strictly shorter path when the path is not empty and
returns an empty segment for the empty path; so the segment loop of `find_range2` goes
through at most as many segments (one pop for each) as the path has bytes, and it ends by
itself: the result of `find_range2` does not depend on what a run that is cut off after
`path.length + 1` pops would return. -/
theorem pop_json_path_terminates (path : List Nat) :
    (path ≠ [] → (pop_json_path path).path.length < path.length) ∧
    (pop_json_path []).current = [] ∧
    (∃ segments, pop_segments (path.length + 1) path = some segments ∧
      segments.length ≤ path.length) ∧
    ∀ (fallback : Except String (Bool × Range)) (rng : Range),
      find_range2_loop_or fallback (path.length + 1) rng path = find_range2 rng path := by
  refine ⟨pop_json_path_shorter path, rfl, pop_segments_total _ path (by omega), ?_⟩
  intro fallback rng
  rw [find_range2, find_range2_loop_eq_or]
  exact find_range2_loop_or_fallback _ _ _ rng path (by omega)

theorem pop_json_path_terminates_witness :
    ([91, 48, 93, 46, 97] ≠ [] →
      (pop_json_path [91, 48, 93, 46, 97]).path.length < [91, 48, 93, 46, 97].length) ∧
    (pop_json_path []).current = [] ∧
    (∃ segments, pop_segments ([91, 48, 93, 46, 97].length + 1) [91, 48, 93, 46, 97]
        = some segments ∧ segments.length ≤ [91, 48, 93, 46, 97].length) ∧
    ∀ (fallback : Except String (Bool × Range)) (rng : Range),
      find_range2_loop_or fallback ([91, 48, 93, 46, 97].length + 1) rng [91, 48, 93, 46, 97]
        = find_range2 rng [91, 48, 93, 46, 97] :=
  pop_json_path_terminates [91, 48, 93, 46, 97]

/-! ## The two overloads of `copy_to_iterator` -/

theorem copy_raw_ptr_terminated (char_is_signed : Bool) (mode : EightBitModes)
    (str : List Nat) (hb : ∀ b ∈ str, b < 256) (hnul : ∀ b ∈ str, b ≠ 0) :
    ∀ it, copy_raw_ptr char_is_signed mode (str ++ [0]) it = copy_raw mode str it := by
  induction str with
  | nil => intro it; simp [copy_raw_ptr, copy_raw]
  | cons c cs ih =>
    intro it
    have hc256 : c % 256 = c := Nat.mod_eq_of_lt (hb c (by simp))
    have hc0 : c ≠ 0 := hnul c (by simp)
    have hrange : (char_to_unsigned char_is_signed c ≥ 0x20 ∧
        char_to_unsigned char_is_signed c ≤ 0x7F) ↔ (c % 256 ≥ 0x20 ∧ c % 256 ≤ 0x7F) := by
      unfold char_to_unsigned
      rw [hc256]
      split
      · rename_i h
        have := h.2
        constructor <;> intro h2 <;> omega
      · rfl
    rw [List.cons_append]
    simp only [copy_raw_ptr, hc256, hc0, if_false, copy_raw, hrange]
    rw [ih (fun b hb2 => hb b (by simp [hb2])) (fun b hb2 => hnul b (by simp [hb2]))]

theorem sequence_length_cases (b : Nat) :
    sequence_length b = 0 ∨ sequence_length b = 1 ∨ sequence_length b = 2 ∨
      sequence_length b = 3 ∨ sequence_length b = 4 := by
  unfold sequence_length
  simp only
  split
  · simp
  · split
    · simp
    · split
      · simp
      · split <;> simp

theorem utf8_walk_ptr_terminated : ∀ (n : Nat) (str : List Nat), str.length ≤ n →
    (∀ b ∈ str, b < 256) → (∀ b ∈ str, b ≠ 0) →
    utf8_walk_ptr (n + 1) (str ++ [0]) = utf8_walk n str := by
  intro n
  induction n with
  | zero =>
    intro str hlen _ _
    have : str = [] := List.length_eq_zero.1 (by omega)
    subst this
    simp [utf8_walk_ptr, utf8_walk]
  | succ m ih =>
    intro str hlen hb hnul
    cases str with
    | nil => simp [utf8_walk_ptr, utf8_walk]
    | cons b0 rest =>
      have hb0 : b0 % 256 ≠ 0 := by
        rw [Nat.mod_eq_of_lt (hb b0 (by simp))]
        exact hnul b0 (by simp)
      have hbr : ∀ b ∈ rest, b < 256 := fun b h => hb b (by simp [h])
      have hnr : ∀ b ∈ rest, b ≠ 0 := fun b h => hnul b (by simp [h])
      simp only [List.length_cons] at hlen
      have key : ∀ r : List Nat, r.length ≤ m → (∀ b ∈ r, b ∈ rest) →
          utf8_walk_ptr (m + 1) (r ++ [0]) = utf8_walk m r :=
        fun r hr hsub => ih r hr (fun b h => hbr b (hsub b h)) (fun b h => hnr b (hsub b h))
      rcases sequence_length_cases b0 with hsl | hsl | hsl | hsl | hsl
      · simp [utf8_walk_ptr, utf8_walk, utf8_next, hsl, hb0]
      · rw [List.cons_append]
        simp only [utf8_walk_ptr, utf8_walk, utf8_next, hsl, hb0, if_false]
        rw [key rest (by omega) (fun b h => h)]
      · cases rest with
        | nil => simp [utf8_walk_ptr, utf8_walk, utf8_next, hsl, hb0]
        | cons b1 r =>
          simp only [List.length_cons] at hlen
          simp only [List.cons_append]
          simp only [utf8_walk_ptr, utf8_walk, utf8_next, hsl, hb0, if_false]
          rw [key r (by omega) (fun b h => by simp [h])]
      · cases rest with
        | nil => simp [utf8_walk_ptr, utf8_walk, utf8_next, hsl, hb0]
        | cons b1 r =>
          cases r with
          | nil => simp [utf8_walk_ptr, utf8_walk, utf8_next, hsl, hb0]
          | cons b2 r =>
            simp only [List.length_cons] at hlen
            simp only [List.cons_append]
            simp only [utf8_walk_ptr, utf8_walk, utf8_next, hsl, hb0, if_false]
            rw [key r (by omega) (fun b h => by simp [h])]
      · cases rest with
        | nil => simp [utf8_walk_ptr, utf8_walk, utf8_next, hsl, hb0]
        | cons b1 r =>
          cases r with
          | nil => simp [utf8_walk_ptr, utf8_walk, utf8_next, hsl, hb0]
          | cons b2 r =>
            cases r with
            | nil => simp [utf8_walk_ptr, utf8_walk, utf8_next, hsl, hb0]
            | cons b3 r =>
              simp only [List.length_cons] at hlen
              simp only [List.cons_append]
              simp only [utf8_walk_ptr, utf8_walk, utf8_next, hsl, hb0, if_false]
              rw [key r (by omega) (fun b h => by simp [h])]

/-- C39: for a byte string without a NUL byte, every combination of `do_escape` and the
eight-bit mode, and a `char` that is signed or not, the container overload and the
`char const *` overload of `copy_to_iterator` return the same output, or neither returns
one. -/
theorem copy_to_iterator_overloads_agree (char_is_signed do_escape : Bool)
    (mode : EightBitModes) (str it : List Nat)
    (hbytes : ∀ b ∈ str, b < 256) (hnul : ∀ b ∈ str, b ≠ 0) :
    (∀ o, copy_to_iterator do_escape mode str it = .ok o
      ↔ copy_to_iterator_ptr char_is_signed do_escape mode (some str) it = .ok o) ∧
    ((∃ e, copy_to_iterator do_escape mode str it = .error e)
      ↔ ∃ e, copy_to_iterator_ptr char_is_signed do_escape mode (some str) it = .error e) := by
  have hwalk : utf8_walk_ptr (str.length + 1) (str ++ [0]) = utf8_code_points str :=
    utf8_walk_ptr_terminated str.length str (Nat.le_refl _) hbytes hnul
  cases do_escape with
  | false =>
    have heq : copy_to_iterator_ptr char_is_signed false mode (some str) it
        = copy_to_iterator false mode str it := by
      simp [copy_to_iterator_ptr, copy_to_iterator,
        copy_raw_ptr_terminated char_is_signed mode str hbytes hnul]
    rw [heq]
    exact ⟨fun _ => Iff.rfl, Iff.rfl⟩
  | true =>
    cases hcp : utf8_code_points str with
    | some cps =>
      have heq : copy_to_iterator_ptr char_is_signed true mode (some str) it
          = copy_to_iterator true mode str it := by
        simp [copy_to_iterator_ptr, copy_to_iterator, hwalk, hcp]
      rw [heq]
      exact ⟨fun _ => Iff.rfl, Iff.rfl⟩
    | none =>
      have h1 : copy_to_iterator true mode str it
          = .error "utf8::unchecked::iterator walked outside the container" := by
        simp [copy_to_iterator, hcp]
      have h2 : copy_to_iterator_ptr char_is_signed true mode (some str) it
          = .error "utf8::unchecked::iterator walked behind the terminator" := by
        simp [copy_to_iterator_ptr, hwalk, hcp]
      rw [h1, h2]
      exact ⟨fun o => by simp, ⟨fun _ => ⟨_, rfl⟩, fun _ => ⟨_, rfl⟩⟩⟩

theorem copy_to_iterator_overloads_agree_witness :
    (∀ o, copy_to_iterator true .DisallowHigh [97, 34, 195, 169] [58] = .ok o
      ↔ copy_to_iterator_ptr true true .DisallowHigh (some [97, 34, 195, 169]) [58] = .ok o) ∧
    ((∃ e, copy_to_iterator true .DisallowHigh [97, 34, 195, 169] [58] = .error e)
      ↔ ∃ e, copy_to_iterator_ptr true true .DisallowHigh (some [97, 34, 195, 169]) [58]
          = .error e) :=
  copy_to_iterator_overloads_agree true true .DisallowHigh [97, 34, 195, 169] [58]
    (by decide) (by decide)

/-! ## The linking class: `from_json_array_string` -/

theorem items_text_head {Derived : Type} (items : List (ArrayItem Derived)) (tail : List Nat)
    (h : ∀ i ∈ items, ∃ t, i.text = 123 :: t) :
    ∃ c r, items_text items ++ 93 :: tail = c :: r ∧ (c = 123 ∨ c = 93) := by
  cases items with
  | nil => exact ⟨93, tail, rfl, Or.inr rfl⟩
  | cons i rest =>
    obtain ⟨t, ht⟩ := h i (by simp)
    exact ⟨123,
      t ++ (i.w1 ++ ((if i.comma then 44 :: i.w2 else []) ++ (items_text rest ++ 93 :: tail))),
      by simp [items_text, ArrayItem.bytes, ht], Or.inl rfl⟩

theorem items_text_length {Derived : Type} : ∀ (items : List (ArrayItem Derived)),
    (∀ i ∈ items, ∃ t, i.text = 123 :: t) → items.length ≤ (items_text items).length
  | [], _ => by simp
  | i :: rest, h => by
    obtain ⟨t, ht⟩ := h i (by simp)
    have := items_text_length rest (fun x hx => h x (by simp [hx]))
    simp only [items_text, ArrayItem.bytes, ht, List.length_append, List.length_cons]
    omega

/-- The element loop on the items of an array text: every object is parsed and appended,
with or without a comma behind it, and the loop stops on the closing bracket. -/
theorem from_json_array_string_loop_items {Derived : Type} (std_hash : List Nat → Nat)
    (ignore_missing : Bool) (member_map : List (json_link_functions_info Derived))
    (init : Derived) (tail : List Nat) :
    ∀ (items : List (ArrayItem Derived)) (fuel : Nat) (result : List Derived),
      (∀ i ∈ items, all_spaces i.w1 = true ∧ all_spaces i.w2 = true ∧
        (∃ t, i.text = 123 :: t) ∧
        ∀ Y, from_json_string std_hash ignore_missing member_map init (i.text ++ Y)
          = .ok (Y, i.value)) →
      items.length + 1 ≤ fuel →
      from_json_array_string_loop std_hash ignore_missing member_map init fuel
          (items_text items ++ 93 :: tail) result
        = .ok (result ++ items.map (fun i => i.value)) := by
  intro items
  induction items with
  | nil =>
    intro fuel result _ hfuel
    obtain ⟨fuel, rfl⟩ : ∃ k, fuel = k + 1 := ⟨fuel - 1, by simp at hfuel; omega⟩
    simp [items_text, from_json_array_string_loop]
  | cons i rest ih =>
    intro fuel result h hfuel
    obtain ⟨fuel, rfl⟩ : ∃ k, fuel = k + 1 := ⟨fuel - 1, by simp at hfuel; omega⟩
    obtain ⟨hw1, hw2, ⟨t, ht⟩, hparse⟩ := h i (by simp)
    have hrest : ∀ x ∈ rest, all_spaces x.w1 = true ∧ all_spaces x.w2 = true ∧
        (∃ t, x.text = 123 :: t) ∧
        ∀ Y, from_json_string std_hash ignore_missing member_map init (x.text ++ Y)
          = .ok (Y, x.value) := fun x hx => h x (by simp [hx])
    obtain ⟨c, r, hR, hc⟩ := items_text_head rest tail (fun x hx => (hrest x hx).2.2.1)
    have hcs : is_json_space c = false := by rcases hc with h | h <;> subst h <;> decide
    have hc44 : c ≠ 44 := by rcases hc with h | h <;> subst h <;> decide
    have hview : items_text (i :: rest) ++ 93 :: tail
        = 123 :: (t ++ (i.w1 ++ ((if i.comma then 44 :: i.w2 else []) ++ c :: r))) := by
      simp [items_text, ArrayItem.bytes, ht, ← hR]
    have hitem : i.text ++ (i.w1 ++ ((if i.comma then 44 :: i.w2 else []) ++ c :: r))
        = 123 :: (t ++ (i.w1 ++ ((if i.comma then 44 :: i.w2 else []) ++ c :: r))) := by
      simp [ht]
    have hround : from_json_array_string_item std_hash ignore_missing member_map init
        (123 :: (t ++ (i.w1 ++ ((if i.comma then 44 :: i.w2 else []) ++ c :: r)))) result
        = .ok (c :: r, result ++ [i.value]) := by
      simp only [from_json_array_string_item, view_front, daw_throw_on_false,
        beq_self_eq_true, if_true, bind, Except.bind, ← hitem, hparse]
      cases hcomma : i.comma with
      | true =>
        have h1 : skip_ws (i.w1 ++ 44 :: (i.w2 ++ c :: r)) = 44 :: (i.w2 ++ c :: r) :=
          skip_ws_separator _ 44 _ hw1 (by simp)
        have h2 : skip_ws (i.w2 ++ c :: r) = c :: r := by
          unfold skip_ws
          rw [skip_spaces_append _ _ hw2, skip_spaces_cons_of_not_space _ _ hcs]
        simp [h1, h2]
      | false =>
        have h1 : skip_ws (i.w1 ++ c :: r) = c :: r := by
          unfold skip_ws
          rw [skip_spaces_append _ _ hw1, skip_spaces_cons_of_not_space _ _ hcs]
        simp [h1, hc44]
    rw [hview, from_json_array_string_loop]
    simp only [show (123 : Nat) ≠ 93 by decide, if_false, hround, Except.bind]
    rw [← hR, ih fuel _ hrest (by simp at hfuel ⊢; omega)]
    simp

/-- C40: `from_json_array_string` on an array text of objects that `from_json_string`
parses returns the objects in the order of the text, one for each, whether or not a comma
stands behind an object: the commas between two objects may be left out and one may stand
before `]`, and the result is that of the text with its commas in place. -/
theorem from_json_array_string_separators {Derived : Type} (std_hash : List Nat → Nat)
    (ignore_missing : Bool) (member_map : List (json_link_functions_info Derived))
    (init : Derived) (w0 w1 tail : List Nat) (items : List (ArrayItem Derived))
    (hw0 : all_spaces w0 = true) (hw1 : all_spaces w1 = true)
    (hitems : ∀ i ∈ items, all_spaces i.w1 = true ∧ all_spaces i.w2 = true ∧
      (∃ t, i.text = 123 :: t) ∧
      ∀ Y, from_json_string std_hash ignore_missing member_map init (i.text ++ Y)
        = .ok (Y, i.value)) :
    from_json_array_string std_hash ignore_missing member_map init
        (w0 ++ 91 :: (w1 ++ (items_text items ++ 93 :: tail)))
      = .ok (items.map (fun i => i.value)) := by
  obtain ⟨c, r, hR, hc⟩ := items_text_head items tail (fun x hx => (hitems x hx).2.2.1)
  have hcs : is_json_space c = false := by rcases hc with h | h <;> subst h <;> decide
  have hopen : skip_ws (w0 ++ 91 :: (w1 ++ (items_text items ++ 93 :: tail)))
      = 91 :: (w1 ++ (items_text items ++ 93 :: tail)) := by
    unfold skip_ws
    rw [skip_spaces_append _ _ hw0]
    exact skip_spaces_cons_of_not_space _ _ (by decide)
  have hin : skip_ws (w1 ++ (items_text items ++ 93 :: tail))
      = items_text items ++ 93 :: tail := by
    unfold skip_ws
    rw [skip_spaces_append _ _ hw1, hR, skip_spaces_cons_of_not_space _ _ hcs]
  have hlen := items_text_length items (fun x hx => (hitems x hx).2.2.1)
  simp only [from_json_array_string, hopen, view_front, daw_throw_on_false, beq_self_eq_true,
    if_true, bind, Except.bind, List.drop_succ_cons, List.drop_zero, hin]
  rw [from_json_array_string_loop_items std_hash ignore_missing member_map init tail items _ []
    hitems (by simp only [List.length_append, List.length_cons]; omega)]
  simp

theorem LinkedExample.from_json_string_member_b (b : Bool) (init : LinkedExample)
    (Y : List Nat) :
    from_json_string example_hash false LinkedExample.link_map_b init
        (object_text [] [LinkedExample.member_b b] ++ Y)
      = .ok (Y, { init with b := b }) := by
  have h := from_json_string_object example_hash false LinkedExample.link_map_b
    (fun _ _ d => { d with b := b }) init [] [] Y [LinkedExample.member_b b] rfl rfl
    (by cases b <;> decide)
    (by
      intro x hx f hf d Z _
      simp only [List.mem_singleton] at hx
      subst hx
      have hfind : find_link_func_member LinkedExample.link_map_b (example_hash [98])
          = some (link_json_boolean_fn example_hash [98] (fun obj v => { obj with b := v })
              (fun obj => obj.b)) := rfl
      have hname : (LinkedExample.member_b b).name = [98] := rfl
      rw [hname, hfind] at hf
      cases hf
      exact link_json_boolean_fn_setter example_hash [98] _ _ b d Z)
  simp only [List.nil_append] at h
  rw [h]
  rfl

theorem from_json_array_string_separators_witness :
    from_json_array_string example_hash false LinkedExample.link_map_b ⟨0, false, []⟩
        ([32] ++ 91 :: ([] ++ (items_text LinkedExample.items_b ++ 93 :: [10])))
      = .ok (LinkedExample.items_b.map (fun i => i.value)) :=
  from_json_array_string_separators example_hash false LinkedExample.link_map_b
    ⟨0, false, []⟩ [32] [] [10] LinkedExample.items_b rfl rfl
    (by
      intro i hi
      simp only [LinkedExample.items_b, List.mem_cons, List.mem_singleton, List.not_mem_nil,
        or_false] at hi
      rcases hi with hi | hi <;> subst hi
      · exact ⟨rfl, rfl, ⟨_, rfl⟩, fun Y => LinkedExample.from_json_string_member_b true _ Y⟩
      · exact ⟨rfl, rfl, ⟨_, rfl⟩, fun Y => LinkedExample.from_json_string_member_b false _ Y⟩)

end daw.json
